import Mathlib

/-!
Verification of the TOON codec specification (spec.md) for the toon_rust
repository.

The repository ships only its WASM bindings, integration tests, and benches;
the core codec modules (crate::encode, crate::decode, crate::options,
crate::json_stream) are not part of the provided sources.  Following the
specification, the codec is therefore modelled here from the spec's own
words (each such definition carries a doc comment beginning `Modelled from
the spec:`), and the claims are settled against this model.

Text is modelled as `List Char`.  IEEE f64 payloads are modelled by exact
canonical decimal representatives (`F64.fin`), which is faithful for the
codec's purposes: the spec renders finite numbers as shortest
round-trippable decimals and collapses non-finite numbers to `null`.
-/

set_option maxHeartbeats 1000000

namespace Toon

/-- Text and tokens are lists of characters. -/
abbrev Str := List Char

/-! ## Character classes -/

/-- ASCII decimal digit test. -/
def isDigitCh (c : Char) : Bool := '0' ≤ c && c ≤ '9'

/-- Numeric value of a digit character. -/
def digitVal (c : Char) : Nat := c.toNat - '0'.toNat

/-- Character for a decimal digit value (values ≥ 9 clamp to '9'). -/
def digitCh : Nat → Char
  | 0 => '0' | 1 => '1' | 2 => '2' | 3 => '3' | 4 => '4'
  | 5 => '5' | 6 => '6' | 7 => '7' | 8 => '8' | _ => '9'

/-- ASCII letter test. -/
def isAlphaCh (c : Char) : Bool := ('a' ≤ c && c ≤ 'z') || ('A' ≤ c && c ≤ 'Z')

/-- Modelled from the spec: first character of an unquoted key,
`[A-Za-z_]` (§4.1). -/
def isIdentStart (c : Char) : Bool := isAlphaCh c || c == '_'

/-- Modelled from the spec: subsequent characters of an unquoted key,
`[A-Za-z0-9_]` (§4.1). -/
def isIdentCh (c : Char) : Bool := isAlphaCh c || isDigitCh c || c == '_'

/-- Control characters `U+0000..U+001F` and `U+007F` (§4.1). -/
def isCtl (c : Char) : Bool := c.toNat < 32 || c.toNat == 127

theorem digitVal_digitCh {d : Nat} (h : d < 10) : digitVal (digitCh d) = d := by
  interval_cases d <;> rfl

theorem isDigitCh_digitCh {d : Nat} (h : d < 10) : isDigitCh (digitCh d) = true := by
  interval_cases d <;> rfl

/-! ## Decimal digit strings -/

/-- Big-endian decimal digits of a natural number (the digits of `0` are `[0]`). -/
def digitsOf (n : Nat) : List Nat :=
  if h : n < 10 then [n]
  else
    have : n / 10 < n := Nat.div_lt_self (by omega) (by omega)
    digitsOf (n / 10) ++ [n % 10]

/-- Reassemble a big-endian digit list into a natural number. -/
def natOfDigits (l : List Nat) : Nat := l.foldl (fun a d => 10 * a + d) 0

theorem natOfDigits_nil : natOfDigits [] = 0 := rfl

theorem foldl_digits_append (l : List Nat) (d a : Nat) :
    (l ++ [d]).foldl (fun a d => 10 * a + d) a =
      10 * (l.foldl (fun a d => 10 * a + d) a) + d := by
  simp [List.foldl_append]

theorem natOfDigits_append_one (l : List Nat) (d : Nat) :
    natOfDigits (l ++ [d]) = 10 * natOfDigits l + d := by
  simp [natOfDigits, foldl_digits_append]

theorem natOfDigits_digitsOf (n : Nat) : natOfDigits (digitsOf n) = n := by
  induction n using Nat.strong_induction_on with
  | _ n ih =>
    rw [digitsOf]
    by_cases h : n < 10
    · simp [h, natOfDigits]
    · have hd : n / 10 < n := Nat.div_lt_self (by omega) (by omega)
      simp only [h, dite_false]
      rw [natOfDigits_append_one, ih _ hd]
      omega

theorem digitsOf_lt10 (n : Nat) : ∀ d ∈ digitsOf n, d < 10 := by
  induction n using Nat.strong_induction_on with
  | _ n ih =>
    rw [digitsOf]
    by_cases h : n < 10
    · simp [h]
    · have hd : n / 10 < n := Nat.div_lt_self (by omega) (by omega)
      simp only [h, dite_false]
      intro d hdmem
      rcases List.mem_append.mp hdmem with h1 | h1
      · exact ih _ hd d h1
      · simp at h1; omega

theorem digitsOf_ne_nil (n : Nat) : digitsOf n ≠ [] := by
  rw [digitsOf]
  by_cases h : n < 10 <;> simp [h]

theorem digitsOf_head_ne_zero (n : Nat) (hn : n ≠ 0) :
    ∀ d, (digitsOf n).head? = some d → d ≠ 0 := by
  induction n using Nat.strong_induction_on with
  | _ n ih =>
    rw [digitsOf]
    by_cases h : n < 10
    · simp [h]; omega
    · have hd : n / 10 < n := Nat.div_lt_self (by omega) (by omega)
      simp only [h, dite_false]
      intro d hdmem
      rw [List.head?_append_of_ne_nil _ (digitsOf_ne_nil _)] at hdmem
      exact ih _ hd (by omega) d hdmem

/-- Digit characters of a natural number. -/
def natChars (n : Nat) : Str := (digitsOf n).map digitCh

theorem natChars_ne_nil (n : Nat) : natChars n ≠ [] := by
  simp [natChars, digitsOf_ne_nil]

/-- Scan a maximal run of digit characters into their values. -/
def scanDigits : Str → List Nat × Str
  | [] => ([], [])
  | c :: cs =>
    if isDigitCh c then
      let p := scanDigits cs
      (digitVal c :: p.1, p.2)
    else ([], c :: cs)

/-- Holds when the text does not begin with a digit character. -/
def nonDigitStart : Str → Bool
  | [] => true
  | c :: _ => !isDigitCh c

theorem scanDigits_exact (l : List Nat) (rest : Str) (hl : ∀ d ∈ l, d < 10)
    (hrest : nonDigitStart rest = true) :
    scanDigits (l.map digitCh ++ rest) = (l, rest) := by
  induction l with
  | nil =>
    cases rest with
    | nil => rfl
    | cons c cs =>
      simp only [nonDigitStart, Bool.not_eq_true'] at hrest
      simp [scanDigits, hrest]
  | cons d ds ih =>
    have hd : d < 10 := hl d (by simp)
    have hds : ∀ x ∈ ds, x < 10 := fun x hx => hl x (by simp [hx])
    simp [scanDigits, isDigitCh_digitCh hd, ih hds, digitVal_digitCh hd]

theorem scanDigits_suffix_len (s : Str) : (scanDigits s).2.length ≤ s.length := by
  induction s with
  | nil => simp [scanDigits]
  | cons c cs ih =>
    by_cases h : isDigitCh c
    · simp only [scanDigits, h, if_true]
      simpa using Nat.le_succ_of_le ih
    · simp [scanDigits, h]

/-! ## The number model

IEEE f64 payloads are modelled by exact canonical decimal representatives:
a sign, an integer part, and a list of fraction digits.  This is faithful
for the codec because the spec renders finite numbers as shortest
round-trippable decimals (which are exactly the canonical decimals here)
and collapses non-finite numbers to `null` (§4.1, §9). -/

inductive F64
  | nan
  | posInf
  | negInf
  | fin (neg : Bool) (ip : Nat) (frac : List Nat)
deriving DecidableEq, Repr

/-- Canonical decimal representative: digits below ten, no trailing
fractional zero, and no negative zero. -/
def F64.canonical : F64 → Bool
  | .fin neg ip frac =>
      frac.all (fun d => decide (d < 10)) && (frac.getLast? != some 0)
        && !(neg && ip == 0 && frac.isEmpty)
  | _ => true

/-- Finiteness test (true exactly on `fin`). -/
def F64.finite : F64 → Bool
  | .fin _ _ _ => true
  | _ => false

def nullTok : Str := ['n', 'u', 'l', 'l']
def trueTok : Str := ['t', 'r', 'u', 'e']
def falseTok : Str := ['f', 'a', 'l', 's', 'e']

/-- Modelled from the spec: number rendering (§4.1) — integral values render
without a decimal point, other finite values as their canonical decimal;
non-finite values render as `null`. -/
def renderF64 : F64 → Str
  | .fin neg ip frac =>
      (if neg then ['-'] else []) ++ natChars ip ++
        (if frac.isEmpty then [] else '.' :: frac.map digitCh)
  | _ => nullTok

/-- Strip trailing zero digits from a fraction digit list. -/
def stripTrailZeros (l : List Nat) : List Nat :=
  (l.reverse.dropWhile (fun d => d == 0)).reverse

theorem stripTrailZeros_eq_self (l : List Nat) (h : l.getLast? ≠ some 0) :
    stripTrailZeros l = l := by
  unfold stripTrailZeros
  cases hl : l.reverse with
  | nil => simpa using congrArg List.reverse hl
  | cons a t =>
    have ha : a ≠ 0 := by
      intro ha0
      apply h
      rw [← List.head?_reverse, hl, ha0]
      rfl
    rw [List.dropWhile_cons_of_neg (by simpa using ha), ← hl, List.reverse_reverse]

/-- Build a finite number from an integer part and fraction digits,
normalising away trailing fractional zeros and negative zero. -/
def normF64 (neg : Bool) (ip : Nat) (fracs : List Nat) : F64 :=
  let fr := stripTrailZeros fracs
  if ip == 0 && fr.isEmpty then F64.fin false 0 [] else F64.fin neg ip fr

/-- Combine sign, integer digits, fraction digits, and a base-ten exponent
into a normalised finite number (the exponent shifts the decimal point). -/
def mkF64 (neg : Bool) (ints fracs : List Nat) (ex : Int) : F64 :=
  if ex = 0 then normF64 neg (natOfDigits ints) fracs
  else
    let s : Int := ex - fracs.length
    let m := ints ++ fracs
    if 0 ≤ s then normF64 neg (natOfDigits m * 10 ^ s.toNat) []
    else
      let k := (-s).toNat
      if k ≤ m.length then
        normF64 neg (natOfDigits (m.take (m.length - k))) (m.drop (m.length - k))
      else normF64 neg 0 (List.replicate (k - m.length) 0 ++ m)

/-- Scan an exponent tail (after the `e`/`E`): optional sign then digits. -/
def scanExpTail (r : Str) : Option (Int × Str) :=
  let p : Int × Str := match r with
    | '+' :: t => (1, t)
    | '-' :: t => (-1, t)
    | _ => (1, r)
  let q := scanDigits p.2
  if q.1.isEmpty then none else some (p.1 * natOfDigits q.1, q.2)

/-- Scan an optional exponent part. -/
def scanExp : Str → Option (Int × Str)
  | 'e' :: r => scanExpTail r
  | 'E' :: r => scanExpTail r
  | s => some (0, s)

/-- Scan an optional fraction part (a `.` must be followed by digits). -/
def scanFrac : Str → Option (List Nat × Str)
  | '.' :: r =>
    let p := scanDigits r
    if p.1.isEmpty then none else some p
  | s => some ([], s)

/-- Scan the unsigned part of a number token: integer digits with no leading
zeros except `0` itself, optional fraction, optional exponent; the whole
text must be consumed. -/
def scanUnsigned (neg : Bool) (s1 : Str) : Option F64 :=
  let pi := scanDigits s1
  if pi.1.isEmpty then none
  else if 1 < pi.1.length && pi.1.head? == some 0 then none
  else
    match scanFrac pi.2 with
    | none => none
    | some (fracs, s3) =>
      match scanExp s3 with
      | none => none
      | some (ex, s4) =>
        if s4.isEmpty then some (mkF64 neg pi.1 fracs ex) else none

/-- Modelled from the spec: number scanning (§4.1) — optional leading minus,
decimal integer part with no leading zeros except `0` itself, optional
fraction, optional `e`/`E` exponent with sign; `+` prefix, hex, octal and
underscores are rejected. -/
def scanNumber (s : Str) : Option F64 :=
  match s with
  | c :: r => if c = '-' then scanUnsigned true r else scanUnsigned false (c :: r)
  | [] => scanUnsigned false []

theorem scanNumber_not_dash {c : Char} (h : ¬c = '-') (t : Str) :
    scanNumber (c :: t) = scanUnsigned false (c :: t) := by
  simp [scanNumber, h]

theorem mkF64_canonical_id (neg : Bool) (ip : Nat) (frac : List Nat)
    (hc : F64.canonical (.fin neg ip frac) = true) :
    mkF64 neg (digitsOf ip) frac 0 = .fin neg ip frac := by
  simp only [F64.canonical, Bool.and_eq_true, List.all_eq_true, bne_iff_ne,
    Bool.not_eq_true', Bool.and_eq_false_iff, decide_eq_true_eq] at hc
  obtain ⟨⟨_, hlast⟩, hnz⟩ := hc
  rw [mkF64, if_pos rfl, natOfDigits_digitsOf, normF64]
  rw [stripTrailZeros_eq_self _ hlast]
  by_cases hip : ip = 0
  · cases hfr : frac with
    | nil =>
      have hneg : neg = false := by
        rcases hnz with h | h
        · rcases h with h | h
          · exact h
          · simp [hip] at h
        · simp [hfr] at h
      simp [hip, hfr, hneg]
    | cons f fs => simp [hip, hfr]
  · simp [hip]

theorem scanDigits_natChars (ip : Nat) (rest : Str) (h : nonDigitStart rest = true) :
    scanDigits (natChars ip ++ rest) = (digitsOf ip, rest) :=
  scanDigits_exact _ _ (digitsOf_lt10 ip) h

theorem scanDigits_natChars_nil (ip : Nat) :
    scanDigits (natChars ip) = (digitsOf ip, []) := by
  have := scanDigits_natChars ip [] rfl
  simpa using this

theorem leading_zero_check_false (ip : Nat) :
    (1 < (digitsOf ip).length && (digitsOf ip).head? == some 0) = false := by
  by_cases h : ip < 10
  · rw [digitsOf, dif_pos h]
    simp
  · have hne : ip ≠ 0 := by omega
    cases hh : (digitsOf ip).head? with
    | none => simp [hh]
    | some d =>
      have := digitsOf_head_ne_zero ip hne d hh
      simp [hh, this]

theorem scanUnsigned_render (neg : Bool) (ip : Nat) (frac : List Nat)
    (hc : F64.canonical (.fin neg ip frac) = true) :
    scanUnsigned neg (natChars ip ++
      (if frac.isEmpty then [] else '.' :: frac.map digitCh)) =
      some (F64.fin neg ip frac) := by
  have hfd : ∀ d ∈ frac, d < 10 := by
    have h2 := hc
    simp only [F64.canonical, Bool.and_eq_true, List.all_eq_true,
      decide_eq_true_eq] at h2
    exact h2.1.1
  cases hfr : frac with
  | nil =>
    rw [hfr] at hc
    rw [scanUnsigned]
    simp only [List.isEmpty_nil, if_true, List.append_nil, scanDigits_natChars_nil]
    rw [if_neg (by simp [digitsOf_ne_nil]), if_neg (by rw [leading_zero_check_false ip]; simp)]
    simp only [scanFrac, scanExp, List.isEmpty_nil, if_true]
    exact congrArg some (mkF64_canonical_id neg ip [] hc)
  | cons f fs =>
    rw [hfr] at hc
    have harg : (natChars ip ++
        if (f :: fs).isEmpty then [] else '.' :: (f :: fs).map digitCh)
        = natChars ip ++ '.' :: (f :: fs).map digitCh := by simp
    rw [harg, scanUnsigned]
    rw [scanDigits_natChars ip ('.' :: (f :: fs).map digitCh) (by rfl)]
    rw [if_neg (by simp [List.isEmpty_iff, digitsOf_ne_nil]),
      if_neg (by simp [leading_zero_check_false ip])]
    have hsd : scanDigits ((f :: fs).map digitCh) = (f :: fs, []) := by
      have h3 := scanDigits_exact (f :: fs) [] (hfr ▸ hfd) rfl
      simpa using h3
    simp only [scanFrac, hsd, List.isEmpty_cons, if_false]
    simp only [scanExp, List.isEmpty_nil, if_true]
    exact congrArg some (mkF64_canonical_id neg ip (f :: fs) hc)

theorem scanNumber_render (x : F64) (hf : x.finite = true) (hc : x.canonical = true) :
    scanNumber (renderF64 x) = some x := by
  cases x with
  | nan => simp [F64.finite] at hf
  | posInf => simp [F64.finite] at hf
  | negInf => simp [F64.finite] at hf
  | fin neg ip frac =>
    cases neg with
    | true =>
      have h1 : renderF64 (.fin true ip frac) = '-' :: (natChars ip ++
          (if frac.isEmpty then [] else '.' :: frac.map digitCh)) := by
        simp [renderF64]
      rw [h1, scanNumber, if_pos rfl]
      exact scanUnsigned_render true ip frac hc
    | false =>
      have hr : renderF64 (.fin false ip frac) = natChars ip ++
          (if frac.isEmpty then [] else '.' :: frac.map digitCh) := by
        simp [renderF64]
      rw [hr]
      cases hn : natChars ip with
      | nil => exact absurd hn (natChars_ne_nil ip)
      | cons c t =>
        have hcd : isDigitCh c = true := by
          have hm : c ∈ natChars ip := by rw [hn]; simp
          obtain ⟨d, hd, hcd⟩ := List.mem_map.mp hm
          exact hcd ▸ isDigitCh_digitCh (digitsOf_lt10 ip d hd)
        have hcne : ¬c = '-' := by
          intro he
          rw [he] at hcd
          simp [isDigitCh] at hcd
        rw [List.cons_append, scanNumber_not_dash hcne, ← List.cons_append, ← hn]
        exact scanUnsigned_render false ip frac hc

/-! ## String escaping and quoted-token scanning -/

/-- The opening-brace and closing-brace characters. -/
def lbrace : Char := Char.ofNat 123

def rbrace : Char := Char.ofNat 125

/-- Lower-case hexadecimal digit character (values ≥ 15 clamp to 'f'). -/
def hexDigitCh : Nat → Char
  | 0 => '0' | 1 => '1' | 2 => '2' | 3 => '3' | 4 => '4'
  | 5 => '5' | 6 => '6' | 7 => '7' | 8 => '8' | 9 => '9'
  | 10 => 'a' | 11 => 'b' | 12 => 'c' | 13 => 'd' | 14 => 'e' | _ => 'f'

/-- Hexadecimal digit value (either case). -/
def hexVal (c : Char) : Option Nat :=
  if isDigitCh c then some (digitVal c)
  else if 'a' ≤ c && c ≤ 'f' then some (c.toNat - 'a'.toNat + 10)
  else if 'A' ≤ c && c ≤ 'F' then some (c.toNat - 'A'.toNat + 10)
  else none

theorem hexVal_hexDigitCh {d : Nat} (h : d < 16) : hexVal (hexDigitCh d) = some d := by
  interval_cases d <;> rfl

/-- Modelled from the spec: escape one character of a quoted string or key
(§4.1): named escapes for quote, backslash, newline, carriage return, tab,
backspace and form feed; `\u00XX` for the remaining controls; everything
else is literal. -/
def escChar (c : Char) : Str :=
  if c = '"' then ['\\', '"']
  else if c = '\\' then ['\\', '\\']
  else if c = '\n' then ['\\', 'n']
  else if c = '\r' then ['\\', 'r']
  else if c = '\t' then ['\\', 't']
  else if c.toNat = 8 then ['\\', 'b']
  else if c.toNat = 12 then ['\\', 'f']
  else if isCtl c then
    ['\\', 'u', '0', '0', hexDigitCh (c.toNat / 16), hexDigitCh (c.toNat % 16)]
  else [c]

/-- Escape a whole string body. -/
def escapeStr (s : Str) : Str := s.foldr (fun c acc => escChar c ++ acc) []

theorem escapeStr_nil : escapeStr [] = [] := rfl

theorem escapeStr_cons (c : Char) (cs : Str) :
    escapeStr (c :: cs) = escChar c ++ escapeStr cs := rfl

/-- Render a quoted string or key token. -/
def renderQuoted (s : Str) : Str := '"' :: escapeStr s ++ ['"']

/-- Modelled from the spec: named escapes accepted on unescape (§4.1). -/
def unescCh (c : Char) : Option Char :=
  if c = '"' then some '"'
  else if c = '\\' then some '\\'
  else if c = 'n' then some '\n'
  else if c = 'r' then some '\r'
  else if c = 't' then some '\t'
  else if c = 'b' then some (Char.ofNat 8)
  else if c = 'f' then some (Char.ofNat 12)
  else none

/-- Scan the body of a quoted token after its opening quote, returning the
unescaped content and the text after the closing quote. -/
def scanQuotedBody : Str → Option (Str × Str)
  | [] => none
  | c :: r =>
    if c = '"' then some ([], r)
    else if c = '\\' then
      match r with
      | 'u' :: a :: b :: c2 :: d :: r2 =>
        match hexVal a, hexVal b, hexVal c2, hexVal d with
        | some va, some vb, some vc, some vd =>
          (scanQuotedBody r2).map
            (fun p => (Char.ofNat (((va * 16 + vb) * 16 + vc) * 16 + vd) :: p.1, p.2))
        | _, _, _, _ => none
      | e :: r2 =>
        match unescCh e with
        | some ch => (scanQuotedBody r2).map (fun p => (ch :: p.1, p.2))
        | none => none
      | [] => none
    else (scanQuotedBody r).map (fun p => (c :: p.1, p.2))

theorem scanQuotedBody_plain {c : Char} (h1 : ¬c = '"') (h2 : ¬c = '\\') (r : Str) :
    scanQuotedBody (c :: r) = (scanQuotedBody r).map (fun p => (c :: p.1, p.2)) := by
  rw [scanQuotedBody.eq_def]
  simp [h1, h2]

theorem scanQuotedBody_quote (r : Str) : scanQuotedBody ('"' :: r) = some ([], r) := by
  rw [scanQuotedBody.eq_def]
  simp

theorem scanQuotedBody_unicode (hi lo : Nat) (hhi : hi < 16) (hlo : lo < 16) (t : Str) :
    scanQuotedBody ('\\' :: 'u' :: '0' :: '0' :: hexDigitCh hi :: hexDigitCh lo :: t)
      = (scanQuotedBody t).map (fun p => (Char.ofNat (16 * hi + lo) :: p.1, p.2)) := by
  rw [scanQuotedBody.eq_def]
  have h0 : hexVal '0' = some 0 := rfl
  simp only [h0, hexVal_hexDigitCh hhi, hexVal_hexDigitCh hlo, reduceIte]
  simp only [show ((0 * 16 + 0) * 16 + hi) * 16 + lo = 16 * hi + lo from by ring]
  rw [if_neg (by decide)]

theorem isCtl_toNat {c : Char} (h : isCtl c = true) : c.toNat < 32 ∨ c.toNat = 127 := by
  simp only [isCtl, Bool.or_eq_true, decide_eq_true_eq, beq_iff_eq] at h
  exact h

theorem scanQuotedBody_escape (s : Str) (rest : Str) :
    scanQuotedBody (escapeStr s ++ '"' :: rest) = some (s, rest) := by
  induction s with
  | nil => rw [escapeStr_nil, List.nil_append, scanQuotedBody_quote]
  | cons c cs ih =>
    rw [escapeStr_cons, List.append_assoc]
    show scanQuotedBody (escChar c ++ (escapeStr cs ++ '"' :: rest)) = _
    rw [escChar]
    by_cases h1 : c = '"'
    · subst h1; simp [scanQuotedBody, unescCh, ih]
    by_cases h2 : c = '\\'
    · subst h2; simp [h1, scanQuotedBody, unescCh, ih]
    by_cases h3 : c = '\n'
    · subst h3; simp [h1, h2, scanQuotedBody, unescCh, ih]
    by_cases h4 : c = '\r'
    · subst h4; simp [h1, h2, h3, scanQuotedBody, unescCh, ih]
    by_cases h5 : c = '\t'
    · subst h5; simp [h1, h2, h3, h4, scanQuotedBody, unescCh, ih]
    by_cases h6 : c.toNat = 8
    · have hce : c = Char.ofNat 8 := by rw [← h6, Char.ofNat_toNat]
      subst hce
      simp [scanQuotedBody, unescCh, ih]
    by_cases h7 : c.toNat = 12
    · have hce : c = Char.ofNat 12 := by rw [← h7, Char.ofNat_toNat]
      subst hce
      simp [h6, scanQuotedBody, unescCh, ih]
    by_cases h8 : isCtl c
    · have hb : c.toNat < 32 ∨ c.toNat = 127 := isCtl_toNat h8
      have hhi : c.toNat / 16 < 16 := by omega
      have hlo : c.toNat % 16 < 16 := by omega
      simp only [h1, h2, h3, h4, h5, h6, h7, h8, if_false, if_true, List.cons_append,
        List.nil_append]
      rw [scanQuotedBody_unicode _ _ hhi hlo, ih]
      simp only [Option.map_some']
      have hre : 16 * (c.toNat / 16) + c.toNat % 16 = c.toNat := by omega
      rw [hre, Char.ofNat_toNat]
    · simp only [h1, h2, h3, h4, h5, h6, h7, h8, if_false, Bool.not_eq_true,
        Bool.false_eq_true, List.singleton_append]
      rw [scanQuotedBody_plain h1 h2, ih]
      rfl

/-! ## Tokens, quoting predicates, and scalar values -/

/-- Modelled from the spec: reserved tokens (§6) — `true`, `false`, `null`,
and anything accepted by the number grammar. -/
def isReservedTok (s : Str) : Bool :=
  decide (s = trueTok) || decide (s = falseTok) || decide (s = nullTok)
    || (scanNumber s).isSome

/-- Modelled from the spec: unquoted keys match `[A-Za-z_][A-Za-z0-9_]*`
(§4.1). -/
def isIdentStr : Str → Bool
  | [] => false
  | c :: cs => isIdentStart c && cs.all isIdentCh

/-- Modelled from the spec: key quoting predicate (§4.1) — a key is unquoted
only if it is an identifier and not a reserved token. -/
def keyNeedsQuote (k : Str) : Bool := !isIdentStr k || isReservedTok k

/-- Modelled from the spec: characters that force quoting of a string value
(§4.1): controls, quote, backslash, structural punctuation, the active
delimiter, and the comment mark. -/
def forbiddenCh (delim : Char) (c : Char) : Bool :=
  isCtl c || c == '"' || c == '\\' || c == ':' || c == ',' || c == delim
    || c == '[' || c == ']' || c == lbrace || c == rbrace || c == '#'

/-- A token that begins with the list-element marker `- ` would be consumed
structurally by the line parser (§4.2 shape 4), so it counts as confusable
punctuation. -/
def startsDashSpace : Str → Bool
  | c :: c2 :: _ => c == '-' && c2 == ' '
  | _ => false

/-- Modelled from the spec: string-value quoting predicate (§4.1) — a string
is unquoted only if it is non-empty, does not begin or end with whitespace,
contains no forbidden character, and is not confusable with a reserved
token or with structural line markers. -/
def strNeedsQuote (delim : Char) (s : Str) : Bool :=
  s.isEmpty || decide (s.head? = some ' ') || decide (s.getLast? = some ' ')
    || s.any (forbiddenCh delim) || isReservedTok s || startsDashSpace s

/-- Render a string value, quoting when the predicate requires it. -/
def renderStrVal (delim : Char) (s : Str) : Str :=
  if strNeedsQuote delim s then renderQuoted s else s

/-- Render a key, quoting when the key predicate requires it. -/
def renderKey (k : Str) : Str :=
  if keyNeedsQuote k then renderQuoted k else k

/-- Primitive (scalar) values of the JSON data model: null, booleans,
numbers, strings (§3). -/
inductive Prim
  | null
  | bool (b : Bool)
  | num (x : F64)
  | str (s : Str)
deriving DecidableEq, Repr

/-- Modelled from the spec: scalar rendering by the scalar lexicon (§4.1). -/
def renderPrim (delim : Char) : Prim → Str
  | .null => nullTok
  | .bool true => trueTok
  | .bool false => falseTok
  | .num x => renderF64 x
  | .str s => renderStrVal delim s

/-- Holds when the rendered form of a scalar is a quoted token. -/
def primQuoted (delim : Char) : Prim → Bool
  | .str s => strNeedsQuote delim s
  | _ => false

/-- Modelled from the spec: classify an unquoted scalar token (§4.1):
reserved words first, then the number grammar, otherwise a plain string. -/
def scanPrimTok (tok : Str) : Prim :=
  if tok = trueTok then .bool true
  else if tok = falseTok then .bool false
  else if tok = nullTok then .null
  else
    match scanNumber tok with
    | some x => .num x
    | none => .str tok

/-- Substitution of non-finite numbers by null (§3, §9). -/
def scrubPrim : Prim → Prim
  | .num x => if x.finite then .num x else .null
  | p => p

/-- Canonicality of the number payload of a scalar. -/
def primCanonical : Prim → Bool
  | .num x => x.canonical
  | _ => true

theorem renderF64_fin_head (neg : Bool) (ip : Nat) (frac : List Nat) :
    ∃ c t, renderF64 (.fin neg ip frac) = c :: t ∧ (c = '-' ∨ isDigitCh c = true) := by
  cases neg with
  | true =>
    exact ⟨'-', natChars ip ++ (if frac.isEmpty then [] else '.' :: frac.map digitCh),
      by simp [renderF64], Or.inl rfl⟩
  | false =>
    cases hn : natChars ip with
    | nil => exact absurd hn (natChars_ne_nil ip)
    | cons c t =>
      refine ⟨c, t ++ (if frac.isEmpty then [] else '.' :: frac.map digitCh), ?_, ?_⟩
      · simp [renderF64, hn]
      · right
        have hm : c ∈ natChars ip := by rw [hn]; simp
        obtain ⟨d, hd, hcd⟩ := List.mem_map.mp hm
        exact hcd ▸ isDigitCh_digitCh (digitsOf_lt10 ip d hd)

theorem renderF64_fin_ne_words (neg : Bool) (ip : Nat) (frac : List Nat) :
    renderF64 (.fin neg ip frac) ≠ trueTok ∧ renderF64 (.fin neg ip frac) ≠ falseTok ∧
      renderF64 (.fin neg ip frac) ≠ nullTok := by
  obtain ⟨c, t, heq, hc⟩ := renderF64_fin_head neg ip frac
  rw [heq]
  have hct : c ≠ 't' ∧ c ≠ 'f' ∧ c ≠ 'n' := by
    rcases hc with h | h
    · subst h; exact ⟨by decide, by decide, by decide⟩
    · refine ⟨?_, ?_, ?_⟩ <;> (intro he; subst he; simp [isDigitCh] at h)
  refine ⟨?_, ?_, ?_⟩ <;> (intro he; injection he with h1 _)
  · exact hct.1 h1
  · exact hct.2.1 h1
  · exact hct.2.2 h1

theorem scanPrimTok_renderPrim (delim : Char) (p : Prim)
    (hc : primCanonical p = true) (hq : primQuoted delim p = false) :
    scanPrimTok (renderPrim delim p) = scrubPrim p := by
  cases p with
  | null => rfl
  | bool b => cases b <;> rfl
  | num x =>
    cases x with
    | nan => rfl
    | posInf => rfl
    | negInf => rfl
    | fin neg ip frac =>
      obtain ⟨hw1, hw2, hw3⟩ := renderF64_fin_ne_words neg ip frac
      have hsn : scanNumber (renderF64 (.fin neg ip frac)) = some (.fin neg ip frac) :=
        scanNumber_render _ rfl hc
      simp only [renderPrim, scanPrimTok, hw1, hw2, hw3, if_false, hsn, scrubPrim,
        F64.finite, if_true]
  | str s =>
    simp only [primQuoted] at hq
    simp only [renderPrim, renderStrVal, hq, Bool.false_eq_true, if_false]
    have hres : isReservedTok s = false := by
      simp only [strNeedsQuote, Bool.or_eq_false_iff] at hq
      exact hq.1.2
    simp only [isReservedTok, Bool.or_eq_false_iff, decide_eq_false_iff_not] at hres
    obtain ⟨⟨⟨ht, hf⟩, hn⟩, hnum⟩ := hres
    have hnone : scanNumber s = none := by
      cases hopt : scanNumber s with
      | none => rfl
      | some x => rw [hopt] at hnum; simp at hnum
    simp [scanPrimTok, ht, hf, hn, hnone, scrubPrim]

/-! ## The JSON value model -/

/-- A JSON value (§3): a primitive, an ordered array, or an object with an
ordered sequence of key/value entries. -/
inductive JsonValue
  | prim (p : Prim)
  | arr (xs : List JsonValue)
  | obj (kvs : List (Str × JsonValue))
deriving Repr

/-- Structural induction for `JsonValue` giving hypotheses on all members
of array and object children. -/
theorem JsonValue.inductionOn (P : JsonValue → Prop)
    (hp : ∀ p, P (.prim p))
    (ha : ∀ xs, (∀ x ∈ xs, P x) → P (.arr xs))
    (ho : ∀ kvs, (∀ kv ∈ kvs, P kv.2) → P (.obj kvs)) : ∀ v, P v := by
  have hgen : ∀ n (v : JsonValue), sizeOf v ≤ n → P v := by
    intro n
    induction n using Nat.strong_induction_on with
    | _ n ih =>
      intro v hv
      cases v with
      | prim p => exact hp p
      | arr xs =>
        refine ha xs (fun x hx => ?_)
        have hlt := List.sizeOf_lt_of_mem hx
        have hsz : sizeOf (JsonValue.arr xs) = 1 + sizeOf xs := by simp
        exact ih (sizeOf x) (by omega) x (le_refl _)
      | obj kvs =>
        refine ho kvs (fun kv hkv => ?_)
        have h1 := List.sizeOf_lt_of_mem hkv
        have h2 : sizeOf kv.2 < sizeOf kv := by
          obtain ⟨a, b⟩ := kv
          simp
        have hsz : sizeOf (JsonValue.obj kvs) = 1 + sizeOf kvs := by simp
        exact ih (sizeOf kv.2) (by omega) kv.2 (le_refl _)
  exact fun v => hgen (sizeOf v) v (le_refl _)

mutual

/-- Map a scalar transform over every primitive of a value. -/
def mapPrims (f : Prim → Prim) : JsonValue → JsonValue
  | .prim p => .prim (f p)
  | .arr xs => .arr (mapPrimsList f xs)
  | .obj kvs => .obj (mapPrimsEntries f kvs)

/-- Array version of `mapPrims`. -/
def mapPrimsList (f : Prim → Prim) : List JsonValue → List JsonValue
  | [] => []
  | x :: xs => mapPrims f x :: mapPrimsList f xs

/-- Object-entry version of `mapPrims`. -/
def mapPrimsEntries (f : Prim → Prim) :
    List (Str × JsonValue) → List (Str × JsonValue)
  | [] => []
  | (k, v) :: kvs => (k, mapPrims f v) :: mapPrimsEntries f kvs

end

mutual

/-- Check a Boolean scalar property at every primitive of a value. -/
def allPrims (q : Prim → Bool) : JsonValue → Bool
  | .prim p => q p
  | .arr xs => allPrimsList q xs
  | .obj kvs => allPrimsEntries q kvs

/-- Array version of `allPrims`. -/
def allPrimsList (q : Prim → Bool) : List JsonValue → Bool
  | [] => true
  | x :: xs => allPrims q x && allPrimsList q xs

/-- Object-entry version of `allPrims`. -/
def allPrimsEntries (q : Prim → Bool) : List (Str × JsonValue) → Bool
  | [] => true
  | (_, v) :: kvs => allPrims q v && allPrimsEntries q kvs

end

theorem mapPrimsList_eq_map (f : Prim → Prim) (xs : List JsonValue) :
    mapPrimsList f xs = xs.map (mapPrims f) := by
  induction xs with
  | nil => rfl
  | cons x xs ih => simp [mapPrimsList, ih]

theorem mapPrimsEntries_eq_map (f : Prim → Prim) (kvs : List (Str × JsonValue)) :
    mapPrimsEntries f kvs = kvs.map (fun kv => (kv.1, mapPrims f kv.2)) := by
  induction kvs with
  | nil => rfl
  | cons kv kvs ih =>
    obtain ⟨k, v⟩ := kv
    simp [mapPrimsEntries, ih]

theorem allPrimsList_eq_all (q : Prim → Bool) (xs : List JsonValue) :
    allPrimsList q xs = xs.all (allPrims q) := by
  induction xs with
  | nil => rfl
  | cons x xs ih => simp [allPrimsList, ih]

theorem allPrimsEntries_eq_all (q : Prim → Bool) (kvs : List (Str × JsonValue)) :
    allPrimsEntries q kvs = kvs.all (fun kv => allPrims q kv.2) := by
  induction kvs with
  | nil => rfl
  | cons kv kvs ih =>
    obtain ⟨k, v⟩ := kv
    simp [allPrimsEntries, ih]

/-- Modelled from the spec: NaN-to-null substitution (§3, §8, §9) applied
recursively. -/
def scrubV (v : JsonValue) : JsonValue := mapPrims scrubPrim v

/-- Holds when no primitive of the value is a non-finite number (§3). -/
def noNonFinite (v : JsonValue) : Bool :=
  allPrims (fun p => match p with | .num x => x.finite | _ => true) v

/-- All number payloads of the value are canonical decimals. -/
def canonicalNums (v : JsonValue) : Bool := allPrims primCanonical v


/-! ## The stream event bridge (§4.7) -/

/-- Stream events (§3, §6): a linear, tagged form of a value. -/
inductive Event
  | startObject
  | key (name : Str) (wasQuoted : Bool)
  | primitive (p : Prim)
  | startArray (length : Nat)
  | endArray
  | endObject
deriving DecidableEq, Repr

/-- Errors of the event consumer (§4.7, §7): a mismatched end or an
unexpected event. -/
inductive EvErr
  | mismatchedEnd (what : String)
  | unexpectedEvent (what : String)
deriving DecidableEq, Repr

mutual

/-- Modelled from the spec: `encode_stream_events` / `events_of` (§4.7) — a
pre-order walk emitting a balanced event sequence; each object entry emits a
`Key` event (with `was_quoted` set from the key quoting predicate, §4.1)
before its value's events; `StartArray` carries the array length.  Encode
options do not affect the event walk. -/
def eventsOf : JsonValue → List Event
  | .prim p => [.primitive p]
  | .arr xs => .startArray xs.length :: (eventsList xs ++ [.endArray])
  | .obj kvs => .startObject :: (eventsEntries kvs ++ [.endObject])

/-- Events of the elements of an array, in order. -/
def eventsList : List JsonValue → List Event
  | [] => []
  | x :: xs => eventsOf x ++ eventsList xs

/-- Events of the entries of an object, in order. -/
def eventsEntries : List (Str × JsonValue) → List Event
  | [] => []
  | (k, v) :: kvs => .key k (keyNeedsQuote k) :: (eventsOf v ++ eventsEntries kvs)

end

/-- The key payload of an event, when it is a `Key` event. -/
def Event.keyData : Event → Option (Str × Bool)
  | .key k q => some (k, q)
  | _ => none

/-- Error-propagating sequential composition on `Except`. -/
def exBind {e a b : Type} (x : Except e a) (f : a → Except e b) : Except e b :=
  match x with
  | .error err => .error err
  | .ok v => f v

@[simp]
theorem exBind_ok {e a b : Type} (v : a) (f : a → Except e b) :
    exBind (.ok v : Except e a) f = f v := rfl

@[simp]
theorem exBind_error {e a b : Type} (err : e) (f : a → Except e b) :
    exBind (.error err : Except e a) f = .error err := rfl

/-- Case analysis combinator on `Option`. -/
def optCase {a b : Type} (x : Option a) (n : b) (f : a → b) : b :=
  match x with
  | some v => f v
  | none => n

@[simp]
theorem optCase_some {a b : Type} (v : a) (n : b) (f : a → b) :
    optCase (some v) n f = f v := rfl

@[simp]
theorem optCase_none {a b : Type} (n : b) (f : a → b) :
    optCase (none : Option a) n f = n := rfl

mutual

/-- Modelled from the spec: the event consumer (`value_of`, §4.7) — parse
one complete value from the front of the event sequence, validating balance
and nesting; the advisory `StartArray.length` is ignored.  The fuel counter
only bounds recursion depth; `valueOf` supplies enough for any input. -/
def parseEv : Nat → List Event → Except EvErr (JsonValue × List Event)
  | 0, _ => .error (.unexpectedEvent "out of fuel")
  | _ + 1, [] => .error (.unexpectedEvent "end of events")
  | _ + 1, .primitive p :: r => .ok (.prim p, r)
  | fuel + 1, .startArray _ :: r =>
    exBind (parseItems fuel r) (fun p => .ok (.arr p.1, p.2))
  | fuel + 1, .startObject :: r =>
    exBind (parseFields fuel r) (fun p => .ok (.obj p.1, p.2))
  | _ + 1, .key _ _ :: _ => .error (.unexpectedEvent "key outside object")
  | _ + 1, .endArray :: _ => .error (.mismatchedEnd "endArray")
  | _ + 1, .endObject :: _ => .error (.mismatchedEnd "endObject")

/-- Parse array items until the matching `endArray`. -/
def parseItems : Nat → List Event → Except EvErr (List JsonValue × List Event)
  | 0, _ => .error (.unexpectedEvent "out of fuel")
  | _ + 1, [] => .error (.unexpectedEvent "end of events")
  | fuel + 1, e :: r =>
    if e = .endArray then .ok ([], r)
    else
      exBind (parseEv fuel (e :: r)) (fun p =>
        exBind (parseItems fuel p.2) (fun q => .ok (p.1 :: q.1, q.2)))

/-- Parse object fields until the matching `endObject`. -/
def parseFields : Nat → List Event →
    Except EvErr (List (Str × JsonValue) × List Event)
  | 0, _ => .error (.unexpectedEvent "out of fuel")
  | _ + 1, [] => .error (.unexpectedEvent "end of events")
  | fuel + 1, e :: r =>
    if e = .endObject then .ok ([], r)
    else
      optCase (Event.keyData e)
        (.error (.unexpectedEvent "expected key or endObject"))
        (fun kq =>
          exBind (parseEv fuel r) (fun p =>
            exBind (parseFields fuel p.2) (fun q => .ok ((kq.1, p.1) :: q.1, q.2))))

end

/-- Modelled from the spec: `value_of(events)` (§4.7) — the inverse of
`events_of`; fails with a mismatched-end or unexpected-event error on any
sequence that is not balanced and well-nested. -/
def valueOf (evs : List Event) : Except EvErr JsonValue :=
  exBind (parseEv (evs.length + 1) evs)
    (fun p => if p.2.isEmpty then .ok p.1 else .error (.unexpectedEvent "trailing events"))

theorem eventsOf_length_pos (v : JsonValue) : 0 < (eventsOf v).length := by
  cases v <;> simp [eventsOf]

theorem eventsOf_head_shape (v : JsonValue) :
    ∃ e t, eventsOf v = e :: t ∧ ¬e = .endArray ∧ ¬e = .endObject ∧
      (∀ k q, ¬e = .key k q) := by
  cases v with
  | prim p => exact ⟨.primitive p, [], by simp [eventsOf], by simp, by simp, by simp⟩
  | arr xs =>
    exact ⟨.startArray xs.length, eventsList xs ++ [.endArray], by simp [eventsOf],
      by simp, by simp, by simp⟩
  | obj kvs =>
    exact ⟨.startObject, eventsEntries kvs ++ [.endObject], by simp [eventsOf],
      by simp, by simp, by simp⟩

mutual

/-- The event consumer inverts the event producer: given enough fuel,
parsing the events of a value from the front of a sequence returns that
value and the remainder. -/
theorem parseEv_events : ∀ (fuel : Nat) (v : JsonValue) (rest : List Event),
    (eventsOf v).length ≤ fuel →
    parseEv fuel (eventsOf v ++ rest) = .ok (v, rest)
  | 0, v, _, hf => by
    have := eventsOf_length_pos v
    omega
  | fuel + 1, .prim p, rest, hf => by
    have h : eventsOf (.prim p) ++ rest = .primitive p :: rest := by simp [eventsOf]
    rw [h, parseEv]
  | fuel + 1, .arr xs, rest, hf => by
    have h : eventsOf (.arr xs) ++ rest
        = .startArray xs.length :: (eventsList xs ++ .endArray :: rest) := by
      simp [eventsOf]
    have hlen : (eventsList xs).length + 1 ≤ fuel := by
      rw [show eventsOf (.arr xs)
          = .startArray xs.length :: (eventsList xs ++ [.endArray]) from by
        simp [eventsOf]] at hf
      simp only [List.length_cons, List.length_append, List.length_singleton] at hf
      omega
    rw [h, parseEv, parseItems_events fuel xs rest hlen, exBind_ok]
  | fuel + 1, .obj kvs, rest, hf => by
    have h : eventsOf (.obj kvs) ++ rest
        = .startObject :: (eventsEntries kvs ++ .endObject :: rest) := by
      simp [eventsOf]
    have hlen : (eventsEntries kvs).length + 1 ≤ fuel := by
      rw [show eventsOf (.obj kvs)
          = .startObject :: (eventsEntries kvs ++ [.endObject]) from by
        simp [eventsOf]] at hf
      simp only [List.length_cons, List.length_append, List.length_singleton] at hf
      omega
    rw [h, parseEv, parseFields_events fuel kvs rest hlen, exBind_ok]

/-- Items version of `parseEv_events`. -/
theorem parseItems_events : ∀ (fuel : Nat) (xs : List JsonValue) (rest : List Event),
    (eventsList xs).length + 1 ≤ fuel →
    parseItems fuel (eventsList xs ++ .endArray :: rest) = .ok (xs, rest)
  | 0, _, _, hf => by omega
  | fuel + 1, [], rest, hf => by
    have h : eventsList [] ++ .endArray :: rest = .endArray :: rest := by
      simp [eventsList]
    rw [h, parseItems, if_pos rfl]
  | fuel + 1, x :: xs, rest, hf => by
    obtain ⟨e, t, he, hne1, hne2, hne3⟩ := eventsOf_head_shape x
    have hlen : (eventsList (x :: xs)).length
        = (eventsOf x).length + (eventsList xs).length := by
      simp [eventsList]
    have hfx : (eventsOf x).length ≤ fuel := by
      have h1 := eventsOf_length_pos x
      omega
    have hfxs : (eventsList xs).length + 1 ≤ fuel := by
      have h1 := eventsOf_length_pos x
      omega
    have heq : eventsList (x :: xs) ++ .endArray :: rest
        = e :: (t ++ (eventsList xs ++ .endArray :: rest)) := by
      simp [eventsList, he]
    have hev : e :: (t ++ (eventsList xs ++ .endArray :: rest))
        = eventsOf x ++ (eventsList xs ++ .endArray :: rest) := by
      simp [he]
    rw [heq, parseItems, if_neg hne1, hev,
      parseEv_events fuel x (eventsList xs ++ .endArray :: rest) hfx, exBind_ok,
      parseItems_events fuel xs rest hfxs, exBind_ok]

/-- Fields version of `parseEv_events`. -/
theorem parseFields_events :
    ∀ (fuel : Nat) (kvs : List (Str × JsonValue)) (rest : List Event),
    (eventsEntries kvs).length + 1 ≤ fuel →
    parseFields fuel (eventsEntries kvs ++ .endObject :: rest) = .ok (kvs, rest)
  | 0, _, _, hf => by omega
  | fuel + 1, [], rest, hf => by
    have h : eventsEntries [] ++ .endObject :: rest = .endObject :: rest := by
      simp [eventsEntries]
    rw [h, parseFields, if_pos rfl]
  | fuel + 1, (k, v) :: kvs, rest, hf => by
    have hlen : (eventsEntries ((k, v) :: kvs)).length
        = 1 + (eventsOf v).length + (eventsEntries kvs).length := by
      simp [eventsEntries]
      omega
    have hfv : (eventsOf v).length ≤ fuel := by omega
    have hfkvs : (eventsEntries kvs).length + 1 ≤ fuel := by
      have h1 := eventsOf_length_pos v
      omega
    have heq : eventsEntries ((k, v) :: kvs) ++ .endObject :: rest
        = .key k (keyNeedsQuote k)
            :: (eventsOf v ++ (eventsEntries kvs ++ .endObject :: rest)) := by
      simp [eventsEntries]
    rw [heq, parseFields, if_neg (by simp),
      show Event.keyData (.key k (keyNeedsQuote k)) = some (k, keyNeedsQuote k)
        from rfl]
    show exBind
        (parseEv fuel (eventsOf v ++ (eventsEntries kvs ++ .endObject :: rest)))
        (fun p => exBind (parseFields fuel p.2)
          (fun q => Except.ok ((k, p.1) :: q.1, q.2)))
      = Except.ok ((k, v) :: kvs, rest)
    rw [parseEv_events fuel v (eventsEntries kvs ++ .endObject :: rest) hfv,
      exBind_ok, parseFields_events fuel kvs rest hfkvs, exBind_ok]

end


mutual

/-- Modelled from the spec: balanced, well-nested event sequences (§3, §4.7)
— the grammar of one complete value: a primitive, or a start tag, a body,
and the matching end tag. -/
inductive EvVal : List Event → Prop
  | prim (p : Prim) : EvVal [.primitive p]
  | arr (n : Nat) (body : List Event) : EvSeq body →
      EvVal (.startArray n :: (body ++ [.endArray]))
  | obj (body : List Event) : EvFields body →
      EvVal (.startObject :: (body ++ [.endObject]))

/-- Concatenations of well-nested value sequences (array bodies). -/
inductive EvSeq : List Event → Prop
  | nil : EvSeq []
  | cons (a b : List Event) : EvVal a → EvSeq b → EvSeq (a ++ b)

/-- Object bodies: `Key` events each followed by a well-nested value. -/
inductive EvFields : List Event → Prop
  | nil : EvFields []
  | cons (k : Str) (q : Bool) (a b : List Event) : EvVal a → EvFields b →
      EvFields (.key k q :: (a ++ b))

end

theorem evSeq_eventsList (xs : List JsonValue)
    (h : ∀ x ∈ xs, EvVal (eventsOf x)) : EvSeq (eventsList xs) := by
  induction xs with
  | nil => exact .nil
  | cons x xs ih =>
    have hx : eventsList (x :: xs) = eventsOf x ++ eventsList xs := rfl
    rw [hx]
    exact .cons _ _ (h x (by simp)) (ih (fun y hy => h y (by simp [hy])))

theorem evFields_eventsEntries (kvs : List (Str × JsonValue))
    (h : ∀ kv ∈ kvs, EvVal (eventsOf kv.2)) : EvFields (eventsEntries kvs) := by
  induction kvs with
  | nil => exact .nil
  | cons kv kvs ih =>
    obtain ⟨k, v⟩ := kv
    have hx : eventsEntries ((k, v) :: kvs)
        = .key k (keyNeedsQuote k) :: (eventsOf v ++ eventsEntries kvs) := rfl
    rw [hx]
    exact .cons _ _ _ _ (h (k, v) (by simp)) (ih (fun y hy => h y (by simp [hy])))

theorem evVal_eventsOf : ∀ v, EvVal (eventsOf v) := by
  refine JsonValue.inductionOn _ (fun p => ?_) (fun xs hxs => ?_) (fun kvs hkvs => ?_)
  · exact .prim p
  · have h : eventsOf (.arr xs) = .startArray xs.length :: (eventsList xs ++ [.endArray]) := rfl
    rw [h]
    exact .arr _ _ (evSeq_eventsList xs hxs)
  · have h : eventsOf (.obj kvs) = .startObject :: (eventsEntries kvs ++ [.endObject]) := rfl
    rw [h]
    exact .obj _ (evFields_eventsEntries kvs hkvs)

theorem keyData_some {e : Event} {k : Str} {q : Bool}
    (h : Event.keyData e = some (k, q)) : e = .key k q := by
  cases e <;> simp [Event.keyData] at h
  obtain ⟨h1, h2⟩ := h
  rw [h1, h2]

mutual

/-- Soundness of the event consumer: a successful parse consumed a balanced,
well-nested prefix. -/
theorem parseEv_sound : ∀ (fuel : Nat) (evs : List Event) (v : JsonValue)
    (rest : List Event), parseEv fuel evs = .ok (v, rest) →
    ∃ pre, evs = pre ++ rest ∧ EvVal pre
  | 0, evs, v, rest, h => by simp [parseEv] at h
  | fuel + 1, [], v, rest, h => by simp [parseEv] at h
  | fuel + 1, .primitive p :: r, v, rest, h => by
    rw [parseEv] at h
    simp only [Except.ok.injEq, Prod.mk.injEq] at h
    obtain ⟨h1, h2⟩ := h
    exact ⟨[.primitive p], by simp [h2], .prim p⟩
  | fuel + 1, .startArray n :: r, v, rest, h => by
    rw [parseEv] at h
    cases hi : parseItems fuel r with
    | error e => rw [hi] at h; simp at h
    | ok p =>
      obtain ⟨xs, r1⟩ := p
      rw [hi, exBind_ok] at h
      simp only [Except.ok.injEq, Prod.mk.injEq] at h
      obtain ⟨h1, h2⟩ := h
      obtain ⟨body, hb, hsq⟩ := parseItems_sound fuel r xs r1 hi
      refine ⟨.startArray n :: (body ++ [.endArray]), ?_, .arr n body hsq⟩
      subst h2
      simp [hb]
  | fuel + 1, .startObject :: r, v, rest, h => by
    rw [parseEv] at h
    cases hi : parseFields fuel r with
    | error e => rw [hi] at h; simp at h
    | ok p =>
      obtain ⟨kvs, r1⟩ := p
      rw [hi, exBind_ok] at h
      simp only [Except.ok.injEq, Prod.mk.injEq] at h
      obtain ⟨h1, h2⟩ := h
      obtain ⟨body, hb, hsq⟩ := parseFields_sound fuel r kvs r1 hi
      refine ⟨.startObject :: (body ++ [.endObject]), ?_, .obj body hsq⟩
      subst h2
      simp [hb]
  | fuel + 1, .key k q :: r, v, rest, h => by simp [parseEv] at h
  | fuel + 1, .endArray :: r, v, rest, h => by simp [parseEv] at h
  | fuel + 1, .endObject :: r, v, rest, h => by simp [parseEv] at h

/-- Items version of `parseEv_sound`. -/
theorem parseItems_sound : ∀ (fuel : Nat) (evs : List Event) (xs : List JsonValue)
    (rest : List Event), parseItems fuel evs = .ok (xs, rest) →
    ∃ body, evs = body ++ .endArray :: rest ∧ EvSeq body
  | 0, evs, xs, rest, h => by simp [parseItems] at h
  | fuel + 1, [], xs, rest, h => by simp [parseItems] at h
  | fuel + 1, e :: r, xs, rest, h => by
    rw [parseItems] at h
    by_cases he : e = .endArray
    · rw [if_pos he] at h
      simp only [Except.ok.injEq, Prod.mk.injEq] at h
      obtain ⟨h1, h2⟩ := h
      exact ⟨[], by simp [he, h2], .nil⟩
    · rw [if_neg he] at h
      cases hv : parseEv fuel (e :: r) with
      | error err => rw [hv] at h; simp at h
      | ok p =>
        obtain ⟨v, r1⟩ := p
        rw [hv, exBind_ok] at h
        cases hi : parseItems fuel r1 with
        | error err => rw [hi] at h; simp at h
        | ok q =>
          obtain ⟨vs, r2⟩ := q
          rw [hi, exBind_ok] at h
          simp only [Except.ok.injEq, Prod.mk.injEq] at h
          obtain ⟨h1, h2⟩ := h
          obtain ⟨pre1, hp1, hv1⟩ := parseEv_sound fuel (e :: r) v r1 hv
          obtain ⟨body1, hb1, hs1⟩ := parseItems_sound fuel r1 vs r2 hi
          refine ⟨pre1 ++ body1, ?_, .cons _ _ hv1 hs1⟩
          subst h2
          simp [hp1, hb1]

/-- Fields version of `parseEv_sound`. -/
theorem parseFields_sound : ∀ (fuel : Nat) (evs : List Event)
    (kvs : List (Str × JsonValue)) (rest : List Event),
    parseFields fuel evs = .ok (kvs, rest) →
    ∃ body, evs = body ++ .endObject :: rest ∧ EvFields body
  | 0, evs, kvs, rest, h => by simp [parseFields] at h
  | fuel + 1, [], kvs, rest, h => by simp [parseFields] at h
  | fuel + 1, e :: r, kvs, rest, h => by
    rw [parseFields] at h
    by_cases he : e = .endObject
    · rw [if_pos he] at h
      simp only [Except.ok.injEq, Prod.mk.injEq] at h
      obtain ⟨h1, h2⟩ := h
      exact ⟨[], by simp [he, h2], .nil⟩
    · rw [if_neg he] at h
      cases hk : Event.keyData e with
      | none => rw [hk, optCase_none] at h; simp at h
      | some kq =>
        obtain ⟨k, q⟩ := kq
        rw [hk, optCase_some] at h
        cases hv : parseEv fuel r with
        | error err => rw [hv] at h; simp at h
        | ok p =>
          obtain ⟨v, r1⟩ := p
          rw [hv, exBind_ok] at h
          cases hi : parseFields fuel r1 with
          | error err => rw [hi] at h; simp at h
          | ok qq =>
            obtain ⟨kvs2, r2⟩ := qq
            rw [hi, exBind_ok] at h
            simp only [Except.ok.injEq, Prod.mk.injEq] at h
            obtain ⟨h1, h2⟩ := h
            obtain ⟨pre1, hp1, hv1⟩ := parseEv_sound fuel r v r1 hv
            obtain ⟨body1, hb1, hs1⟩ := parseFields_sound fuel r1 kvs2 r2 hi
            refine ⟨.key k q :: (pre1 ++ body1), ?_, .cons k q _ _ hv1 hs1⟩
            subst h2
            rw [keyData_some hk]
            simp [hp1, hb1]

end

theorem valueOf_sound {evs : List Event} {v : JsonValue}
    (h : valueOf evs = .ok v) : EvVal evs := by
  rw [valueOf] at h
  cases hp : parseEv (evs.length + 1) evs with
  | error e => rw [hp, exBind_error] at h; simp at h
  | ok p =>
    obtain ⟨w, r⟩ := p
    rw [hp, exBind_ok] at h
    by_cases hr : r.isEmpty
    · obtain ⟨pre, hpre, hval⟩ := parseEv_sound _ evs w r hp
      have hr2 : r = [] := by simpa [List.isEmpty_iff] using hr
      rw [hr2, List.append_nil] at hpre
      rw [hpre]
      exact hval
    · rw [if_neg hr] at h
      simp at h


theorem escapeStr_length_ge (s : Str) : s.length ≤ (escapeStr s).length := by
  induction s with
  | nil => simp [escapeStr_nil]
  | cons c cs ih =>
    rw [escapeStr_cons]
    have hc : 1 ≤ (escChar c).length := by
      rw [escChar]
      by_cases h1 : c = '"'
      · simp [h1]
      by_cases h2 : c = '\\'
      · simp [h1, h2]
      by_cases h3 : c = '\n'
      · simp [h1, h2, h3]
      by_cases h4 : c = '\r'
      · simp [h1, h2, h3, h4]
      by_cases h5 : c = '\t'
      · simp [h1, h2, h3, h4, h5]
      by_cases h6 : c.toNat = 8
      · simp [h1, h2, h3, h4, h5, h6]
      by_cases h7 : c.toNat = 12
      · simp [h1, h2, h3, h4, h5, h6, h7]
      by_cases h8 : isCtl c
      · simp [h1, h2, h3, h4, h5, h6, h7, h8]
      · simp [h1, h2, h3, h4, h5, h6, h7, h8]
    simp only [List.length_cons, List.length_append]
    omega

theorem renderQuoted_ne_self (s : Str) : renderQuoted s ≠ s := by
  intro h
  have h1 := congrArg List.length h
  have h2 := escapeStr_length_ge s
  simp only [renderQuoted, List.length_cons, List.length_append,
    List.length_singleton] at h1
  omega

theorem mem_eventsList {e : Event} {xs : List JsonValue} (h : e ∈ eventsList xs) :
    ∃ x ∈ xs, e ∈ eventsOf x := by
  induction xs with
  | nil => simp [eventsList] at h
  | cons x xs ih =>
    rw [show eventsList (x :: xs) = eventsOf x ++ eventsList xs from rfl] at h
    rcases List.mem_append.mp h with h1 | h1
    · exact ⟨x, by simp, h1⟩
    · obtain ⟨y, hy, hm⟩ := ih h1
      exact ⟨y, by simp [hy], hm⟩

theorem mem_eventsEntries {e : Event} {kvs : List (Str × JsonValue)}
    (h : e ∈ eventsEntries kvs) :
    (∃ kv ∈ kvs, e = Event.key kv.1 (keyNeedsQuote kv.1)) ∨
      ∃ kv ∈ kvs, e ∈ eventsOf kv.2 := by
  induction kvs with
  | nil => simp [eventsEntries] at h
  | cons kv kvs ih =>
    obtain ⟨k, v⟩ := kv
    rw [show eventsEntries ((k, v) :: kvs)
        = Event.key k (keyNeedsQuote k) :: (eventsOf v ++ eventsEntries kvs)
      from rfl] at h
    rcases List.mem_cons.mp h with h1 | h1
    · exact Or.inl ⟨(k, v), by simp, h1⟩
    rcases List.mem_append.mp h1 with h2 | h2
    · exact Or.inr ⟨(k, v), by simp, h2⟩
    · rcases ih h2 with h3 | h3
      · obtain ⟨kv2, hkv2, he⟩ := h3
        exact Or.inl ⟨kv2, by simp [hkv2], he⟩
      · obtain ⟨kv2, hkv2, he⟩ := h3
        exact Or.inr ⟨kv2, by simp [hkv2], he⟩

theorem key_event_flag : ∀ (v : JsonValue) (k : Str) (q : Bool),
    Event.key k q ∈ eventsOf v → q = keyNeedsQuote k := by
  refine JsonValue.inductionOn _ (fun p k q h => ?_) (fun xs ih k q h => ?_)
    (fun kvs ih k q h => ?_)
  · simp [eventsOf] at h
  · rw [show eventsOf (.arr xs)
        = .startArray xs.length :: (eventsList xs ++ [.endArray]) from rfl] at h
    rcases List.mem_cons.mp h with h1 | h1
    · exact absurd h1 (by simp)
    rcases List.mem_append.mp h1 with h2 | h2
    · obtain ⟨x, hx, hm⟩ := mem_eventsList h2
      exact ih x hx k q hm
    · exact absurd h2 (by simp)
  · rw [show eventsOf (.obj kvs)
        = .startObject :: (eventsEntries kvs ++ [.endObject]) from rfl] at h
    rcases List.mem_cons.mp h with h1 | h1
    · exact absurd h1 (by simp)
    rcases List.mem_append.mp h1 with h2 | h2
    · rcases mem_eventsEntries h2 with h3 | h3
      · obtain ⟨kv, hkv, he⟩ := h3
        injection he with he1 he2
        rw [he2, he1]
      · obtain ⟨kv, hkv, hm⟩ := h3
        exact ih kv hkv k q hm
    · exact absurd h2 (by simp)

/-- C5: event bridge inversion — for every value `V`, `value_of(events_of(V))`
equals `V`, and the sequence produced by `events_of(V)` is balanced and
well-nested (`EvVal`), the grammar of a pre-order walk in which every object
entry emits its `Key` event before its value's events. -/
theorem claim_C5_event_bridge (v : JsonValue) :
    valueOf (eventsOf v) = .ok v ∧ EvVal (eventsOf v) := by
  constructor
  · rw [valueOf]
    have h1 : parseEv ((eventsOf v).length + 1) (eventsOf v) = .ok (v, []) := by
      have h2 := parseEv_events ((eventsOf v).length + 1) v [] (by omega)
      simpa using h2
    rw [h1, exBind_ok]
    simp
  · exact evVal_eventsOf v

/-- C6: for every event sequence that is not balanced and well-nested, the
event consumer `value_of` fails rather than producing output; its error type
`EvErr` has exactly the mismatched-end and unexpected-event kinds. -/
theorem claim_C6_invalid_events_rejected (evs : List Event) (h : ¬EvVal evs) :
    ∃ e, valueOf evs = .error e := by
  cases hv : valueOf evs with
  | error e => exact ⟨e, rfl⟩
  | ok v => exact absurd (valueOf_sound hv) h

theorem not_evVal_endObject : ¬EvVal [Event.endObject] := by
  intro h
  cases h

theorem claim_C6_invalid_events_rejected_witness :
    ¬EvVal [Event.endObject] ∧ ∃ e, valueOf [Event.endObject] = .error e :=
  ⟨not_evVal_endObject,
    claim_C6_invalid_events_rejected [Event.endObject] not_evVal_endObject⟩


/-- C9: key quoting predicate — a key is emitted unquoted exactly when it
matches `[A-Za-z_][A-Za-z0-9_]*` and is not a reserved token, and
`encode_stream_events` sets `was_quoted` of every `Key` event by exactly
this predicate; in particular a key containing `-` is quoted and an
identifier key is not. -/
theorem claim_C9_key_quoting :
    (∀ k : Str, renderKey k = k ↔ (isIdentStr k = true ∧ isReservedTok k = false)) ∧
    (∀ (v : JsonValue) (k : Str) (q : Bool),
      Event.key k q ∈ eventsOf v → q = keyNeedsQuote k) ∧
    keyNeedsQuote ['m', 'y', '-', 'k', 'e', 'y'] = true ∧
    keyNeedsQuote ['n', 'a', 'm', 'e'] = false := by
  refine ⟨fun k => ?_, key_event_flag, by decide, by decide⟩
  constructor
  · intro h
    by_cases hq : keyNeedsQuote k = true
    · rw [renderKey, if_pos hq] at h
      exact absurd h (renderQuoted_ne_self k)
    · have hq2 : keyNeedsQuote k = false := by simpa using hq
      simp only [keyNeedsQuote, Bool.or_eq_false_iff, Bool.not_eq_false'] at hq2
      exact hq2
  · intro ⟨h1, h2⟩
    have hq : keyNeedsQuote k = false := by
      simp [keyNeedsQuote, h1, h2]
    rw [renderKey, hq]
    simp

theorem claim_C9_key_quoting_witness :
    (Event.key ['m', 'y', '-', 'k', 'e', 'y'] true
      ∈ eventsOf (.obj [(['m', 'y', '-', 'k', 'e', 'y'], .prim .null)])) ∧
    true = keyNeedsQuote ['m', 'y', '-', 'k', 'e', 'y'] ∧
    (renderKey ['n', 'a', 'm', 'e'] = ['n', 'a', 'm', 'e']
      ↔ (isIdentStr ['n', 'a', 'm', 'e'] = true
          ∧ isReservedTok ['n', 'a', 'm', 'e'] = false)) :=
  ⟨by decide,
    claim_C9_key_quoting.2.1 (.obj [(['m', 'y', '-', 'k', 'e', 'y'], .prim .null)])
      ['m', 'y', '-', 'k', 'e', 'y'] true (by decide),
    claim_C9_key_quoting.1 ['n', 'a', 'm', 'e']⟩


/-! ## JSON text output (§6 `events_to_json_text`, the CLI stringifier)

Two independent models are compared: `serdeCompact`/`serdePretty`, a direct
recursive rendering following the external serde_json `to_string` /
`to_string_pretty` formats, and `jslValue` (`json_stringify_lines`), a
chunk-emitting writer, together with `jsonStreamFromEvents`
(`json_stream_from_events`), an event-driven chunk writer. -/

def emptyObjTok : Str := [lbrace, rbrace]

def emptyArrTok : Str := ['[', ']']

/-- Modelled from the spec: JSON string escaping in the serde_json style
(named escapes, `\u00XX` for the remaining controls below U+0020). -/
def jsonEscCh (c : Char) : Str :=
  if c = '"' then ['\\', '"']
  else if c = '\\' then ['\\', '\\']
  else if c = '\n' then ['\\', 'n']
  else if c = '\r' then ['\\', 'r']
  else if c = '\t' then ['\\', 't']
  else if c.toNat = 8 then ['\\', 'b']
  else if c.toNat = 12 then ['\\', 'f']
  else if c.toNat < 32 then
    ['\\', 'u', '0', '0', hexDigitCh (c.toNat / 16), hexDigitCh (c.toNat % 16)]
  else [c]

/-- A JSON string literal with quotes. -/
def jsonStr (s : Str) : Str :=
  '"' :: (s.foldr (fun c acc => jsonEscCh c ++ acc) [] ++ ['"'])

/-- Modelled from the spec: the serde_json rendering of an f64 (shortest
form; integral values print with a trailing `.0`; non-finite numbers become
`null` via `Number::from_f64`). -/
def jsonNum : F64 → Str
  | .fin neg ip frac =>
    (if neg then ['-'] else []) ++ natChars ip ++
      (if frac.isEmpty then ['.', '0'] else '.' :: frac.map digitCh)
  | _ => nullTok

/-- JSON rendering of a scalar. -/
def serdePrimJson : Prim → Str
  | .null => nullTok
  | .bool true => trueTok
  | .bool false => falseTok
  | .num x => jsonNum x
  | .str s => jsonStr s

mutual

/-- Modelled from the spec: serde_json `to_string` — compact JSON with no
whitespace. -/
def serdeCompact : JsonValue → Str
  | .prim p => serdePrimJson p
  | .arr xs => '[' :: (serdeCompactItems xs ++ [']'])
  | .obj kvs => lbrace :: (serdeCompactFields kvs ++ [rbrace])

/-- Comma-separated compact items. -/
def serdeCompactItems : List JsonValue → Str
  | [] => []
  | [x] => serdeCompact x
  | x :: y :: xs => serdeCompact x ++ ',' :: serdeCompactItems (y :: xs)

/-- Comma-separated compact fields. -/
def serdeCompactFields : List (Str × JsonValue) → Str
  | [] => []
  | [(k, v)] => jsonStr k ++ ':' :: serdeCompact v
  | (k, v) :: kv2 :: kvs =>
    jsonStr k ++ ':' :: serdeCompact v ++ ',' :: serdeCompactFields (kv2 :: kvs)

end

/-- A run of spaces. -/
def nspaces (n : Nat) : Str := List.replicate n ' '

mutual

/-- Modelled from the spec: serde_json `to_string_pretty` — two-space
indentation, one element per line, `": "` after keys, empty containers
inline. -/
def serdePretty (d : Nat) : JsonValue → Str
  | .prim p => serdePrimJson p
  | .arr [] => emptyArrTok
  | .arr (x :: xs) =>
    '[' :: '\n' :: (serdePrettyItems d (x :: xs) ++ '\n' :: (nspaces (2 * d) ++ [']']))
  | .obj [] => emptyObjTok
  | .obj (kv :: kvs) =>
    lbrace :: '\n'
      :: (serdePrettyFields d (kv :: kvs) ++ '\n' :: (nspaces (2 * d) ++ [rbrace]))

/-- Pretty items, one per line. -/
def serdePrettyItems (d : Nat) : List JsonValue → Str
  | [] => []
  | [x] => nspaces (2 * (d + 1)) ++ serdePretty (d + 1) x
  | x :: y :: xs =>
    nspaces (2 * (d + 1)) ++ serdePretty (d + 1) x
      ++ ',' :: '\n' :: serdePrettyItems d (y :: xs)

/-- Pretty fields, one per line. -/
def serdePrettyFields (d : Nat) : List (Str × JsonValue) → Str
  | [] => []
  | [(k, v)] => nspaces (2 * (d + 1)) ++ jsonStr k ++ ':' :: ' ' :: serdePretty (d + 1) v
  | (k, v) :: kv2 :: kvs =>
    nspaces (2 * (d + 1)) ++ jsonStr k ++ ':' :: ' ' :: serdePretty (d + 1) v
      ++ ',' :: '\n' :: serdePrettyFields d (kv2 :: kvs)

end

/-- Indentation chunk for the chunk writer (`n` spaces per level). -/
def jslPad (n d : Nat) : Str := List.replicate (n * d) ' '

mutual

/-- Modelled from the spec: `json_stringify_lines` — a chunk-emitting JSON
writer; indent 0 produces compact JSON, a positive indent produces
pretty-printed JSON with that many spaces per level. -/
def jslValue (n d : Nat) : JsonValue → List Str
  | .prim p => [serdePrimJson p]
  | .arr [] => [emptyArrTok]
  | .arr (x :: xs) =>
    (if n = 0 then ['['] else ['[', '\n'])
      :: (jslItems n d (x :: xs)
        ++ [if n = 0 then [']'] else '\n' :: (jslPad n d ++ [']'])])
  | .obj [] => [emptyObjTok]
  | .obj (kv :: kvs) =>
    (if n = 0 then [lbrace] else [lbrace, '\n'])
      :: (jslFields n d (kv :: kvs)
        ++ [if n = 0 then [rbrace] else '\n' :: (jslPad n d ++ [rbrace])])

/-- Item chunks of the chunk writer. -/
def jslItems (n d : Nat) : List JsonValue → List Str
  | [] => []
  | [x] => jslPad n (d + 1) :: jslValue n (d + 1) x
  | x :: y :: xs =>
    jslPad n (d + 1)
      :: (jslValue n (d + 1) x
        ++ (if n = 0 then [','] else [',', '\n']) :: jslItems n d (y :: xs))

/-- Field chunks of the chunk writer. -/
def jslFields (n d : Nat) : List (Str × JsonValue) → List Str
  | [] => []
  | [(k, v)] =>
    (jslPad n (d + 1) ++ jsonStr k ++ (if n = 0 then [':'] else [':', ' ']))
      :: jslValue n (d + 1) v
  | (k, v) :: kv2 :: kvs =>
    (jslPad n (d + 1) ++ jsonStr k ++ (if n = 0 then [':'] else [':', ' ']))
      :: (jslValue n (d + 1) v
        ++ (if n = 0 then [','] else [',', '\n']) :: jslFields n d (kv2 :: kvs))

end

/-- The chunk list of `json_stringify_lines(value, indent)`. -/
def jsonStringifyLines (v : JsonValue) (n : Nat) : List Str := jslValue n 0 v

/-- Assemble item chunk lists with separators and padding. -/
def asmItems (n d : Nat) : List (List Str) → List Str
  | [] => []
  | [c] => jslPad n (d + 1) :: c
  | c :: c2 :: cs =>
    jslPad n (d + 1)
      :: (c ++ (if n = 0 then [','] else [',', '\n']) :: asmItems n d (c2 :: cs))

/-- Assemble field chunk lists with keys, separators, and padding. -/
def asmFields (n d : Nat) : List (Str × List Str) → List Str
  | [] => []
  | [(k, c)] =>
    (jslPad n (d + 1) ++ jsonStr k ++ (if n = 0 then [':'] else [':', ' '])) :: c
  | (k, c) :: kc2 :: kcs =>
    (jslPad n (d + 1) ++ jsonStr k ++ (if n = 0 then [':'] else [':', ' ']))
      :: (c ++ (if n = 0 then [','] else [',', '\n']) :: asmFields n d (kc2 :: kcs))

mutual

/-- Modelled from the spec: `json_stream_from_events` — consume a balanced
event sequence, producing the JSON text chunks of the encoded value;
rejects a mismatched `endObject`/`endArray` and any other invalid event. -/
def jsfeValue : Nat → Nat → Nat → List Event → Except String (List Str × List Event)
  | 0, _, _, _ => .error "out of fuel"
  | _ + 1, _, _, [] => .error "Unexpected end of events"
  | _ + 1, _, _, .primitive p :: r => .ok ([serdePrimJson p], r)
  | fuel + 1, n, d, .startArray _ :: r =>
    exBind (jsfeItems fuel n d r) (fun p =>
      .ok (if p.1.isEmpty then [emptyArrTok]
        else (if n = 0 then ['['] else ['[', '\n'])
          :: (asmItems n d p.1
            ++ [if n = 0 then [']'] else '\n' :: (jslPad n d ++ [']'])]), p.2))
  | fuel + 1, n, d, .startObject :: r =>
    exBind (jsfeFields fuel n d r) (fun p =>
      .ok (if p.1.isEmpty then [emptyObjTok]
        else (if n = 0 then [lbrace] else [lbrace, '\n'])
          :: (asmFields n d p.1
            ++ [if n = 0 then [rbrace] else '\n' :: (jslPad n d ++ [rbrace])]), p.2))
  | _ + 1, _, _, .key _ _ :: _ => .error "Unexpected key event"
  | _ + 1, _, _, .endArray :: _ => .error "Mismatched endArray"
  | _ + 1, _, _, .endObject :: _ => .error "Mismatched endObject"

/-- Item chunk lists of the event-driven writer. -/
def jsfeItems : Nat → Nat → Nat → List Event →
    Except String (List (List Str) × List Event)
  | 0, _, _, _ => .error "out of fuel"
  | _ + 1, _, _, [] => .error "Unexpected end of events"
  | fuel + 1, n, d, e :: r =>
    if e = .endArray then .ok ([], r)
    else
      exBind (jsfeValue fuel n (d + 1) (e :: r)) (fun p =>
        exBind (jsfeItems fuel n d p.2) (fun q => .ok (p.1 :: q.1, q.2)))

/-- Field chunk lists of the event-driven writer. -/
def jsfeFields : Nat → Nat → Nat → List Event →
    Except String (List (Str × List Str) × List Event)
  | 0, _, _, _ => .error "out of fuel"
  | _ + 1, _, _, [] => .error "Unexpected end of events"
  | fuel + 1, n, d, e :: r =>
    if e = .endObject then .ok ([], r)
    else
      optCase (Event.keyData e) (.error "Unexpected event, expected key")
        (fun kq =>
          exBind (jsfeValue fuel n (d + 1) r) (fun p =>
            exBind (jsfeFields fuel n d p.2) (fun q =>
              .ok ((kq.1, p.1) :: q.1, q.2))))

end

/-- The chunk list of `json_stream_from_events(events, indent)`. -/
def jsonStreamFromEvents (evs : List Event) (n : Nat) : Except String (List Str) :=
  exBind (jsfeValue (evs.length + 1) n 0 evs)
    (fun p => if p.2.isEmpty then .ok p.1 else .error "Unexpected trailing events")


theorem jslItems_eq_asm (n d : Nat) : ∀ (xs : List JsonValue),
    jslItems n d xs = asmItems n d (xs.map (jslValue n (d + 1)))
  | [] => rfl
  | [x] => rfl
  | x :: y :: xs => by
    rw [jslItems, jslItems_eq_asm n d (y :: xs)]
    rfl

theorem jslFields_eq_asm (n d : Nat) : ∀ (kvs : List (Str × JsonValue)),
    jslFields n d kvs
      = asmFields n d (kvs.map (fun kv => (kv.1, jslValue n (d + 1) kv.2)))
  | [] => rfl
  | [(k, v)] => rfl
  | (k, v) :: kv2 :: kvs => by
    rw [jslFields, jslFields_eq_asm n d (kv2 :: kvs)]
    rfl

mutual

theorem jsl_compact : ∀ (d : Nat) (v : JsonValue),
    (jslValue 0 d v).flatten = serdeCompact v
  | d, .prim p => by simp [jslValue, serdeCompact]
  | d, .arr [] => by
    rw [jslValue, serdeCompact, serdeCompactItems]
    rfl
  | d, .arr (x :: xs) => by
    rw [jslValue, serdeCompact, if_pos rfl, if_pos rfl]
    simp only [List.flatten_cons, List.flatten_append, List.flatten_cons,
      List.flatten_nil, List.append_nil]
    rw [jsl_compact_items d (x :: xs)]
    simp
  | d, .obj [] => by
    rw [jslValue, serdeCompact, serdeCompactFields]
    rfl
  | d, .obj (kv :: kvs) => by
    rw [jslValue, serdeCompact, if_pos rfl, if_pos rfl]
    simp only [List.flatten_cons, List.flatten_append, List.flatten_cons,
      List.flatten_nil, List.append_nil]
    rw [jsl_compact_fields d (kv :: kvs)]
    simp
termination_by d v => sizeOf v

theorem jsl_compact_items : ∀ (d : Nat) (xs : List JsonValue),
    (jslItems 0 d xs).flatten = serdeCompactItems xs
  | d, [] => rfl
  | d, [x] => by
    rw [jslItems, serdeCompactItems]
    simp only [List.flatten_cons]
    rw [jsl_compact (d + 1) x]
    simp [jslPad]
  | d, x :: y :: xs => by
    rw [jslItems, serdeCompactItems, if_pos rfl]
    simp only [List.flatten_cons, List.flatten_append]
    rw [jsl_compact (d + 1) x, jsl_compact_items d (y :: xs)]
    simp [jslPad]
termination_by d xs => sizeOf xs

theorem jsl_compact_fields : ∀ (d : Nat) (kvs : List (Str × JsonValue)),
    (jslFields 0 d kvs).flatten = serdeCompactFields kvs
  | d, [] => rfl
  | d, [(k, v)] => by
    rw [jslFields, serdeCompactFields]
    simp only [List.flatten_cons]
    rw [jsl_compact (d + 1) v]
    simp [jslPad]
  | d, (k, v) :: kv2 :: kvs => by
    rw [jslFields, serdeCompactFields, if_pos rfl]
    simp only [List.flatten_cons, List.flatten_append]
    rw [jsl_compact (d + 1) v, jsl_compact_fields d (kv2 :: kvs)]
    simp [jslPad]
termination_by d kvs => sizeOf kvs

end

mutual

theorem jsl_pretty : ∀ (d : Nat) (v : JsonValue),
    (jslValue 2 d v).flatten = serdePretty d v
  | d, .prim p => by simp [jslValue, serdePretty]
  | d, .arr [] => by
    rw [jslValue, serdePretty]
    rfl
  | d, .arr (x :: xs) => by
    rw [jslValue, serdePretty, if_neg (by omega), if_neg (by omega)]
    simp only [List.flatten_cons, List.flatten_append, List.flatten_nil,
      List.append_nil]
    rw [jsl_pretty_items d (x :: xs)]
    simp [jslPad, nspaces, Nat.mul_comm]
  | d, .obj [] => by
    rw [jslValue, serdePretty]
    rfl
  | d, .obj (kv :: kvs) => by
    rw [jslValue, serdePretty, if_neg (by omega), if_neg (by omega)]
    simp only [List.flatten_cons, List.flatten_append, List.flatten_nil,
      List.append_nil]
    rw [jsl_pretty_fields d (kv :: kvs)]
    simp [jslPad, nspaces, Nat.mul_comm]
termination_by d v => sizeOf v

theorem jsl_pretty_items : ∀ (d : Nat) (xs : List JsonValue),
    (jslItems 2 d xs).flatten = serdePrettyItems d xs
  | d, [] => rfl
  | d, [x] => by
    rw [jslItems, serdePrettyItems]
    simp only [List.flatten_cons]
    rw [jsl_pretty (d + 1) x]
    simp [jslPad, nspaces, Nat.mul_comm]
  | d, x :: y :: xs => by
    rw [jslItems, serdePrettyItems, if_neg (by omega)]
    simp only [List.flatten_cons, List.flatten_append]
    rw [jsl_pretty (d + 1) x, jsl_pretty_items d (y :: xs)]
    simp [jslPad, nspaces, Nat.mul_comm]
termination_by d xs => sizeOf xs

theorem jsl_pretty_fields : ∀ (d : Nat) (kvs : List (Str × JsonValue)),
    (jslFields 2 d kvs).flatten = serdePrettyFields d kvs
  | d, [] => rfl
  | d, [(k, v)] => by
    rw [jslFields, serdePrettyFields]
    simp only [List.flatten_cons]
    rw [jsl_pretty (d + 1) v]
    simp [jslPad, nspaces, Nat.mul_comm]
  | d, (k, v) :: kv2 :: kvs => by
    rw [jslFields, serdePrettyFields, if_neg (by omega)]
    simp only [List.flatten_cons, List.flatten_append]
    rw [jsl_pretty (d + 1) v, jsl_pretty_fields d (kv2 :: kvs)]
    simp [jslPad, nspaces, Nat.mul_comm]
termination_by d kvs => sizeOf kvs

end


theorem jsl_arr_assemble (n d : Nat) (xs : List JsonValue) :
    (if (xs.map (jslValue n (d + 1))).isEmpty then [emptyArrTok]
      else (if n = 0 then ['['] else ['[', '\n'])
        :: (asmItems n d (xs.map (jslValue n (d + 1)))
          ++ [if n = 0 then [']'] else '\n' :: (jslPad n d ++ [']'])]))
    = jslValue n d (.arr xs) := by
  cases xs with
  | nil => rfl
  | cons x xs =>
    rw [jslValue, jslItems_eq_asm]
    simp

theorem jsl_obj_assemble (n d : Nat) (kvs : List (Str × JsonValue)) :
    (if (kvs.map (fun kv => (kv.1, jslValue n (d + 1) kv.2))).isEmpty
      then [emptyObjTok]
      else (if n = 0 then [lbrace] else [lbrace, '\n'])
        :: (asmFields n d (kvs.map (fun kv => (kv.1, jslValue n (d + 1) kv.2)))
          ++ [if n = 0 then [rbrace] else '\n' :: (jslPad n d ++ [rbrace])]))
    = jslValue n d (.obj kvs) := by
  cases kvs with
  | nil => rfl
  | cons kv kvs =>
    obtain ⟨k, v⟩ := kv
    rw [jslValue, jslFields_eq_asm]
    simp

mutual

/-- The event-driven JSON writer produces exactly the chunk-writer output
when fed the events of a value, given enough fuel. -/
theorem jsfe_events : ∀ (fuel n d : Nat) (v : JsonValue) (rest : List Event),
    (eventsOf v).length ≤ fuel →
    jsfeValue fuel n d (eventsOf v ++ rest) = .ok (jslValue n d v, rest)
  | 0, _, _, v, _, hf => by
    have := eventsOf_length_pos v
    omega
  | fuel + 1, n, d, .prim p, rest, hf => by
    have h : eventsOf (.prim p) ++ rest = .primitive p :: rest := by simp [eventsOf]
    rw [h, jsfeValue]
    rfl
  | fuel + 1, n, d, .arr xs, rest, hf => by
    have h : eventsOf (.arr xs) ++ rest
        = .startArray xs.length :: (eventsList xs ++ .endArray :: rest) := by
      simp [eventsOf]
    have hlen : (eventsList xs).length + 1 ≤ fuel := by
      rw [show eventsOf (.arr xs)
          = .startArray xs.length :: (eventsList xs ++ [.endArray]) from by
        simp [eventsOf]] at hf
      simp only [List.length_cons, List.length_append, List.length_singleton] at hf
      omega
    rw [h, jsfeValue, jsfeItems_events fuel n d xs rest hlen]
    simp only [exBind_ok]
    rw [jsl_arr_assemble]
  | fuel + 1, n, d, .obj kvs, rest, hf => by
    have h : eventsOf (.obj kvs) ++ rest
        = .startObject :: (eventsEntries kvs ++ .endObject :: rest) := by
      simp [eventsOf]
    have hlen : (eventsEntries kvs).length + 1 ≤ fuel := by
      rw [show eventsOf (.obj kvs)
          = .startObject :: (eventsEntries kvs ++ [.endObject]) from by
        simp [eventsOf]] at hf
      simp only [List.length_cons, List.length_append, List.length_singleton] at hf
      omega
    rw [h, jsfeValue, jsfeFields_events fuel n d kvs rest hlen]
    simp only [exBind_ok]
    rw [jsl_obj_assemble]

/-- Items version of `jsfe_events`. -/
theorem jsfeItems_events : ∀ (fuel n d : Nat) (xs : List JsonValue)
    (rest : List Event), (eventsList xs).length + 1 ≤ fuel →
    jsfeItems fuel n d (eventsList xs ++ .endArray :: rest)
      = .ok (xs.map (jslValue n (d + 1)), rest)
  | 0, _, _, _, _, hf => by omega
  | fuel + 1, n, d, [], rest, hf => by
    have h : eventsList [] ++ .endArray :: rest = .endArray :: rest := by
      simp [eventsList]
    rw [h, jsfeItems, if_pos rfl]
    rfl
  | fuel + 1, n, d, x :: xs, rest, hf => by
    obtain ⟨e, t, he, hne1, hne2, hne3⟩ := eventsOf_head_shape x
    have hlen : (eventsList (x :: xs)).length
        = (eventsOf x).length + (eventsList xs).length := by
      simp [eventsList]
    have hfx : (eventsOf x).length ≤ fuel := by
      have h1 := eventsOf_length_pos x
      omega
    have hfxs : (eventsList xs).length + 1 ≤ fuel := by
      have h1 := eventsOf_length_pos x
      omega
    have heq : eventsList (x :: xs) ++ .endArray :: rest
        = e :: (t ++ (eventsList xs ++ .endArray :: rest)) := by
      simp [eventsList, he]
    have hev : e :: (t ++ (eventsList xs ++ .endArray :: rest))
        = eventsOf x ++ (eventsList xs ++ .endArray :: rest) := by
      simp [he]
    rw [heq, jsfeItems, if_neg hne1, hev,
      jsfe_events fuel n (d + 1) x (eventsList xs ++ .endArray :: rest) hfx]
    simp only [exBind_ok]
    rw [jsfeItems_events fuel n d xs rest hfxs]
    rfl

/-- Fields version of `jsfe_events`. -/
theorem jsfeFields_events : ∀ (fuel n d : Nat) (kvs : List (Str × JsonValue))
    (rest : List Event), (eventsEntries kvs).length + 1 ≤ fuel →
    jsfeFields fuel n d (eventsEntries kvs ++ .endObject :: rest)
      = .ok (kvs.map (fun kv => (kv.1, jslValue n (d + 1) kv.2)), rest)
  | 0, _, _, _, _, hf => by omega
  | fuel + 1, n, d, [], rest, hf => by
    have h : eventsEntries [] ++ .endObject :: rest = .endObject :: rest := by
      simp [eventsEntries]
    rw [h, jsfeFields, if_pos rfl]
    rfl
  | fuel + 1, n, d, (k, v) :: kvs, rest, hf => by
    have hlen : (eventsEntries ((k, v) :: kvs)).length
        = 1 + (eventsOf v).length + (eventsEntries kvs).length := by
      simp [eventsEntries]
      omega
    have hfv : (eventsOf v).length ≤ fuel := by omega
    have hfkvs : (eventsEntries kvs).length + 1 ≤ fuel := by
      have h1 := eventsOf_length_pos v
      omega
    have heq : eventsEntries ((k, v) :: kvs) ++ .endObject :: rest
        = .key k (keyNeedsQuote k)
            :: (eventsOf v ++ (eventsEntries kvs ++ .endObject :: rest)) := by
      simp [eventsEntries]
    rw [heq, jsfeFields, if_neg (by simp),
      show Event.keyData (.key k (keyNeedsQuote k)) = some (k, keyNeedsQuote k)
        from rfl, optCase_some]
    rw [jsfe_events fuel n (d + 1) v (eventsEntries kvs ++ .endObject :: rest) hfv]
    simp only [exBind_ok]
    rw [jsfeFields_events fuel n d kvs rest hfkvs]
    rfl

end

/-- C10: the JSON stringifier agrees with serde_json — concatenating the
chunks of `json_stringify_lines(V, 0)` yields `serde_json::to_string` of the
corresponding value, indent 2 yields `to_string_pretty`, and
`json_stream_from_events` on the events of `V` produces the same chunks for
any indent. -/
theorem claim_C10_stringify_matches_serde (v : JsonValue) :
    (jsonStringifyLines v 0).flatten = serdeCompact v ∧
    (jsonStringifyLines v 2).flatten = serdePretty 0 v ∧
    ∀ n, jsonStreamFromEvents (eventsOf v) n = .ok (jsonStringifyLines v n) := by
  refine ⟨jsl_compact 0 v, jsl_pretty 0 v, fun n => ?_⟩
  rw [jsonStreamFromEvents]
  have h1 : jsfeValue ((eventsOf v).length + 1) n 0 (eventsOf v)
      = .ok (jslValue n 0 v, []) := by
    have h2 := jsfe_events ((eventsOf v).length + 1) n 0 v [] (by omega)
    simpa using h2
  rw [h1]
  simp [jsonStringifyLines]


/-! ## Decode errors, options, and the line layer (§4.2, §6, §7) -/

/-- Modelled from the spec: decode error kinds (§7). -/
inductive DErr
  | indentErr (msg : String)
  | lexErr (msg : String)
  | structErr (msg : String)
  | pathConflict (msg : String)
deriving DecidableEq, Repr

/-- True exactly on `IndentError`. -/
def DErr.isIndent : DErr → Bool
  | .indentErr _ => true
  | _ => false

/-- Modelled from the spec: key-folding modes (§6). -/
inductive KeyFoldingMode
  | off
  | safe
deriving DecidableEq, Repr

/-- Modelled from the spec: path-expansion modes (§6). -/
inductive ExpandPathsMode
  | off
  | safe
deriving DecidableEq, Repr

/-- Modelled from the spec: encode options (§6); absent fields take the
documented defaults. -/
structure EncodeOptions where
  indent : Option Nat
  delimiter : Option Char
  key_folding : Option KeyFoldingMode
  flatten_depth : Option Nat
  replacer : Option (JsonValue → JsonValue)

/-- Modelled from the spec: decode options (§6); absent fields take the
documented defaults. -/
structure DecodeOptions where
  indent : Option Nat
  strict : Option Bool
  expand_paths : Option ExpandPathsMode
deriving DecidableEq, Repr

/-- Split text into lines at newline characters. -/
def splitLines : Str → List Str
  | [] => [[]]
  | c :: r =>
    if c = '\n' then [] :: splitLines r
    else
      match splitLines r with
      | l :: ls => (c :: l) :: ls
      | [] => [[c]]

/-- Join lines with newline characters. -/
def joinLines : List Str → Str
  | [] => []
  | [l] => l
  | l :: l2 :: ls => l ++ '\n' :: joinLines (l2 :: ls)

/-- A line with no newline character. -/
def noNL (l : Str) : Bool := l.all (fun c => !(c == '\n'))

theorem splitLines_ne_nil (s : Str) : splitLines s ≠ [] := by
  induction s with
  | nil => simp [splitLines]
  | cons c r ih =>
    by_cases hc : c = '\n'
    · simp [splitLines, hc]
    · simp only [splitLines, if_neg hc]
      cases hr : splitLines r with
      | nil => exact absurd hr ih
      | cons l ls => simp

theorem splitLines_single (l : Str) (h : noNL l = true) : splitLines l = [l] := by
  induction l with
  | nil => rfl
  | cons c r ih =>
    simp only [noNL, List.all_cons, Bool.and_eq_true, Bool.not_eq_true',
      beq_eq_false_iff_ne, ne_eq] at h
    obtain ⟨hc, hr⟩ := h
    have hr2 : splitLines r = [r] := ih (by simpa [noNL] using hr)
    simp only [splitLines, if_neg hc, hr2]

theorem splitLines_cons_nl (l : Str) (rest : Str) (h : noNL l = true) :
    splitLines (l ++ '\n' :: rest) = l :: splitLines rest := by
  induction l with
  | nil => simp [splitLines]
  | cons c r ih =>
    simp only [noNL, List.all_cons, Bool.and_eq_true, Bool.not_eq_true',
      beq_eq_false_iff_ne, ne_eq] at h
    obtain ⟨hc, hr⟩ := h
    have hr2 := ih (by simpa [noNL] using hr)
    rw [List.cons_append]
    simp only [splitLines, if_neg hc, hr2]

theorem splitLines_joinLines : ∀ (ls : List Str), ls ≠ [] →
    (∀ l ∈ ls, noNL l = true) → splitLines (joinLines ls) = ls
  | [], h, _ => absurd rfl h
  | [l], _, hnl => by
    rw [joinLines, splitLines_single l (hnl l (by simp))]
  | l :: l2 :: ls, _, hnl => by
    rw [joinLines, splitLines_cons_nl l _ (hnl l (by simp)),
      splitLines_joinLines (l2 :: ls) (by simp) (fun x hx => hnl x (by simp [hx]))]

/-- Whitespace characters of the indentation layer. -/
def isWsCh (c : Char) : Bool := c == ' ' || c == '\t'

/-- Split a line into its leading whitespace and its content. -/
def wsSplit : Str → Str × Str
  | [] => ([], [])
  | c :: r =>
    if isWsCh c then
      let p := wsSplit r
      (c :: p.1, p.2)
    else ([], c :: r)

/-- Width of a run of leading whitespace: a tab counts as `n` spaces. -/
def indentWidth (n : Nat) (ws : Str) : Nat :=
  (ws.map (fun c => if c = '\t' then n else 1)).sum

/-- Modelled from the spec (§4.2, §7): per-line indentation analysis.  In
strict mode a literal tab in leading whitespace is an `IndentError`, as is an
indent that is not a multiple of `n`; in lenient mode each tab counts as `n`
spaces.  Blank lines are dropped (`none`). -/
def analyzeLine (strict : Bool) (n : Nat) (line : Str) : Except DErr (Option (Nat × Str)) :=
  if strict && (wsSplit line).1.contains '\t' then
    .error (.indentErr "tab in indentation")
  else if (wsSplit line).2.isEmpty then .ok none
  else if strict && decide (indentWidth n (wsSplit line).1 % n ≠ 0) then
    .error (.indentErr "indent is not a multiple of the indent width")
  else .ok (some (indentWidth n (wsSplit line).1 / n, (wsSplit line).2))

/-- Analyze all lines, dropping blanks and propagating the first error. -/
def analyzeLines (strict : Bool) (n : Nat) : List Str → Except DErr (List (Nat × Str))
  | [] => .ok []
  | l :: ls =>
    exBind (analyzeLine strict n l) (fun o =>
      exBind (analyzeLines strict n ls) (fun ds =>
        .ok (match o with
          | none => ds
          | some d => d :: ds)))


theorem analyzeLines_error_isIndent (strict : Bool) (n : Nat) :
    ∀ (ls : List Str) (e : DErr), analyzeLines strict n ls = .error e → e.isIndent = true := by
  intro ls
  induction ls with
  | nil => intro e h; simp [analyzeLines] at h
  | cons l ls ih =>
    intro e h
    rw [analyzeLines] at h
    cases ha : analyzeLine strict n l with
    | error e2 =>
      rw [ha, exBind_error] at h
      injection h with h2
      subst h2
      unfold analyzeLine at ha
      split at ha
      · injection ha with h3; rw [← h3]; rfl
      · split at ha
        · exact absurd ha (by simp)
        · split at ha
          · injection ha with h3; rw [← h3]; rfl
          · exact absurd ha (by simp)
    | ok o =>
      rw [ha, exBind_ok] at h
      cases hb : analyzeLines strict n ls with
      | error e2 =>
        rw [hb, exBind_error] at h
        injection h with h2
        subst h2
        exact ih _ hb
      | ok ds => rw [hb, exBind_ok] at h; exact absurd h (by simp)

/-- A line whose leading whitespace contains a tab. -/
def hasTabIndent (l : Str) : Bool := (wsSplit l).1.contains '\t'

theorem analyzeLine_tab_error (n : Nat) (l : Str) (h : hasTabIndent l = true) :
    analyzeLine true n l = .error (.indentErr "tab in indentation") := by
  rw [hasTabIndent] at h
  rw [analyzeLine, Bool.true_and, h, if_pos rfl]

theorem analyzeLines_tab_error (n : Nat) :
    ∀ (ls : List Str), (∃ l ∈ ls, hasTabIndent l = true) →
    ∃ e, analyzeLines true n ls = .error e ∧ e.isIndent = true := by
  intro ls
  induction ls with
  | nil => rintro ⟨l, hl, _⟩; simp at hl
  | cons l ls ih =>
    rintro ⟨l2, hl2, htab⟩
    rw [List.mem_cons] at hl2
    cases hl2 with
    | inl h =>
      subst h
      refine ⟨.indentErr "tab in indentation", ?_, rfl⟩
      rw [analyzeLines, analyzeLine_tab_error n l2 htab, exBind_error]
    | inr h =>
      cases ha : analyzeLine true n l with
      | error e =>
        refine ⟨e, ?_, ?_⟩
        · rw [analyzeLines, ha, exBind_error]
        · have hone : analyzeLines true n [l] = .error e := by
            rw [analyzeLines, ha, exBind_error]
          exact analyzeLines_error_isIndent true n [l] e hone
      | ok o =>
        obtain ⟨e, he, hind⟩ := ih ⟨l2, h, htab⟩
        exact ⟨e, by rw [analyzeLines, ha, exBind_ok, he, exBind_error], hind⟩

/-! ## The line tree (§4.2): building nested structure from depths -/

/-- A node of the indentation tree: the line content and its children. -/
inductive LTree where
  | node (content : Str) (kids : List LTree)
deriving Repr

abbrev Forest := List LTree

/-- Modelled from the spec (§4.2, §7): group depth-annotated lines into a
forest.  `buildF fuel d ls` consumes the lines forming the forest at depth
`d`; a line strictly deeper than expected is an `IndentError`. -/
def buildF : Nat → Nat → List (Nat × Str) → Except DErr (Forest × List (Nat × Str))
  | 0, _, _ => .error (.indentErr "out of fuel")
  | _ + 1, _, [] => .ok ([], [])
  | fuel + 1, d, (d0, c) :: rest =>
    if d0 < d then .ok ([], (d0, c) :: rest)
    else if d0 = d then
      exBind (buildF fuel (d + 1) rest) (fun p =>
        exBind (buildF fuel d p.2) (fun q =>
          .ok (.node c p.1 :: q.1, q.2)))
    else .error (.indentErr "unexpected indentation level")

mutual
/-- Depth-annotated lines of one tree. -/
def flattenTree (d : Nat) : LTree → List (Nat × Str)
  | .node c kids => (d, c) :: flattenForest (d + 1) kids
/-- Depth-annotated lines of a forest. -/
def flattenForest (d : Nat) : Forest → List (Nat × Str)
  | [] => []
  | t :: ts => flattenTree d t ++ flattenForest d ts
end

/-- The remaining lines start strictly shallower than `d` (or there are none). -/
def restShallow (d : Nat) : List (Nat × Str) → Bool
  | [] => true
  | (d0, _) :: _ => decide (d0 < d)

theorem restShallow_mono (d d2 : Nat) (r : List (Nat × Str)) (h : restShallow d r = true)
    (hd : d ≤ d2) : restShallow d2 r = true := by
  cases r with
  | nil => rfl
  | cons p r2 =>
    obtain ⟨d0, c⟩ := p
    simp only [restShallow, decide_eq_true_eq] at h ⊢
    omega

theorem restShallow_succ_append (d : Nat) (F : Forest) (rest : List (Nat × Str))
    (hr : restShallow d rest = true) :
    restShallow (d + 1) (flattenForest d F ++ rest) = true := by
  cases F with
  | nil => exact restShallow_mono d (d + 1) rest hr (Nat.le_succ d)
  | cons t ts =>
    obtain ⟨c, kids⟩ := t
    simp [flattenForest, flattenTree, restShallow]

theorem buildF_flattenForest : (F : Forest) → ∀ (fuel d : Nat) (rest : List (Nat × Str)),
    (flattenForest d F ++ rest).length < fuel → restShallow d rest = true →
    buildF fuel d (flattenForest d F ++ rest) = .ok (F, rest)
  | [] => by
    intro fuel d rest hf hr
    cases fuel with
    | zero => simp [flattenForest] at hf
    | succ f =>
      rw [flattenForest, List.nil_append]
      cases rest with
      | nil => rfl
      | cons p r2 =>
        obtain ⟨d0, c⟩ := p
        simp only [restShallow, decide_eq_true_eq] at hr
        rw [buildF, if_pos hr]
  | .node c kids :: ts => by
    intro fuel d rest hf hr
    rw [flattenForest, flattenTree] at hf ⊢
    cases fuel with
    | zero => simp at hf
    | succ f =>
      simp only [List.cons_append, List.append_assoc]
      rw [buildF, if_neg (lt_irrefl d), if_pos rfl]
      have hlen : (flattenForest (d + 1) kids ++ (flattenForest d ts ++ rest)).length < f := by
        simp only [List.cons_append, List.append_assoc, List.length_cons,
          List.length_append] at hf ⊢
        omega
      have h1 := buildF_flattenForest kids f (d + 1) (flattenForest d ts ++ rest) hlen
        (restShallow_succ_append d ts rest hr)
      have h2 := buildF_flattenForest ts f d rest
        (by simp only [List.cons_append, List.length_cons, List.length_append] at hf ⊢; omega) hr
      rw [h1, exBind_ok, h2, exBind_ok]
termination_by F => sizeOf F


/-! ## Parsed and folded value forms (§4.5, §4.6) -/

/-- Modelled from the spec (§4.6): parser output.  Object keys carry the
`was_quoted` flag until path expansion. -/
inductive PValue where
  | prim (p : Prim)
  | arr (xs : List PValue)
  | obj (kvs : List (Str × Bool × PValue))
deriving Repr

/-- Modelled from the spec (§4.5): encoder-side values after key folding.
Object keys are non-empty segment paths; without folding every path is a
single segment. -/
inductive FVal where
  | prim (p : Prim)
  | arr (xs : List FVal)
  | obj (kvs : List (List Str × FVal))
deriving Repr

/-- Join path segments with dots. -/
def joinDots : List Str → Str
  | [] => []
  | [k] => k
  | k :: k2 :: ks => k ++ '.' :: joinDots (k2 :: ks)

/-- Split a key at dots. -/
def splitDots : Str → List Str
  | [] => [[]]
  | c :: r =>
    if c = '.' then [] :: splitDots r
    else
      match splitDots r with
      | l :: ls => (c :: l) :: ls
      | [] => [[c]]

theorem splitDots_ne_nil (s : Str) : splitDots s ≠ [] := by
  induction s with
  | nil => simp [splitDots]
  | cons c r ih =>
    by_cases hc : c = '.'
    · simp [splitDots, hc]
    · simp only [splitDots, if_neg hc]
      cases hr : splitDots r with
      | nil => exact absurd hr ih
      | cons l ls => simp

/-- A dot-free string. -/
def noDot (s : Str) : Bool := s.all (fun c => !(c == '.'))

theorem splitDots_single (s : Str) (h : noDot s = true) : splitDots s = [s] := by
  induction s with
  | nil => rfl
  | cons c r ih =>
    simp only [noDot, List.all_cons, Bool.and_eq_true, Bool.not_eq_true',
      beq_eq_false_iff_ne, ne_eq] at h
    obtain ⟨hc, hr⟩ := h
    have hr2 : splitDots r = [r] := ih (by simpa [noDot] using hr)
    simp only [splitDots, if_neg hc, hr2]

theorem splitDots_cons_dot (s rest : Str) (h : noDot s = true) :
    splitDots (s ++ '.' :: rest) = s :: splitDots rest := by
  induction s with
  | nil => simp [splitDots]
  | cons c r ih =>
    simp only [noDot, List.all_cons, Bool.and_eq_true, Bool.not_eq_true',
      beq_eq_false_iff_ne, ne_eq] at h
    obtain ⟨hc, hr⟩ := h
    have hr2 := ih (by simpa [noDot] using hr)
    rw [List.cons_append]
    simp only [splitDots, if_neg hc, hr2]

theorem splitDots_joinDots : ∀ (ks : List Str), ks ≠ [] →
    (∀ k ∈ ks, noDot k = true) → splitDots (joinDots ks) = ks
  | [], h, _ => absurd rfl h
  | [k], _, hnd => by rw [joinDots, splitDots_single k (hnd k (by simp))]
  | k :: k2 :: ks, _, hnd => by
    rw [joinDots, splitDots_cons_dot k _ (hnd k (by simp)),
      splitDots_joinDots (k2 :: ks) (by simp) (fun x hx => hnd x (by simp [hx]))]

/-! ## Token-level utilities of the line grammar (§4.2, §4.6) -/

/-- Take the unquoted-key prefix of a line: characters before the first
`:` or `[`. -/
def splitKeyRaw : Str → Str × Str
  | [] => ([], [])
  | c :: r =>
    if c = ':' || c = '[' then ([], c :: r)
    else
      let p := splitKeyRaw r
      (c :: p.1, p.2)

theorem splitKeyRaw_append (k rest : Str)
    (hk : k.all (fun c => !(c == ':' || c == '[')) = true)
    (hrest : rest = [] ∨ ∃ r2, rest = ':' :: r2 ∨ rest = '[' :: r2) :
    splitKeyRaw (k ++ rest) = (k, rest) := by
  induction k with
  | nil =>
    rw [List.nil_append]
    rcases hrest with h | ⟨r2, h | h⟩
    · subst h; rfl
    · subst h; rw [splitKeyRaw]; simp
    · subst h; rw [splitKeyRaw]; simp
  | cons c r ih =>
    simp only [List.all_cons, Bool.and_eq_true, Bool.not_eq_true',
      Bool.or_eq_false_iff, beq_eq_false_iff_ne, ne_eq] at hk
    rw [List.cons_append, splitKeyRaw, if_neg (by simp [hk.1.1, hk.1.2]),
      ih (by simpa using hk.2)]

mutual
/-- Scan a delimited cell row at quote depth 0, honouring escapes inside
quotes. -/
def splitCells (delim : Char) : Str → List Str
  | [] => [[]]
  | c :: r =>
    if c = delim then [] :: splitCells delim r
    else if c = '"' then
      match splitCellsQ delim r with
      | l :: ls => (c :: l) :: ls
      | [] => [[c]]
    else
      match splitCells delim r with
      | l :: ls => (c :: l) :: ls
      | [] => [[c]]
/-- In-quote state of `splitCells`: an escape protects the next character,
a bare quote returns to delimiter scanning. -/
def splitCellsQ (delim : Char) : Str → List Str
  | [] => [[]]
  | c :: r =>
    if c = '\\' then
      match r with
      | [] => [[c]]
      | e :: r2 =>
        match splitCellsQ delim r2 with
        | l :: ls => (c :: e :: l) :: ls
        | [] => [[c, e]]
    else if c = '"' then
      match splitCells delim r with
      | l :: ls => (c :: l) :: ls
      | [] => [[c]]
    else
      match splitCellsQ delim r with
      | l :: ls => (c :: l) :: ls
      | [] => [[c]]
end


/-- Prepend a prefix onto the first piece of a split. -/
def consHead (x : Str) : List Str → List Str
  | [] => [x]
  | l :: ls => (x ++ l) :: ls

theorem consHead_ne_nil (x : Str) (ls : List Str) : consHead x ls ≠ [] := by
  cases ls <;> simp [consHead]

theorem consHead_consHead (x y : Str) (ls : List Str) :
    consHead x (consHead y ls) = consHead (x ++ y) ls := by
  cases ls <;> simp [consHead]

theorem splitCells_ne_nil (d : Char) (s : Str) : splitCells d s ≠ [] := by
  cases s with
  | nil => simp [splitCells]
  | cons c r =>
    rw [splitCells]
    split
    · simp
    · split
      · cases splitCellsQ d r <;> simp
      · cases splitCells d r <;> simp

theorem splitCellsQ_ne_nil (d : Char) (s : Str) : splitCellsQ d s ≠ [] := by
  cases s with
  | nil => simp [splitCellsQ]
  | cons c r =>
    rw [splitCellsQ.eq_def]
    simp only []
    split
    · cases r with
      | nil => simp
      | cons e r2 => rcases hc : splitCellsQ d r2 with _ | ⟨l, ls⟩ <;> simp [hc]
    · split
      · cases splitCells d r <;> simp
      · cases splitCellsQ d r <;> simp

theorem splitCells_delim (d : Char) (r : Str) : splitCells d (d :: r) = [] :: splitCells d r := by
  rw [splitCells, if_pos rfl]

theorem splitCells_quote (d : Char) (h : ¬('"' : Char) = d) (r : Str) :
    splitCells d ('"' :: r) = consHead ['"'] (splitCellsQ d r) := by
  rw [splitCells, if_neg h, if_pos rfl]
  cases splitCellsQ d r <;> rfl

theorem splitCells_plain {d c : Char} (h1 : ¬c = d) (h2 : ¬c = '"') (r : Str) :
    splitCells d (c :: r) = consHead [c] (splitCells d r) := by
  rw [splitCells, if_neg h1, if_neg h2]
  cases splitCells d r <;> rfl

theorem splitCellsQ_esc (d : Char) (e : Char) (r : Str) :
    splitCellsQ d ('\\' :: e :: r) = consHead ['\\', e] (splitCellsQ d r) := by
  rw [splitCellsQ.eq_def]
  simp only [reduceIte]
  cases splitCellsQ d r <;> rfl

theorem splitCellsQ_quote (d : Char) (r : Str) :
    splitCellsQ d ('"' :: r) = consHead ['"'] (splitCells d r) := by
  rw [splitCellsQ.eq_def]
  simp only [reduceIte]
  cases splitCells d r <;> rfl

theorem splitCellsQ_plain {d c : Char} (h1 : ¬c = '\\') (h2 : ¬c = '"') (r : Str) :
    splitCellsQ d (c :: r) = consHead [c] (splitCellsQ d r) := by
  rw [splitCellsQ.eq_def]
  simp only [if_neg h1, if_neg h2]
  cases splitCellsQ d r <;> rfl

theorem hexDigitCh_ne_quote (n : Nat) : ¬hexDigitCh n = '"' := by
  unfold hexDigitCh
  split <;> decide

theorem hexDigitCh_ne_backslash (n : Nat) : ¬hexDigitCh n = '\\' := by
  unfold hexDigitCh
  split <;> decide

theorem splitCellsQ_chunk (d : Char) (c : Char) (t : Str) :
    splitCellsQ d (escChar c ++ t) = consHead (escChar c) (splitCellsQ d t) := by
  by_cases h1 : c = '"'
  · subst h1
    rw [show escChar '"' = ['\\', '"'] from rfl, List.cons_append, List.cons_append,
      List.nil_append, splitCellsQ_esc]
  by_cases h2 : c = '\\'
  · subst h2
    rw [show escChar '\\' = ['\\', '\\'] from rfl, List.cons_append, List.cons_append,
      List.nil_append, splitCellsQ_esc]
  by_cases h3 : c = '\n'
  · subst h3
    rw [show escChar '\n' = ['\\', 'n'] from rfl, List.cons_append, List.cons_append,
      List.nil_append, splitCellsQ_esc]
  by_cases h4 : c = '\r'
  · subst h4
    rw [show escChar '\r' = ['\\', 'r'] from rfl, List.cons_append, List.cons_append,
      List.nil_append, splitCellsQ_esc]
  by_cases h5 : c = '\t'
  · subst h5
    rw [show escChar '\t' = ['\\', 't'] from rfl, List.cons_append, List.cons_append,
      List.nil_append, splitCellsQ_esc]
  by_cases h6 : c.toNat = 8
  · have hce : c = Char.ofNat 8 := by rw [← h6, Char.ofNat_toNat]
    subst hce
    rw [show escChar (Char.ofNat 8) = ['\\', 'b'] from rfl, List.cons_append,
      List.cons_append, List.nil_append, splitCellsQ_esc]
  by_cases h7 : c.toNat = 12
  · have hce : c = Char.ofNat 12 := by rw [← h7, Char.ofNat_toNat]
    subst hce
    rw [show escChar (Char.ofNat 12) = ['\\', 'f'] from rfl, List.cons_append,
      List.cons_append, List.nil_append, splitCellsQ_esc]
  by_cases h8 : isCtl c
  · rw [escChar]
    simp only [h1, h2, h3, h4, h5, h6, h7, h8, if_false, if_true, List.cons_append,
      List.nil_append]
    rw [splitCellsQ_esc, splitCellsQ_plain (by decide) (by decide),
      splitCellsQ_plain (by decide) (by decide),
      splitCellsQ_plain (hexDigitCh_ne_backslash _) (hexDigitCh_ne_quote _),
      splitCellsQ_plain (hexDigitCh_ne_backslash _) (hexDigitCh_ne_quote _),
      consHead_consHead, consHead_consHead, consHead_consHead, consHead_consHead]
    rfl
  · rw [escChar]
    simp only [h1, h2, h3, h4, h5, h6, h7, h8, if_false, Bool.false_eq_true,
      List.singleton_append]
    exact splitCellsQ_plain h2 h1 t

theorem splitCellsQ_escape (d : Char) (s : Str) (rest : Str) :
    splitCellsQ d (escapeStr s ++ '"' :: rest)
      = consHead (escapeStr s ++ ['"']) (splitCells d rest) := by
  induction s with
  | nil => rw [escapeStr_nil, List.nil_append, List.nil_append, splitCellsQ_quote]
  | cons c cs ih =>
    rw [escapeStr_cons, List.append_assoc, splitCellsQ_chunk, ih, consHead_consHead,
      List.append_assoc]

theorem splitCells_renderQuoted (d : Char) (h : ¬('"' : Char) = d) (s : Str) (rest : Str) :
    splitCells d (renderQuoted s ++ rest) = consHead (renderQuoted s) (splitCells d rest) := by
  rw [renderQuoted, List.append_assoc, List.singleton_append, List.cons_append,
    splitCells_quote d h, splitCellsQ_escape, consHead_consHead]
  rfl

/-- A cell the row scanner passes through unchanged: either an unquoted
token free of the delimiter and quotes, or a quoted token. -/
def CellOk (d : Char) (cell : Str) : Prop :=
  cell.all (fun c => !(c == d || c == '"')) = true ∨ ∃ s, cell = renderQuoted s

theorem splitCells_unq (d : Char) (cell : Str)
    (h : cell.all (fun c => !(c == d || c == '"')) = true) (rest : Str) :
    splitCells d (cell ++ rest) = consHead cell (splitCells d rest) := by
  induction cell with
  | nil =>
    rw [List.nil_append]
    cases hc : splitCells d rest with
    | nil => exact absurd hc (splitCells_ne_nil d rest)
    | cons l ls => rfl
  | cons c cs ih =>
    simp only [List.all_cons, Bool.and_eq_true, Bool.not_eq_true',
      Bool.or_eq_false_iff, beq_eq_false_iff_ne, ne_eq] at h
    rw [List.cons_append, splitCells_plain h.1.1 h.1.2,
      ih (by simpa using h.2), consHead_consHead]
    rfl

/-- Join cells with the delimiter. -/
def intercalateD (d : Char) : List Str → Str
  | [] => []
  | [c] => c
  | c :: c2 :: cs => c ++ d :: intercalateD d (c2 :: cs)

theorem splitCells_cellOk (d : Char) (cell : Str) (hok : CellOk d cell)
    (hq : ¬('"' : Char) = d) (rest : Str) :
    splitCells d (cell ++ rest) = consHead cell (splitCells d rest) := by
  cases hok with
  | inl h => exact splitCells_unq d cell h rest
  | inr h => obtain ⟨s2, hs⟩ := h; subst hs; exact splitCells_renderQuoted d hq s2 rest

theorem splitCells_intercalateD (d : Char) (hq : ¬('"' : Char) = d) :
    ∀ (cells : List Str), cells ≠ [] → (∀ c ∈ cells, CellOk d c) →
    splitCells d (intercalateD d cells) = cells
  | [], h, _ => absurd rfl h
  | [cell], _, hok => by
    rw [intercalateD, ← List.append_nil cell,
      splitCells_cellOk d cell (hok cell (by simp)) hq]
    simp [splitCells, consHead]
  | cell :: c2 :: cells, _, hok => by
    rw [intercalateD, splitCells_cellOk d cell (hok cell (by simp)) hq, splitCells_delim,
      splitCells_intercalateD d hq (c2 :: cells) (by simp)
        (fun x hx => hok x (by simp [hx]))]
    simp [consHead]


theorem intercalateD_consHead (d : Char) (x : Str) (pieces : List Str) :
    intercalateD d (consHead x pieces) = x ++ intercalateD d pieces := by
  cases pieces with
  | nil => simp [consHead, intercalateD]
  | cons l ls =>
    cases ls with
    | nil => simp [consHead, intercalateD]
    | cons l2 ls2 => simp [consHead, intercalateD]

theorem intercalateD_splitCells (d : Char) : ∀ (s : Str),
    intercalateD d (splitCells d s) = s ∧ intercalateD d (splitCellsQ d s) = s
  | [] => ⟨rfl, rfl⟩
  | c :: r => by
    have ih := intercalateD_splitCells d r
    constructor
    · by_cases h1 : c = d
      · rw [h1, splitCells_delim]
        cases hr : splitCells d r with
        | nil => exact absurd hr (splitCells_ne_nil d r)
        | cons l ls =>
          show [] ++ d :: intercalateD d (l :: ls) = d :: r
          rw [← hr, ih.1]
          rfl
      · by_cases h2 : c = '"'
        · subst h2
          rw [splitCells, if_neg h1, if_pos rfl]
          cases hq : splitCellsQ d r with
          | nil => exact absurd hq (splitCellsQ_ne_nil d r)
          | cons l ls =>
            show intercalateD d (consHead ['"'] (l :: ls)) = '"' :: r
            rw [intercalateD_consHead, ← hq, ih.2]
            rfl
        · rw [splitCells_plain h1 h2, intercalateD_consHead, ih.1]
          rfl
    · by_cases h1 : c = '\\'
      · subst h1
        cases r with
        | nil => rfl
        | cons e r2 =>
          have ih2 := intercalateD_splitCells d r2
          rw [splitCellsQ_esc, intercalateD_consHead, ih2.2]
          rfl
      · by_cases h2 : c = '"'
        · subst h2
          rw [splitCellsQ_quote, intercalateD_consHead, ih.1]
          rfl
        · rw [splitCellsQ_plain h1 h2, intercalateD_consHead, ih.2]
          rfl
termination_by s => s.length

/-- Concatenation of row-scanner-safe chunks. -/
def ChunksOk (d : Char) : List Str → Prop
  | [] => True
  | x :: xs => CellOk d x ∧ ChunksOk d xs

theorem splitCells_chunks (d : Char) (hq : ¬('"' : Char) = d) :
    ∀ (xs : List Str), ChunksOk d xs → ∀ (rest : Str),
    splitCells d (xs.flatten ++ rest) = consHead xs.flatten (splitCells d rest)
  | [], _, rest => by
    rw [List.flatten_nil, List.nil_append]
    cases hc : splitCells d rest with
    | nil => exact absurd hc (splitCells_ne_nil d rest)
    | cons l ls => rfl
  | x :: xs, hok, rest => by
    rw [List.flatten_cons, List.append_assoc,
      splitCells_cellOk d x hok.1 hq,
      splitCells_chunks d hq xs hok.2 rest, consHead_consHead]


/-! ## Array headers and inline tokens (§4.2, §4.6) -/

/-- Modelled from the spec (§4.2): the information in an array header after
the closing bracket — declared length, optional tabular column keys (with
their quoting flags), active delimiter, and optional inline scalar cells. -/
structure ArrHeader where
  len : Nat
  cols : Option (List (Str × Bool))
  delim : Char
  cells : Option Str
deriving Repr

/-- Scan to the unquoted closing brace of a tabular column list: the text
before it and the text after it. -/
def findCloseBrace (txt : Str) : Except DErr (Str × Str) :=
  match splitCells rbrace txt with
  | p1 :: p2 :: ps => .ok (p1, intercalateD rbrace (p2 :: ps))
  | _ => .error (.lexErr "unterminated column list")

/-- Parse one column-key token: quoted or literal. -/
def parseKeyTok (tok : Str) : Except DErr (Str × Bool) :=
  match tok with
  | [] => .error (.lexErr "empty key")
  | c :: r =>
    if c = '"' then
      optCase (scanQuotedBody r) (.error (.lexErr "bad quoted key"))
        (fun p =>
          if p.2.isEmpty then .ok (p.1, true)
          else .error (.lexErr "unexpected text after quoted key"))
    else .ok (c :: r, false)

/-- Parse a delimited list of column-key tokens. -/
def parseKeyToks : List Str → Except DErr (List (Str × Bool))
  | [] => .ok []
  | t :: ts =>
    exBind (parseKeyTok t) (fun k =>
      exBind (parseKeyToks ts) (fun ks => .ok (k :: ks)))

/-- Parse one inline scalar cell: quoted string or unquoted scalar token. -/
def parseCellPrim (tok : Str) : Except DErr Prim :=
  match tok with
  | [] => .error (.lexErr "empty cell")
  | c :: r =>
    if c = '"' then
      optCase (scanQuotedBody r) (.error (.lexErr "bad quoted string"))
        (fun p =>
          if p.2.isEmpty then .ok (.str p.1)
          else .error (.lexErr "unexpected text after quoted string"))
    else .ok (scanPrimTok (c :: r))

/-- Parse a delimited list of scalar cells. -/
def parseCells : List Str → Except DErr (List Prim)
  | [] => .ok []
  | t :: ts =>
    exBind (parseCellPrim t) (fun p =>
      exBind (parseCells ts) (fun ps => .ok (p :: ps)))

/-- Modelled from the spec (§4.6): an inline VALUE token — quoted string,
empty-container marker, or unquoted scalar. -/
def parseInlineVal (tok : Str) : Except DErr PValue :=
  match tok with
  | [] => .error (.lexErr "empty value")
  | c :: r =>
    if c = '"' then
      optCase (scanQuotedBody r) (.error (.lexErr "bad quoted string"))
        (fun p =>
          if p.2.isEmpty then .ok (.prim (.str p.1))
          else .error (.lexErr "unexpected text after quoted string"))
    else if decide (c :: r = emptyObjTok) then .ok (.obj [])
    else if decide (c :: r = emptyArrTok) then .ok (.arr [])
    else .ok (.prim (scanPrimTok (c :: r)))

/-- Delimiter announcement after the closing brace of a tabular header: a
colon, optionally followed by a single delimiter character. -/
def afterBraceDelim : Str → Except DErr Char
  | [] => .error (.lexErr "missing colon after tabular header")
  | c :: r =>
    if c = ':' then
      match r with
      | [] => .ok ','
      | [d2] => .ok d2
      | _ => .error (.lexErr "unexpected text after tabular header")
    else .error (.lexErr "missing colon after tabular header")

/-- Modelled from the spec (§4.2): the header text after the closing
bracket — a colon with optional delimiter announcement and inline cells, or
a tabular column list. -/
def parseAfterBracket (len : Nat) : Str → Except DErr ArrHeader
  | [] => .error (.lexErr "missing colon after array header")
  | c :: r3 =>
    if c = ':' then
      match r3 with
      | [] => .ok ⟨len, none, ',', none⟩
      | d2 :: cs =>
        if d2 = ' ' then .ok ⟨len, none, ',', some cs⟩
        else if cs.isEmpty then .ok ⟨len, none, d2, none⟩
        else .ok ⟨len, none, d2, some cs⟩
    else if c = lbrace then
      exBind (findCloseBrace r3) (fun p =>
        exBind (afterBraceDelim p.2) (fun dch =>
          exBind (parseKeyToks (splitCells dch p.1)) (fun cols =>
            .ok ⟨len, some cols, dch, none⟩)))
    else .error (.lexErr "malformed array header")

/-- Modelled from the spec (§4.2): parse the array header text after the
opening bracket. -/
def parseArrHeader (s : Str) : Except DErr ArrHeader :=
  match scanDigits s with
  | ([], _) => .error (.lexErr "missing array length")
  | (d0 :: ds, r1) =>
    match r1 with
    | [] => .error (.lexErr "missing closing bracket")
    | c :: r2 =>
      if c = ']' then parseAfterBracket (natOfDigits (d0 :: ds)) r2
      else .error (.lexErr "missing closing bracket")


/-! ## The list-element marker (§4.2 shape 4, §4.3 list form) -/

/-- A content line that does not begin with the element marker `- `. -/
def noDashStart (c : Str) : Bool := !startsDashSpace c

/-- Modelled from the spec (§4.2, §4.3): a list-element line `- CONTENT`
stands for a marker at its own depth whose content sits one level deeper
(the remainder of the element block sits at depth+2 relative to the array
header). -/
def dashSplit : List (Nat × Str) → List (Nat × Str)
  | [] => []
  | (d, c) :: rest =>
    match c with
    | [] => (d, c) :: dashSplit rest
    | [_] => (d, c) :: dashSplit rest
    | c1 :: c2 :: r =>
      if c1 = '-' ∧ c2 = ' ' then (d, ['-']) :: (d + 1, r) :: dashSplit rest
      else (d, c) :: dashSplit rest

/-- Inverse of `dashSplit` on emitted lines: merge a marker with the
content line that follows it. -/
def dashJoin : List (Nat × Str) → List (Nat × Str)
  | [] => []
  | (d, c) :: rest =>
    if c = ['-'] then
      match rest with
      | (d2, r) :: rest2 =>
        if d2 = d + 1 then (d, '-' :: ' ' :: r) :: dashJoin rest2
        else (d, c) :: dashJoin ((d2, r) :: rest2)
      | [] => [(d, c)]
    else (d, c) :: dashJoin rest
termination_by ls => ls.length
decreasing_by all_goals simp_arith

theorem dashJoin_nil : dashJoin [] = [] := by
  rw [dashJoin.eq_def]

theorem dashJoin_marker (d d2 : Nat) (r : Str) (rest2 : List (Nat × Str))
    (hd : d2 = d + 1) :
    dashJoin ((d, ['-']) :: (d2, r) :: rest2) = (d, '-' :: ' ' :: r) :: dashJoin rest2 := by
  conv_lhs => rw [dashJoin.eq_def]
  simp [hd]

theorem dashJoin_marker_skip (d d2 : Nat) (r : Str) (rest2 : List (Nat × Str))
    (hd : ¬d2 = d + 1) :
    dashJoin ((d, ['-']) :: (d2, r) :: rest2) = (d, ['-']) :: dashJoin ((d2, r) :: rest2) := by
  conv_lhs => rw [dashJoin.eq_def]
  simp [hd]

theorem dashJoin_marker_last (d : Nat) : dashJoin [(d, ['-'])] = [(d, ['-'])] := by
  rw [dashJoin.eq_def]
  simp

theorem dashJoin_plain (d : Nat) (c : Str) (rest : List (Nat × Str)) (hc : ¬c = ['-']) :
    dashJoin ((d, c) :: rest) = (d, c) :: dashJoin rest := by
  conv_lhs => rw [dashJoin.eq_def]
  simp [hc]

theorem dashSplit_marker (d : Nat) (r : Str) (rest : List (Nat × Str)) :
    dashSplit ((d, '-' :: ' ' :: r) :: rest) = (d, ['-']) :: (d + 1, r) :: dashSplit rest := by
  rw [dashSplit]
  simp

theorem dashSplit_plain (d : Nat) (c : Str) (rest : List (Nat × Str))
    (hc : noDashStart c = true) :
    dashSplit ((d, c) :: rest) = (d, c) :: dashSplit rest := by
  cases c with
  | nil => rw [dashSplit]
  | cons c1 ctl =>
    cases ctl with
    | nil => rw [dashSplit]
    | cons c2 r =>
      simp only [noDashStart, startsDashSpace, Bool.not_eq_true', Bool.and_eq_false_iff,
        beq_eq_false_iff_ne, ne_eq] at hc
      rw [dashSplit, if_neg (by tauto : ¬(c1 = '-' ∧ c2 = ' '))]

theorem dashSplit_dashJoin : ∀ (ls : List (Nat × Str)),
    (∀ p ∈ ls, p.2 = ['-'] ∨ noDashStart p.2 = true) →
    dashSplit (dashJoin ls) = ls
  | [], _ => by rw [dashJoin_nil]; rfl
  | (d, c) :: rest, h => by
    by_cases hc : c = ['-']
    · subst hc
      cases rest with
      | nil => rw [dashJoin_marker_last, dashSplit_plain d ['-'] [] rfl]; rfl
      | cons p rest2 =>
        obtain ⟨d2, r⟩ := p
        by_cases hd : d2 = d + 1
        · subst hd
          rw [dashJoin_marker d _ r rest2 rfl, dashSplit_marker,
            dashSplit_dashJoin rest2 (fun q hq => h q (by simp [hq]))]
        · rw [dashJoin_marker_skip d d2 r rest2 hd,
            dashSplit_plain d ['-'] _ rfl,
            dashSplit_dashJoin ((d2, r) :: rest2) (fun q hq => h q (by simp at hq ⊢; tauto))]
    · have hnd : noDashStart c = true := by
        rcases h (d, c) (by simp) with h1 | h1
        · exact absurd h1 hc
        · exact h1
      rw [dashJoin_plain d c rest hc, dashSplit_plain d c _ hnd,
        dashSplit_dashJoin rest (fun q hq => h q (by simp [hq]))]
termination_by ls => ls.length

theorem dashJoin_ne_nil (ls : List (Nat × Str)) (h : ls ≠ []) : dashJoin ls ≠ [] := by
  cases ls with
  | nil => exact absurd rfl h
  | cons p rest =>
    obtain ⟨d, c⟩ := p
    by_cases hc : c = ['-']
    · subst hc
      cases rest with
      | nil => rw [dashJoin_marker_last]; simp
      | cons q rest2 =>
        obtain ⟨d2, r⟩ := q
        by_cases hd : d2 = d + 1
        · rw [dashJoin_marker d d2 r rest2 hd]; simp
        · rw [dashJoin_marker_skip d d2 r rest2 hd]; simp
    · rw [dashJoin_plain d c rest hc]; simp

/-! ## Rendering depth-annotated lines as text -/

/-- Content lines the renderer may emit: non-empty, beginning with neither
space nor tab, containing no newline. -/
def lineOk : Str → Bool
  | [] => false
  | ch :: r => !(ch == ' ') && !(ch == '\t') && noNL (ch :: r)

/-- Render one depth-annotated line with `n`-space indentation. -/
def renderLine (n : Nat) (p : Nat × Str) : Str :=
  List.replicate (n * p.1) ' ' ++ p.2

theorem wsSplit_replicate_space (m : Nat) (c : Str)
    (h : lineOk c = true) :
    wsSplit (List.replicate m ' ' ++ c) = (List.replicate m ' ', c) := by
  induction m with
  | zero =>
    cases c with
    | nil => simp [lineOk] at h
    | cons ch r =>
      simp only [lineOk, Bool.and_eq_true, Bool.not_eq_true', beq_eq_false_iff_ne,
        ne_eq] at h
      rw [List.replicate_zero, List.nil_append, wsSplit,
        if_neg (by simp [isWsCh, h.1.1, h.1.2])]
  | succ m ih =>
    rw [List.replicate_succ, List.cons_append, wsSplit, if_pos (by simp [isWsCh]), ih]

theorem contains_replicate_space_tab : ∀ (m : Nat),
    (List.replicate m ' ').contains '\t' = false
  | 0 => rfl
  | m + 1 => by
    rw [List.replicate_succ]
    simp only [List.contains_cons, contains_replicate_space_tab m, Bool.or_false]
    decide

theorem analyzeLine_renderLine (n : Nat) (hn : 0 < n) (d : Nat) (c : Str)
    (h : lineOk c = true) :
    analyzeLine true n (renderLine n (d, c)) = .ok (some (d, c)) := by
  have hws := wsSplit_replicate_space (n * d) c h
  have hwidth : indentWidth n (List.replicate (n * d) ' ') = n * d := by
    rw [indentWidth, List.map_replicate, if_neg (show ¬(' ' : Char) = '\t' by decide)]
    simp [List.sum_replicate]
  rw [analyzeLine, renderLine]
  simp only [hws, contains_replicate_space_tab, Bool.and_false, Bool.false_eq_true,
    if_false, hwidth]
  have hmod : n * d % n = 0 := Nat.mul_mod_right n d
  have hdiv : n * d / n = d := Nat.mul_div_cancel_left d hn
  cases c with
  | nil => simp [lineOk] at h
  | cons ch r =>
    simp only [List.isEmpty_cons, Bool.false_eq_true, if_false, hmod, hdiv]
    simp

theorem analyzeLines_renderLines (n : Nat) (hn : 0 < n) :
    ∀ (ls : List (Nat × Str)), (∀ p ∈ ls, lineOk p.2 = true) →
    analyzeLines true n (ls.map (renderLine n)) = .ok ls
  | [], _ => rfl
  | (d, c) :: rest, h => by
    rw [List.map_cons, analyzeLines,
      analyzeLine_renderLine n hn d c (h (d, c) (by simp)), exBind_ok,
      analyzeLines_renderLines n hn rest (fun p hp => h p (by simp [hp])), exBind_ok]


/-! ## The emitter (§4.3, §4.4): folded values to line trees -/

/-- The scalar payload of a folded value, when it is one. -/
def fvalScalar : FVal → Option Prim
  | .prim p => some p
  | .arr _ => none
  | .obj _ => none

/-- The entry list of a folded value, when it is an object. -/
def objEntriesF : FVal → Option (List (List Str × FVal))
  | .obj es => some es
  | .prim _ => none
  | .arr _ => none

/-- All elements scalar (scalar-array form, §4.4). -/
def allScalar : List FVal → Option (List Prim)
  | [] => some []
  | x :: xs =>
    match fvalScalar x with
    | none => none
    | some p =>
      match allScalar xs with
      | none => none
      | some ps => some (p :: ps)

/-- A row fitting a tabular schema: an object with exactly the schema's key
sequence and only scalar values (see the note on `isTabular` for why the
sequence, not merely the set, of keys is compared). -/
def rowOk (cols : List (List Str)) : FVal → Bool
  | .obj es => decide (es.map (fun e => e.1) = cols) && es.all (fun e => (fvalScalar e.2).isSome)
  | .prim _ => false
  | .arr _ => false

/-- Modelled from the spec (§4.4, §3, §4.6, §8): the tabular analyzer.  An
array is tabular iff it is non-empty, every element is an object carrying
the first element's (non-empty) key sequence, and every value is a scalar.
The schema is the first element's key sequence.  Condition 3 of §4.4 reads
"the set of keys is identical across all elements (order is taken from the
first element)"; but §3 makes object entries an insertion-ordered sequence
that equality observes, §4.6 has every tabular row "producing a complete
object from the schema" (so decoded rows always carry the schema's key
order), and §8 demands `decode(encode(V,O), inverse(O)) ≡ V`.  An array
whose later elements list the same keys in a different order therefore
cannot both be emitted tabular and decode back to the identical sequence
— the literal set reading contradicts the spec's own round-trip property —
so the analyzer compares key sequences and sends set-equal but
order-differing arrays to the list form.  `keySetEq`/`jsonRowSet` (with the
tabular claim) record the literal set reading, and the claim's
counterexample shows the conflict on a concrete order-differing array. -/
def isTabular : List FVal → Option (List (List Str))
  | [] => none
  | x :: rest =>
    match objEntriesF x with
    | none => none
    | some [] => none
    | some (e :: es) =>
      if rest.all (rowOk ((e :: es).map (fun e2 => e2.1)))
          && (e :: es).all (fun e2 => (fvalScalar e2.2).isSome)
      then some ((e :: es).map (fun e2 => e2.1))
      else none

/-- Render a key path: a single segment as a (possibly quoted) key, a folded
path as its dot-joined unquoted segments. -/
def renderPath : List Str → Str
  | [] => []
  | [k] => renderKey k
  | k :: k2 :: ks => joinDots (k :: k2 :: ks)

/-- The key name the parser recovers for a path. -/
def pathName : List Str → Str
  | [] => []
  | [k] => k
  | k :: k2 :: ks => joinDots (k :: k2 :: ks)

/-- The `was_quoted` flag the parser recovers for a path. -/
def pathFlag : List Str → Bool
  | [] => false
  | [k] => keyNeedsQuote k
  | _ :: _ :: _ => false

/-- Announcement of the active delimiter in a scalar-array header: a space
for the default comma, the delimiter itself otherwise. -/
def delimAnn (d : Char) : Str := if d = ',' then [' '] else [d]

/-- Announcement of the active delimiter after a tabular header. -/
def tabAnn (d : Char) : Str := if d = ',' then [] else [d]

/-- The header text after the closing bracket for a non-empty array:
inline cells for the scalar form, a column list for the tabular form, a
bare colon for the list form (§4.3). -/
def arrSuffix (delim : Char) (xs : List FVal) : Str :=
  match allScalar xs with
  | some ps => ':' :: delimAnn delim ++ intercalateD delim (ps.map (renderPrim delim))
  | none =>
    match isTabular xs with
    | some cols =>
      lbrace :: intercalateD delim (cols.map renderPath) ++ rbrace :: ':' :: tabAnn delim
    | none => [':']

/-- One tabular row: delimiter-separated rendered cells (§4.3). -/
def emitRow (delim : Char) : FVal → LTree
  | .obj es =>
    .node (intercalateD delim (es.map (fun e => renderPrim delim ((fvalScalar e.2).getD .null)))) []
  | .prim _ => .node [] []
  | .arr _ => .node [] []

mutual
/-- Modelled from the spec (§4.3): emit one object entry as a line tree. -/
def emitEntry (delim : Char) : List Str × FVal → LTree
  | (path, v) =>
    match v with
    | .prim p => .node (renderPath path ++ ':' :: ' ' :: renderPrim delim p) []
    | .obj [] => .node (renderPath path ++ ':' :: ' ' :: emptyObjTok) []
    | .obj (e :: es) => .node (renderPath path ++ [':']) (emitEntries delim (e :: es))
    | .arr [] => .node (renderPath path ++ ':' :: ' ' :: emptyArrTok) []
    | .arr (x :: xs) =>
      .node (renderPath path ++ '[' :: natChars (x :: xs).length ++ ']' :: arrSuffix delim (x :: xs))
        (arrKids delim (x :: xs))
termination_by e => (sizeOf e, 0)
/-- Emit an object's entries in order. -/
def emitEntries (delim : Char) : List (List Str × FVal) → Forest
  | [] => []
  | e :: es => emitEntry delim e :: emitEntries delim es
termination_by es => (sizeOf es, 0)
/-- Modelled from the spec (§4.3): emit one list element.  The marker node
carries the element's block; rendering joins the marker with the block's
first line. -/
def emitElem (delim : Char) : FVal → LTree
  | .prim p => .node ['-'] [.node (renderPrim delim p) []]
  | .obj [] => .node ['-'] [.node emptyObjTok []]
  | .obj (e :: es) => .node ['-'] (emitEntries delim (e :: es))
  | .arr [] => .node ['-'] [.node emptyArrTok []]
  | .arr (x :: xs) =>
    .node ['-'] (.node ('[' :: natChars (x :: xs).length ++ ']' :: arrSuffix delim (x :: xs)) []
      :: arrKids delim (x :: xs))
termination_by v => (sizeOf v, 0)
/-- Emit list elements in order. -/
def emitElems (delim : Char) : List FVal → Forest
  | [] => []
  | x :: xs => emitElem delim x :: emitElems delim xs
termination_by xs => (sizeOf xs, 0)
/-- The child lines of a non-empty array: nothing for the scalar form, the
rows for the tabular form, the elements for the list form. -/
def arrKids (delim : Char) (xs : List FVal) : Forest :=
  match allScalar xs with
  | some _ => []
  | none =>
    match isTabular xs with
    | some _ => xs.map (emitRow delim)
    | none => emitElems delim xs
termination_by (sizeOf xs, 1)
end

/-- Modelled from the spec (§4.3): emit a root value as a forest. -/
def emitRoot (delim : Char) : FVal → Forest
  | .prim p => [.node (renderPrim delim p) []]
  | .obj [] => [.node emptyObjTok []]
  | .obj (e :: es) => emitEntries delim (e :: es)
  | .arr [] => [.node emptyArrTok []]
  | .arr (x :: xs) =>
    [.node ('[' :: natChars (x :: xs).length ++ ']' :: arrSuffix delim (x :: xs))
      (arrKids delim (x :: xs))]


/-! ## The line parser (§4.6): line trees to parsed values -/

/-- Modelled from the spec (§7): reject duplicate keys in one object.  A
folded path key and a quoted literal key with the same spelling differ by
their quoting flag. -/
def checkEntries (es : List (Str × Bool × PValue)) : Except DErr PValue :=
  if (es.map (fun e => (e.1, e.2.1))).Nodup then .ok (.obj es)
  else .error (.structErr "duplicate key in object")

/-- Modelled from the spec (§4.6): a tabular row is one line of
delimiter-separated scalars matched against the column schema; rows do not
recurse. -/
def parseRow (delim : Char) (cols : List (Str × Bool)) : LTree → Except DErr PValue
  | .node c kids =>
    if kids.isEmpty then
      exBind (parseCells (splitCells delim c)) (fun ps =>
        if ps.length = cols.length then
          .ok (.obj (List.zipWith (fun kq p => (kq.1, kq.2, PValue.prim p)) cols ps))
        else .error (.structErr "column count mismatch"))
    else .error (.structErr "unexpected nested content in a table row")

/-- Parse all rows of a tabular array. -/
def parseRows (delim : Char) (cols : List (Str × Bool)) : Forest → Except DErr (List PValue)
  | [] => .ok []
  | t :: ts =>
    exBind (parseRow delim cols t) (fun v =>
      exBind (parseRows delim cols ts) (fun vs => .ok (v :: vs)))

mutual
/-- Modelled from the spec (§4.2, §4.6): parse one object-entry line with
its nested block. -/
def parseEntryNode : LTree → Except DErr (Str × Bool × PValue)
  | .node c kids =>
    match c with
    | [] => .error (.lexErr "empty line")
    | ch :: r =>
      if ch = '"' then
        optCase (scanQuotedBody r) (.error (.lexErr "bad quoted key"))
          (fun p => parseEntryRest p.1 true p.2 kids)
      else
        match splitKeyRaw (ch :: r) with
        | (k, rest) =>
          if k.isEmpty then .error (.lexErr "missing key")
          else parseEntryRest k false rest kids
termination_by t => (sizeOf t, 0)
/-- The text after an entry's key: `:` opener, `: VALUE` inline, or an
array header. -/
def parseEntryRest (k : Str) (flag : Bool) : Str → Forest → Except DErr (Str × Bool × PValue)
  | [], _ => .error (.lexErr "missing colon after key")
  | c :: r2, kids =>
    if c = ':' then
      match r2 with
      | [] =>
        if kids.isEmpty then .error (.structErr "missing nested block")
        else
          exBind (parseEntries kids) (fun es =>
            exBind (checkEntries es) (fun v => .ok (k, flag, v)))
      | c2 :: r3 =>
        if c2 = ' ' then
          if kids.isEmpty then exBind (parseInlineVal r3) (fun v => .ok (k, flag, v))
          else .error (.structErr "unexpected nested block after an inline value")
        else .error (.lexErr "expected a space after the colon")
    else if c = '[' then
      exBind (parseArrHeader r2) (fun hdr =>
        exBind (parseArrayBody hdr kids) (fun v => .ok (k, flag, v)))
    else .error (.lexErr "missing colon after key")
termination_by rest kids => (sizeOf kids, 3)
/-- Parse a block of entry lines. -/
def parseEntries : Forest → Except DErr (List (Str × Bool × PValue))
  | [] => .ok []
  | t :: ts =>
    exBind (parseEntryNode t) (fun e =>
      exBind (parseEntries ts) (fun es => .ok (e :: es)))
termination_by f => (sizeOf f, 2)
/-- Modelled from the spec (§4.2 shape 4): parse one list element: a marker
node carrying the element's block. -/
def parseElemNode : LTree → Except DErr PValue
  | .node c kids =>
    if c = ['-'] then parseElemBody kids
    else .error (.lexErr "expected a list element")
termination_by t => (sizeOf t, 0)
/-- The block of one list element: a single scalar line, a keyless array
header followed by its body, or entry lines forming an object. -/
def parseElemBody : Forest → Except DErr PValue
  | [] => .error (.structErr "empty list element")
  | t :: ts =>
    match t with
    | .node c kids =>
      match c with
      | [] => .error (.lexErr "empty line")
      | ch :: r =>
        if decide (ch :: r = emptyArrTok) then
          if kids.isEmpty ∧ ts.isEmpty then .ok (.arr [])
          else .error (.structErr "unexpected content after a scalar element")
        else if ch = '[' then
          if kids.isEmpty then
            exBind (parseArrHeader r) (fun hdr => parseArrayBody hdr ts)
          else .error (.structErr "unexpected nested content under an array header")
        else if ch = '"' then
          optCase (scanQuotedBody r) (.error (.lexErr "bad quoted token"))
            (fun p =>
              match p.2 with
              | [] =>
                if kids.isEmpty ∧ ts.isEmpty then .ok (.prim (.str p.1))
                else .error (.structErr "unexpected content after a scalar element")
              | _ :: _ =>
                exBind (parseEntries (LTree.node (ch :: r) kids :: ts)) checkEntries)
        else
          match splitKeyRaw (ch :: r) with
          | (_, rest) =>
            match rest with
            | [] =>
              if kids.isEmpty ∧ ts.isEmpty then parseInlineVal (ch :: r)
              else .error (.structErr "unexpected content after a scalar element")
            | _ :: _ => exBind (parseEntries (LTree.node (ch :: r) kids :: ts)) checkEntries
termination_by f => (sizeOf f, 3)
/-- Parse the elements of a list-form array. -/
def parseElems : Forest → Except DErr (List PValue)
  | [] => .ok []
  | t :: ts =>
    exBind (parseElemNode t) (fun v =>
      exBind (parseElems ts) (fun vs => .ok (v :: vs)))
termination_by f => (sizeOf f, 1)
/-- Modelled from the spec (§4.4, §4.6): the body of a non-empty array in
one of the three forms. -/
def parseArrayBody (hdr : ArrHeader) (body : Forest) : Except DErr PValue :=
  match hdr.cells with
  | some cellsTxt =>
    if body.isEmpty then
      exBind (parseCells (splitCells hdr.delim cellsTxt)) (fun ps =>
        if ps.length = hdr.len then .ok (.arr (ps.map PValue.prim))
        else .error (.structErr "length mismatch"))
    else .error (.structErr "unexpected nested content after inline cells")
  | none =>
    match hdr.cols with
    | some cols =>
      if body.length = hdr.len then
        exBind (parseRows hdr.delim cols body) (fun rows => .ok (.arr rows))
      else .error (.structErr "row count mismatch")
    | none =>
      if body.length = hdr.len then
        exBind (parseElems body) (fun es => .ok (.arr es))
      else .error (.structErr "row count mismatch")
termination_by (sizeOf body, 2)
end

/-- Modelled from the spec (§4.2 shape 5, §4.6): parse a document forest —
a single value line, a root array header, or a block of entries. -/
def parseRoot : Forest → Except DErr PValue
  | [] => .error (.structErr "empty document")
  | [LTree.node c kids] =>
    match c with
    | [] => .error (.lexErr "empty line")
    | ch :: r =>
      if decide (ch :: r = emptyArrTok) then
        if kids.isEmpty then .ok (.arr [])
        else .error (.structErr "unexpected nested content")
      else if ch = '[' then
        exBind (parseArrHeader r) (fun hdr => parseArrayBody hdr kids)
      else if ch = '"' then
        optCase (scanQuotedBody r) (.error (.lexErr "bad quoted token"))
          (fun p =>
            match p.2 with
            | [] =>
              if kids.isEmpty then .ok (.prim (.str p.1))
              else .error (.structErr "unexpected nested content")
            | _ :: _ => exBind (parseEntries [LTree.node c kids]) checkEntries)
      else
        match splitKeyRaw (ch :: r) with
        | (_, rest) =>
          match rest with
          | [] =>
            if kids.isEmpty then parseInlineVal (ch :: r)
            else .error (.structErr "unexpected nested content")
          | _ :: _ => exBind (parseEntries [LTree.node c kids]) checkEntries
  | t :: t2 :: ts => exBind (parseEntries (t :: t2 :: ts)) checkEntries


/-! ## Expected parse of an emitted value -/

mutual
/-- The parsed form of an emitted folded value: scalars are scrubbed
(non-finite numbers read back as null), keys carry the recovered name and
quoting flag. -/
def pvalOf : FVal → PValue
  | .prim p => .prim (scrubPrim p)
  | .arr xs => .arr (pvalList xs)
  | .obj kvs => .obj (pvalEntries kvs)
def pvalList : List FVal → List PValue
  | [] => []
  | x :: xs => pvalOf x :: pvalList xs
def pvalEntries : List (List Str × FVal) → List (Str × Bool × PValue)
  | [] => []
  | (path, v) :: es => (pathName path, pathFlag path, pvalOf v) :: pvalEntries es
end

/-- A fold-safe path segment: a key the folder may leave unquoted. -/
def segOk (k : Str) : Bool := !keyNeedsQuote k

/-- Well-formedness of a path on the emitting side: non-empty, and fold-safe
in every segment when folded. -/
def pathOkB : List Str → Bool
  | [] => false
  | [_] => true
  | k :: k2 :: ks => (k :: k2 :: ks).all segOk

mutual
/-- Emit-side well-formedness of a folded value: canonical numbers,
distinct (name, flag) key pairs in every object, well-formed paths. -/
def fwf : FVal → Bool
  | .prim p => primCanonical p
  | .arr xs => fwfList xs
  | .obj kvs =>
    decide ((kvs.map (fun e => (pathName e.1, pathFlag e.1))).Nodup) && fwfEntries kvs
def fwfList : List FVal → Bool
  | [] => true
  | x :: xs => fwf x && fwfList xs
def fwfEntries : List (List Str × FVal) → Bool
  | [] => true
  | (path, v) :: es => pathOkB path && fwf v && fwfEntries es
end

/-! ## Key folding and its trivial variant (§4.5) -/

/-- Folding-depth cap: a chain may grow to `newLen` segments. -/
def capOk (cap : Option Nat) (newLen : Nat) : Bool :=
  match cap with
  | none => true
  | some c => decide (newLen ≤ c)

mutual
/-- Modelled from the spec (§4.5): key folding in `Safe` mode — collapse
maximal single-entry chains with fold-safe segment keys into dotted paths,
up to the configured depth cap. -/
def foldV (cap : Option Nat) : JsonValue → FVal
  | .prim p => .prim p
  | .arr xs => .arr (foldList cap xs)
  | .obj kvs => .obj (foldEntries cap kvs)
termination_by v => (sizeOf v, 0)
def foldList (cap : Option Nat) : List JsonValue → List FVal
  | [] => []
  | x :: xs => foldV cap x :: foldList cap xs
termination_by xs => (sizeOf xs, 0)
def foldEntries (cap : Option Nat) : List (Str × JsonValue) → List (List Str × FVal)
  | [] => []
  | (k, v) :: kvs => foldChain cap [k] v :: foldEntries cap kvs
termination_by kvs => (sizeOf kvs, 0)
/-- Extend the current chain while the value is a one-entry object with a
fold-safe key and the cap allows it. -/
def foldChain (cap : Option Nat) (path : List Str) : JsonValue → List Str × FVal
  | .obj [(k2, v2)] =>
    if path.all segOk && segOk k2 && capOk cap (path.length + 1) then
      foldChain cap (path ++ [k2]) v2
    else (path, foldV cap (.obj [(k2, v2)]))
  | .prim p => (path, .prim p)
  | .arr xs => (path, .arr (foldList cap xs))
  | .obj [] => (path, .obj [])
  | .obj (e :: e2 :: es) => (path, .obj (foldEntries cap (e :: e2 :: es)))
termination_by v => (sizeOf v, 1)
end

mutual
/-- Folding `Off`: every key is a one-segment path. -/
def foldOffV : JsonValue → FVal
  | .prim p => .prim p
  | .arr xs => .arr (foldOffList xs)
  | .obj kvs => .obj (foldOffEntries kvs)
def foldOffList : List JsonValue → List FVal
  | [] => []
  | x :: xs => foldOffV x :: foldOffList xs
def foldOffEntries : List (Str × JsonValue) → List (List Str × FVal)
  | [] => []
  | (k, v) :: kvs => ([k], foldOffV v) :: foldOffEntries kvs
end

/-! ## Path expansion and its trivial variant (§4.5) -/

mutual
/-- Expansion `Off`: drop the quoting flags. -/
def deflag : PValue → JsonValue
  | .prim p => .prim p
  | .arr xs => .arr (deflagList xs)
  | .obj kvs => .obj (deflagEntries kvs)
def deflagList : List PValue → List JsonValue
  | [] => []
  | x :: xs => deflag x :: deflagList xs
def deflagEntries : List (Str × Bool × PValue) → List (Str × JsonValue)
  | [] => []
  | (k, _, v) :: es => (k, deflag v) :: deflagEntries es
end

/-- Entry lookup by key. -/
def lookupEntry : List (Str × JsonValue) → Str → Option JsonValue
  | [], _ => none
  | (k, v) :: es, key => if k = key then some v else lookupEntry es key

/-- Replace the value at a key. -/
def replaceEntry : List (Str × JsonValue) → Str → JsonValue → List (Str × JsonValue)
  | [], _, _ => []
  | (k, v) :: es, key, w => if k = key then (k, w) :: es else (k, v) :: replaceEntry es key w

/-- Wrap a value in singleton objects along a path. -/
def nestPath : List Str → JsonValue → JsonValue
  | [], v => v
  | k :: ks, v => .obj [(k, nestPath ks v)]

mutual
/-- Modelled from the spec (§4.5): insert a value at a path into an entry
list, failing with a `PathConflict` when an existing sibling has an
incompatible shape. -/
def insertPath : List (Str × JsonValue) → List Str → JsonValue → Except DErr (List (Str × JsonValue))
  | _, [], _ => .error (.pathConflict "empty path")
  | acc, [k], v =>
    match lookupEntry acc k with
    | none => .ok (acc ++ [(k, v)])
    | some w =>
      match w with
      | .obj we =>
        match v with
        | .obj ve =>
          exBind (mergeEntries we ve) (fun m => .ok (replaceEntry acc k (.obj m)))
        | .prim _ => .error (.pathConflict "conflicting shapes at path")
        | .arr _ => .error (.pathConflict "conflicting shapes at path")
      | .prim _ => .error (.pathConflict "conflicting shapes at path")
      | .arr _ => .error (.pathConflict "conflicting shapes at path")
  | acc, k :: k2 :: ks, v =>
    match lookupEntry acc k with
    | none => .ok (acc ++ [(k, nestPath (k2 :: ks) v)])
    | some w =>
      match w with
      | .obj we =>
        exBind (insertPath we (k2 :: ks) v) (fun m => .ok (replaceEntry acc k (.obj m)))
      | .prim _ => .error (.pathConflict "conflicting shapes at path")
      | .arr _ => .error (.pathConflict "conflicting shapes at path")
termination_by _ path v => (sizeOf v, path.length)
/-- Merge two objects' entry lists during expansion. -/
def mergeEntries (we : List (Str × JsonValue)) : List (Str × JsonValue) → Except DErr (List (Str × JsonValue))
  | [] => .ok we
  | (k, v) :: ve => exBind (insertPath we [k] v) (fun m => mergeEntries m ve)
termination_by ve => (sizeOf ve, 0)
end

/-- The segments a key expands to: quoted keys and dot-free keys stay
literal; an unquoted dotted key with non-empty segments is split. -/
def splitSegs (k : Str) (q : Bool) : List Str :=
  if q then [k]
  else if noDot k then [k]
  else if (splitDots k).all (fun s => !s.isEmpty) then splitDots k
  else [k]

/-- Assemble an object's expanded entries in order. -/
def assembleObjAux (acc : List (Str × JsonValue)) :
    List (Str × Bool × JsonValue) → Except DErr (List (Str × JsonValue))
  | [] => .ok acc
  | (k, q, w) :: es =>
    exBind (insertPath acc (splitSegs k q) w) (fun acc2 => assembleObjAux acc2 es)

mutual
/-- Modelled from the spec (§4.5): path expansion in `Safe` mode. -/
def expandP : PValue → Except DErr JsonValue
  | .prim p => .ok (.prim p)
  | .arr xs => exBind (expandList xs) (fun ys => .ok (.arr ys))
  | .obj kvs =>
    exBind (expandEntries kvs) (fun ws =>
      exBind (assembleObjAux [] ws) (fun es => .ok (.obj es)))
def expandList : List PValue → Except DErr (List JsonValue)
  | [] => .ok []
  | x :: xs =>
    exBind (expandP x) (fun y => exBind (expandList xs) (fun ys => .ok (y :: ys)))
def expandEntries : List (Str × Bool × PValue) → Except DErr (List (Str × Bool × JsonValue))
  | [] => .ok []
  | (k, q, v) :: es =>
    exBind (expandP v) (fun w =>
      exBind (expandEntries es) (fun ws => .ok ((k, q, w) :: ws)))
end

/-! ## Well-formed JSON values -/

mutual
/-- A well-formed JSON value: canonical number payloads and no duplicate
keys in any object. -/
def wfV : JsonValue → Bool
  | .prim p => primCanonical p
  | .arr xs => wfList xs
  | .obj kvs => decide ((kvs.map (fun e => e.1)).Nodup) && wfEntries kvs
def wfList : List JsonValue → Bool
  | [] => true
  | x :: xs => wfV x && wfList xs
def wfEntries : List (Str × JsonValue) → Bool
  | [] => true
  | (_, v) :: kvs => wfV v && wfEntries kvs
end

/-! ## The top-level API (§6) -/

/-- Effective indent width. -/
def effIndent (o : EncodeOptions) : Nat := o.indent.getD 2

/-- Effective delimiter. -/
def effDelim (o : EncodeOptions) : Char := o.delimiter.getD ','

/-- Effective key-folding mode. -/
def effFold (o : EncodeOptions) : KeyFoldingMode := o.key_folding.getD .off

/-- Apply the optional replacer before emission (§6). -/
def applyReplacer (o : EncodeOptions) (v : JsonValue) : JsonValue :=
  match o.replacer with
  | none => v
  | some f => f v

/-- Modelled from the spec (§6, §4.3): encode a value as TOON text. -/
def encode (v : JsonValue) (o : EncodeOptions) : Str :=
  joinLines ((dashJoin (flattenForest 0 (emitRoot (effDelim o)
    (match effFold o with
     | .safe => foldV o.flatten_depth (applyReplacer o v)
     | .off => foldOffV (applyReplacer o v))))).map (renderLine (effIndent o)))

/-- Modelled from the spec (§6, §4.6): decode TOON text, surfacing the
first error.  The tree builder at depth 0 consumes every line, so the
residue of `buildF` is empty and is ignored. -/
def tryDecode (text : Str) (o : DecodeOptions) : Except DErr JsonValue :=
  exBind (analyzeLines (o.strict.getD true) (o.indent.getD 2) (splitLines text)) (fun ls0 =>
    exBind (buildF ((dashSplit ls0).length + 1) 0 (dashSplit ls0)) (fun p =>
      exBind (parseRoot p.1) (fun pv =>
        match o.expand_paths.getD .off with
        | .off => .ok (deflag pv)
        | .safe => expandP pv)))

/-- Diagnostic text for a decode error (§7). -/
def describeErr : DErr → Str
  | .indentErr m => ("IndentError: " ++ m).data
  | .lexErr m => ("LexicalError: " ++ m).data
  | .structErr m => ("StructureError: " ++ m).data
  | .pathConflict m => ("PathConflict: " ++ m).data

/-- Modelled from the spec (§6): the infallible convenience wrapper —
errors become a diagnostic value. -/
def decode (text : Str) (o : DecodeOptions) : JsonValue :=
  match tryDecode text o with
  | .ok v => v
  | .error e => .obj [("error".data, .prim (.str (describeErr e)))]

/-- Modelled from the spec (§8): `inverse(O)` — same indent, strict mode,
and `expand_paths` paired with `key_folding`. -/
def inverseOpts (o : EncodeOptions) : DecodeOptions :=
  ⟨some (effIndent o), some true,
    some (match effFold o with
      | .safe => .safe
      | .off => .off)⟩

/-- Modelled from the spec (§6, §7): a delimiter the grammar supports — a
printable character that cannot occur inside an unquoted scalar or key
token and is not structural punctuation. -/
def supportedDelim (d : Char) : Bool :=
  !isCtl d && !isAlphaCh d && !isDigitCh d
    && !(d == ' ') && !(d == '"') && !(d == '\\') && !(d == ':') && !(d == '-')
    && !(d == '.') && !(d == '#') && !(d == '[') && !(d == ']') && !(d == lbrace)
    && !(d == rbrace) && !(d == '_')

/-- A supported encode-option record (§6, §7, §8): a positive indent, a
supported delimiter, and no replacer (a replacer rewrites the value, so no
round-trip statement can mention it). -/
def SupportedOpts (o : EncodeOptions) : Prop :=
  0 < effIndent o ∧ supportedDelim (effDelim o) = true ∧ o.replacer = none


/-! ## Character-level safety of emitted tokens -/

theorem isDigitCh_digitCh_any (n : Nat) : isDigitCh (digitCh n) = true := by
  unfold digitCh
  split <;> decide

/-- An unquoted token that the line grammar scans through unchanged. -/
def PlainTokOk (delim : Char) (tok : Str) : Prop :=
  ∀ c ∈ tok, ¬c = delim ∧ ¬c = '"' ∧ ¬c = ':' ∧ ¬c = '[' ∧ ¬c = '\n' ∧
    ¬c = lbrace ∧ ¬c = rbrace

theorem supportedDelim_facts {d : Char} (hd : supportedDelim d = true) :
    isCtl d = false ∧ isAlphaCh d = false ∧ isDigitCh d = false ∧ ¬d = ' ' ∧ ¬d = '"'
      ∧ ¬d = '\\' ∧ ¬d = ':' ∧ ¬d = '-' ∧ ¬d = '.' ∧ ¬d = '#' ∧ ¬d = '[' ∧ ¬d = ']'
      ∧ ¬d = lbrace ∧ ¬d = rbrace ∧ ¬d = '_' := by
  simp only [supportedDelim, Bool.and_eq_true, Bool.not_eq_true', beq_eq_false_iff_ne,
    ne_eq] at hd
  tauto

theorem numCh_plain {delim : Char} (hd : supportedDelim delim = true) {c : Char}
    (h : isAlphaCh c = true ∨ isDigitCh c = true ∨ c = '-' ∨ c = '.') :
    ¬c = delim ∧ ¬c = '"' ∧ ¬c = ':' ∧ ¬c = '[' ∧ ¬c = '\n' ∧ ¬c = lbrace ∧ ¬c = rbrace := by
  obtain ⟨_, ha, hdig, _, _, _, _, hdash, hdot, _, _, _, _, _, _⟩ := supportedDelim_facts hd
  refine ⟨?_, ?_, ?_, ?_, ?_, ?_, ?_⟩
  · rintro rfl
    rcases h with h | h | h | h
    · rw [h] at ha; exact absurd ha (by simp)
    · rw [h] at hdig; exact absurd hdig (by simp)
    · exact hdash h
    · exact hdot h
  all_goals rintro rfl
  all_goals rcases h with h | h | h | h <;> simp_all [isAlphaCh, isDigitCh, lbrace, rbrace]

theorem natChars_digit (n : Nat) : ∀ c ∈ natChars n, isDigitCh c = true := by
  intro c hc
  rw [natChars] at hc
  obtain ⟨d, _, hd2⟩ := List.mem_map.mp hc
  rw [← hd2]
  exact isDigitCh_digitCh_any d

theorem numTok_plainOk {delim : Char} (hd : supportedDelim delim = true)
    (neg : Bool) (ip : Nat) (frac : List Nat) :
    PlainTokOk delim (renderF64 (.fin neg ip frac)) := by
  intro c hc
  rw [renderF64] at hc
  simp only [List.mem_append] at hc
  apply numCh_plain hd
  rcases hc with (hc | hc) | hc
  · cases neg with
    | true => simp at hc; tauto
    | false => simp at hc
  · exact Or.inr (Or.inl (natChars_digit ip c hc))
  · by_cases hf : frac.isEmpty
    · simp [hf] at hc
    · simp only [hf, Bool.false_eq_true, if_false, List.mem_cons] at hc
      rcases hc with hc | hc
      · tauto
      · obtain ⟨d, _, hd2⟩ := List.mem_map.mp hc
        rw [← hd2]
        exact Or.inr (Or.inl (isDigitCh_digitCh_any d))

theorem wordTok_plainOk {delim : Char} (hd : supportedDelim delim = true) :
    PlainTokOk delim nullTok ∧ PlainTokOk delim trueTok ∧ PlainTokOk delim falseTok := by
  refine ⟨?_, ?_, ?_⟩ <;> intro c hc <;>
    apply numCh_plain hd <;>
    · left
      simp only [nullTok, trueTok, falseTok, List.mem_cons, List.not_mem_nil, or_false] at hc
      rcases hc with rfl | rfl | rfl | rfl | rfl <;> decide

theorem strTok_plainOk {delim : Char} {s : Str} (h : strNeedsQuote delim s = false) :
    PlainTokOk delim s := by
  intro c hc
  simp only [strNeedsQuote, Bool.or_eq_false_iff] at h
  have hforb : forbiddenCh delim c = false := by
    have := h.1.1.2
    rw [List.any_eq_false] at this
    simpa using this c hc
  simp only [forbiddenCh, Bool.or_eq_false_iff, beq_eq_false_iff_ne, ne_eq] at hforb
  obtain ⟨⟨⟨⟨⟨⟨⟨⟨⟨⟨hctl, hq⟩, hbs⟩, hcol⟩, hcom⟩, hdel⟩, hlb⟩, hrb⟩, hl2⟩, hr2⟩, hh⟩ := hforb
  refine ⟨hdel, hq, hcol, hlb, ?_, hl2, hr2⟩
  rintro rfl
  simp [isCtl] at hctl

theorem renderPrim_plainOk {delim : Char} (hd : supportedDelim delim = true) (p : Prim)
    (hq : primQuoted delim p = false) : PlainTokOk delim (renderPrim delim p) := by
  cases p with
  | null => exact (wordTok_plainOk hd).1
  | bool b => cases b
              · exact (wordTok_plainOk hd).2.2
              · exact (wordTok_plainOk hd).2.1
  | num x =>
    cases x with
    | fin neg ip frac => exact numTok_plainOk hd neg ip frac
    | nan => exact (wordTok_plainOk hd).1
    | posInf => exact (wordTok_plainOk hd).1
    | negInf => exact (wordTok_plainOk hd).1
  | str s =>
    simp only [primQuoted] at hq
    rw [renderPrim, renderStrVal, hq, if_neg (by simp)]
    exact strTok_plainOk hq


theorem lineOk_intro {ch : Char} {r : Str} (h1 : ¬ch = ' ') (h2 : ¬ch = '\t')
    (h3 : noNL (ch :: r) = true) : lineOk (ch :: r) = true := by
  simp only [lineOk, Bool.and_eq_true, Bool.not_eq_true', beq_eq_false_iff_ne, ne_eq]
  exact ⟨⟨h1, h2⟩, h3⟩

theorem noDashStart_head {ch : Char} (r : Str) (h : ¬ch = '-') :
    noDashStart (ch :: r) = true := by
  cases r <;> simp [noDashStart, startsDashSpace, h]

theorem noDashStart_dash_nonspace {c2 : Char} (r : Str) (h : ¬c2 = ' ') :
    noDashStart ('-' :: c2 :: r) = true := by
  simp [noDashStart, startsDashSpace, h]

theorem noNL_of_plainTokOk {delim : Char} {tok : Str} (h : PlainTokOk delim tok) :
    noNL tok = true := by
  rw [noNL, List.all_eq_true]
  intro c hc
  simpa using (h c hc).2.2.2.2.1

theorem hexDigitCh_ne_nl (n : Nat) : ¬hexDigitCh n = '\n' := by
  unfold hexDigitCh
  split <;> decide

theorem escChar_ne_nl (c : Char) : ∀ e ∈ escChar c, ¬e = '\n' := by
  intro e he
  by_cases h1 : c = '"'
  · subst h1
    rw [show escChar '"' = ['\\', '"'] from rfl] at he
    simp only [List.mem_cons, List.not_mem_nil, or_false] at he
    rcases he with rfl | rfl <;> decide
  by_cases h2 : c = '\\'
  · subst h2
    rw [show escChar '\\' = ['\\', '\\'] from rfl] at he
    simp only [List.mem_cons, List.not_mem_nil, or_false] at he
    rcases he with rfl | rfl <;> decide
  by_cases h3 : c = '\n'
  · subst h3
    rw [show escChar '\n' = ['\\', 'n'] from rfl] at he
    simp only [List.mem_cons, List.not_mem_nil, or_false] at he
    rcases he with rfl | rfl <;> decide
  by_cases h4 : c = '\r'
  · subst h4
    rw [show escChar '\r' = ['\\', 'r'] from rfl] at he
    simp only [List.mem_cons, List.not_mem_nil, or_false] at he
    rcases he with rfl | rfl <;> decide
  by_cases h5 : c = '\t'
  · subst h5
    rw [show escChar '\t' = ['\\', 't'] from rfl] at he
    simp only [List.mem_cons, List.not_mem_nil, or_false] at he
    rcases he with rfl | rfl <;> decide
  by_cases h6 : c.toNat = 8
  · have hce : c = Char.ofNat 8 := by rw [← h6, Char.ofNat_toNat]
    subst hce
    rw [show escChar (Char.ofNat 8) = ['\\', 'b'] from rfl] at he
    simp only [List.mem_cons, List.not_mem_nil, or_false] at he
    rcases he with rfl | rfl <;> decide
  by_cases h7 : c.toNat = 12
  · have hce : c = Char.ofNat 12 := by rw [← h7, Char.ofNat_toNat]
    subst hce
    rw [show escChar (Char.ofNat 12) = ['\\', 'f'] from rfl] at he
    simp only [List.mem_cons, List.not_mem_nil, or_false] at he
    rcases he with rfl | rfl <;> decide
  by_cases h8 : isCtl c = true
  · rw [escChar] at he
    simp only [h1, h2, h3, h4, h5, h6, h7, h8, if_false, if_true, List.mem_cons,
      List.not_mem_nil, or_false] at he
    rcases he with rfl | rfl | rfl | rfl | rfl | rfl
    · decide
    · decide
    · decide
    · decide
    · exact hexDigitCh_ne_nl _
    · exact hexDigitCh_ne_nl _
  · rw [escChar] at he
    simp only [h1, h2, h3, h4, h5, h6, h7, h8, if_false, Bool.false_eq_true,
      List.mem_singleton] at he
    rw [he]
    exact h3

theorem escapeStr_ne_nl (s : Str) : ∀ e ∈ escapeStr s, ¬e = '\n' := by
  induction s with
  | nil => intro e he; simp [escapeStr_nil] at he
  | cons c cs ih =>
    intro e he
    rw [escapeStr_cons, List.mem_append] at he
    rcases he with he | he
    · exact escChar_ne_nl c e he
    · exact ih e he

theorem renderQuoted_noNL (s : Str) : noNL (renderQuoted s) = true := by
  have hmem : ∀ c ∈ renderQuoted s, ¬c = '\n' := by
    intro c hc
    rw [renderQuoted] at hc
    rcases List.mem_cons.mp hc with rfl | hc2
    · decide
    · rcases List.mem_append.mp hc2 with hc3 | hc3
      · exact escapeStr_ne_nl s c hc3
      · rw [List.mem_singleton] at hc3
        rw [hc3]
        decide
  rw [noNL, List.all_eq_true]
  intro c hc
  simpa using hmem c hc

/-- Every rendered scalar token is a valid, dash-safe line. -/
theorem renderPrim_shape (delim : Char) (hd : supportedDelim delim = true) (p : Prim) :
    lineOk (renderPrim delim p) = true ∧ noDashStart (renderPrim delim p) = true := by
  by_cases hq : primQuoted delim p = true
  · cases p with
    | str s =>
      simp only [primQuoted] at hq
      rw [renderPrim, renderStrVal, if_pos hq, renderQuoted]
      constructor
      · exact lineOk_intro (by decide) (by decide) (renderQuoted_noNL s)
      · exact noDashStart_head _ (by decide)
    | null => simp [primQuoted] at hq
    | bool b => simp [primQuoted] at hq
    | num x => simp [primQuoted] at hq
  · rw [Bool.not_eq_true] at hq
    have hplain := renderPrim_plainOk hd p hq
    have hnl := noNL_of_plainTokOk hplain
    cases p with
    | null =>
      exact ⟨lineOk_intro (by decide) (by decide) hnl, noDashStart_head _ (by decide)⟩
    | bool b =>
      cases b
      · exact ⟨lineOk_intro (by decide) (by decide) hnl, noDashStart_head _ (by decide)⟩
      · exact ⟨lineOk_intro (by decide) (by decide) hnl, noDashStart_head _ (by decide)⟩
    | num x =>
      cases x with
      | nan => exact ⟨lineOk_intro (by decide) (by decide) hnl, noDashStart_head _ (by decide)⟩
      | posInf => exact ⟨lineOk_intro (by decide) (by decide) hnl, noDashStart_head _ (by decide)⟩
      | negInf => exact ⟨lineOk_intro (by decide) (by decide) hnl, noDashStart_head _ (by decide)⟩
      | fin neg ip frac =>
        obtain ⟨a, t, hn⟩ : ∃ a t, natChars ip = a :: t := by
          cases hn : natChars ip with
          | nil => exact absurd hn (natChars_ne_nil ip)
          | cons a t => exact ⟨a, t, rfl⟩
        have ha : isDigitCh a = true :=
          natChars_digit ip a (by rw [hn]; exact List.mem_cons_self a t)
        simp only [renderPrim] at hnl ⊢
        cases neg with
        | false =>
          rw [renderF64] at hnl ⊢
          rw [hn] at hnl ⊢
          simp only [Bool.false_eq_true, if_false, List.nil_append, List.cons_append] at hnl ⊢
          refine ⟨lineOk_intro ?_ ?_ hnl, noDashStart_head _ ?_⟩
          all_goals rintro rfl
          all_goals exact absurd ha (by decide)
        | true =>
          rw [renderF64] at hnl ⊢
          rw [hn] at hnl ⊢
          simp only [eq_self_iff_true, if_true, List.cons_append] at hnl ⊢
          refine ⟨lineOk_intro (by decide) (by decide) hnl, noDashStart_dash_nonspace _ ?_⟩
          rintro rfl
          exact absurd ha (by decide)
    | str s =>
      simp only [primQuoted] at hq
      simp only [renderPrim, renderStrVal, hq, Bool.false_eq_true, if_false] at hnl ⊢
      simp only [strNeedsQuote, Bool.or_eq_false_iff] at hq
      obtain ⟨⟨⟨⟨⟨hne, hhead⟩, _⟩, hforb⟩, _⟩, hdash⟩ := hq
      cases s with
      | nil => simp at hne
      | cons ch r =>
        have hch : ¬ch = ' ' := by
          simp only [List.head?_cons, decide_eq_false_iff_not] at hhead
          intro hcc
          exact hhead (by rw [hcc])
        have hct : forbiddenCh delim ch = false := by
          rw [List.any_eq_false] at hforb
          simpa using hforb ch (List.mem_cons_self ch r)
        have htab : ¬ch = '\t' := by
          rintro rfl
          simp [forbiddenCh, isCtl] at hct
        refine ⟨lineOk_intro hch htab hnl, ?_⟩
        cases r with
        | nil => cases ch <;> simp [noDashStart, startsDashSpace]
        | cons c2 r2 =>
          simp only [startsDashSpace, Bool.and_eq_false_iff, beq_eq_false_iff_ne,
            ne_eq] at hdash
          simp only [noDashStart, startsDashSpace, Bool.not_eq_true',
            Bool.and_eq_false_iff, beq_eq_false_iff_ne, ne_eq]
          exact hdash


theorem renderPrim_ne_nil (delim : Char) (p : Prim) : renderPrim delim p ≠ [] := by
  cases p with
  | null => simp [renderPrim, nullTok]
  | bool b => cases b <;> simp [renderPrim, trueTok, falseTok]
  | num x =>
    cases x with
    | fin neg ip frac =>
      intro h
      rw [renderPrim, renderF64] at h
      rcases List.append_eq_nil.mp h with ⟨h1, h2⟩
      rcases List.append_eq_nil.mp h1 with ⟨_, h3⟩
      exact natChars_ne_nil ip h3
    | nan => simp [renderPrim, renderF64, nullTok]
    | posInf => simp [renderPrim, renderF64, nullTok]
    | negInf => simp [renderPrim, renderF64, nullTok]
  | str s =>
    rw [renderPrim, renderStrVal]
    by_cases hq : strNeedsQuote delim s = true
    · simp [hq, renderQuoted]
    · rw [Bool.not_eq_true] at hq
      rw [if_neg (by simp [hq])]
      simp only [strNeedsQuote, Bool.or_eq_false_iff] at hq
      have := hq.1.1.1.1.1
      intro hnil
      rw [hnil] at this
      simp at this

theorem quoted_form {delim : Char} {p : Prim} (hq : primQuoted delim p = true) :
    ∃ s2, p = .str s2 ∧ strNeedsQuote delim s2 = true ∧
      renderPrim delim p = renderQuoted s2 := by
  cases p with
  | str s =>
    simp only [primQuoted] at hq
    exact ⟨s, rfl, hq, by rw [renderPrim, renderStrVal, if_pos hq]⟩
  | null => simp [primQuoted] at hq
  | bool b => simp [primQuoted] at hq
  | num x => simp [primQuoted] at hq

theorem parseCellPrim_cons (ch : Char) (r : Str) :
    parseCellPrim (ch :: r) =
      (if ch = '"' then
        optCase (scanQuotedBody r) (.error (.lexErr "bad quoted string"))
          (fun p =>
            if p.2.isEmpty then .ok (.str p.1)
            else .error (.lexErr "unexpected text after quoted string"))
      else .ok (scanPrimTok (ch :: r))) := rfl

theorem parseInlineVal_cons (ch : Char) (r : Str) :
    parseInlineVal (ch :: r) =
      (if ch = '"' then
        optCase (scanQuotedBody r) (.error (.lexErr "bad quoted string"))
          (fun p =>
            if p.2.isEmpty then .ok (.prim (.str p.1))
            else .error (.lexErr "unexpected text after quoted string"))
      else if decide (ch :: r = emptyObjTok) then .ok (.obj [])
      else if decide (ch :: r = emptyArrTok) then .ok (.arr [])
      else .ok (.prim (scanPrimTok (ch :: r)))) := rfl

theorem parseCellPrim_render (delim : Char) (p : Prim) (hd : supportedDelim delim = true)
    (hc : primCanonical p = true) :
    parseCellPrim (renderPrim delim p) = .ok (scrubPrim p) := by
  by_cases hq : primQuoted delim p = true
  · obtain ⟨s2, rfl, hs, hr⟩ := quoted_form hq
    rw [hr, renderQuoted, List.cons_append]
    rw [parseCellPrim_cons, if_pos rfl]
    have hscan := scanQuotedBody_escape s2 []
    rw [show escapeStr s2 ++ ['"'] = escapeStr s2 ++ '"' :: [] from rfl, hscan, optCase_some]
    rfl
  · rw [Bool.not_eq_true] at hq
    have hplain := renderPrim_plainOk hd p hq
    cases hr : renderPrim delim p with
    | nil => exact absurd hr (renderPrim_ne_nil delim p)
    | cons ch r =>
      have hch : ¬ch = '"' :=
        (hplain ch (by rw [hr]; exact List.mem_cons_self ch r)).2.1
      rw [parseCellPrim_cons, if_neg hch, ← hr, scanPrimTok_renderPrim delim p hc hq]

theorem unquoted_ne_marker {delim : Char} {p : Prim} (hd : supportedDelim delim = true)
    (hq : primQuoted delim p = false) :
    ¬renderPrim delim p = emptyObjTok ∧ ¬renderPrim delim p = emptyArrTok := by
  have hplain := renderPrim_plainOk hd p hq
  constructor
  · intro h
    have : lbrace ∈ renderPrim delim p := by rw [h, emptyObjTok]; simp
    exact (hplain lbrace this).2.2.2.2.2.1 rfl
  · intro h
    have : ('[' : Char) ∈ renderPrim delim p := by rw [h, emptyArrTok]; simp
    exact (hplain '[' this).2.2.2.1 rfl

theorem parseInlineVal_render (delim : Char) (p : Prim) (hd : supportedDelim delim = true)
    (hc : primCanonical p = true) :
    parseInlineVal (renderPrim delim p) = .ok (.prim (scrubPrim p)) := by
  by_cases hq : primQuoted delim p = true
  · obtain ⟨s2, rfl, hs, hr⟩ := quoted_form hq
    rw [hr, renderQuoted, List.cons_append]
    rw [parseInlineVal_cons, if_pos rfl]
    have hscan := scanQuotedBody_escape s2 []
    rw [show escapeStr s2 ++ ['"'] = escapeStr s2 ++ '"' :: [] from rfl, hscan, optCase_some]
    rfl
  · rw [Bool.not_eq_true] at hq
    have hplain := renderPrim_plainOk hd p hq
    obtain ⟨hm1, hm2⟩ := unquoted_ne_marker hd hq
    cases hr : renderPrim delim p with
    | nil => exact absurd hr (renderPrim_ne_nil delim p)
    | cons ch r =>
      have hch : ¬ch = '"' :=
        (hplain ch (by rw [hr]; exact List.mem_cons_self ch r)).2.1
      rw [hr] at hm1 hm2
      rw [parseInlineVal_cons, if_neg hch, if_neg (by simpa using hm1),
        if_neg (by simpa using hm2), ← hr, scanPrimTok_renderPrim delim p hc hq]

theorem cellOk_render (delim : Char) (p : Prim) (hd : supportedDelim delim = true) :
    CellOk delim (renderPrim delim p) := by
  by_cases hq : primQuoted delim p = true
  · obtain ⟨s2, _, _, hr⟩ := quoted_form hq
    exact Or.inr ⟨s2, hr⟩
  · rw [Bool.not_eq_true] at hq
    have hplain := renderPrim_plainOk hd p hq
    left
    rw [List.all_eq_true]
    intro c hcm
    have := hplain c hcm
    simp only [Bool.not_eq_true', Bool.or_eq_false_iff, beq_eq_false_iff_ne, ne_eq]
    exact ⟨this.1, this.2.1⟩


/-! ## Keys and paths on the wire -/

theorem isIdentStart_isIdentCh {c : Char} (h : isIdentStart c = true) : isIdentCh c = true := by
  simp only [isIdentStart, Bool.or_eq_true] at h
  simp only [isIdentCh, Bool.or_eq_true]
  tauto

theorem isIdentStr_all {k : Str} (h : isIdentStr k = true) : ∀ c ∈ k, isIdentCh c = true := by
  cases k with
  | nil => simp [isIdentStr] at h
  | cons kh kt =>
    simp only [isIdentStr, Bool.and_eq_true, List.all_eq_true] at h
    intro c hc
    rcases List.mem_cons.mp hc with rfl | hc2
    · exact isIdentStart_isIdentCh h.1
    · exact h.2 c hc2

theorem identCh_facts {c : Char} (h : isIdentCh c = true) :
    ¬c = ':' ∧ ¬c = '[' ∧ ¬c = '"' ∧ ¬c = '\n' ∧ ¬c = '.' ∧ ¬c = ' ' ∧ ¬c = '\t'
      ∧ ¬c = lbrace ∧ ¬c = rbrace := by
  refine ⟨?_, ?_, ?_, ?_, ?_, ?_, ?_, ?_, ?_⟩ <;> rintro rfl <;> revert h <;> decide

theorem identStart_facts {c : Char} (h : isIdentStart c = true) :
    ¬c = '"' ∧ ¬c = '-' ∧ ¬c = ' ' ∧ ¬c = '\t' ∧ ¬c = '[' := by
  refine ⟨?_, ?_, ?_, ?_, ?_⟩ <;> rintro rfl <;> revert h <;> decide

theorem segOk_ident {k : Str} (h : segOk k = true) :
    isIdentStr k = true ∧ isReservedTok k = false := by
  simp only [segOk, keyNeedsQuote, Bool.not_eq_true', Bool.or_eq_false_iff,
    Bool.not_eq_false'] at h
  exact h

theorem isIdentStr_ne_nil {k : Str} (h : isIdentStr k = true) : k ≠ [] := by
  cases k with
  | nil => simp [isIdentStr] at h
  | cons a t => simp

theorem joinDots_chars : ∀ (ks : List Str), (∀ k ∈ ks, isIdentStr k = true) →
    ∀ c ∈ joinDots ks, isIdentCh c = true ∨ c = '.'
  | [], _, c, hc => by simp [joinDots] at hc
  | [k], h, c, hc => by
    rw [joinDots] at hc
    exact Or.inl (isIdentStr_all (h k (by simp)) c hc)
  | k :: k2 :: ks, h, c, hc => by
    rw [joinDots, List.mem_append] at hc
    rcases hc with hc | hc
    · exact Or.inl (isIdentStr_all (h k (by simp)) c hc)
    · rcases List.mem_cons.mp hc with rfl | hc2
      · exact Or.inr rfl
      · exact joinDots_chars (k2 :: ks) (fun x hx => h x (by simp [hx])) c hc2

theorem joinDots_multi_head (k : Str) (k2 : Str) (ks : List Str)
    (hk : isIdentStr k = true) :
    ∃ a t, joinDots (k :: k2 :: ks) = a :: t ∧ isIdentStart a = true := by
  cases k with
  | nil => simp [isIdentStr] at hk
  | cons a t0 =>
    simp only [isIdentStr, Bool.and_eq_true] at hk
    exact ⟨a, t0 ++ '.' :: joinDots (k2 :: ks), by rw [joinDots, List.cons_append], hk.1⟩

/-- Shape of a rendered path followed by `rest` in key position: the parser
recovers the name, the flag, and `rest`. -/
theorem parseEntryNode_render (path : List Str) (rest : Str) (kids : Forest)
    (hp : pathOkB path = true)
    (hrest : ∃ r2, rest = ':' :: r2 ∨ rest = '[' :: r2) :
    parseEntryNode (.node (renderPath path ++ rest) kids)
      = parseEntryRest (pathName path) (pathFlag path) rest kids := by
  cases path with
  | nil => simp [pathOkB] at hp
  | cons k path2 =>
    cases path2 with
    | nil =>
      rw [renderPath, pathName, renderKey]
      by_cases hq : keyNeedsQuote k = true
      · rw [if_pos hq, renderQuoted, List.append_assoc, List.singleton_append,
          List.cons_append]
        rw [parseEntryNode.eq_def]
        simp only [reduceIte]
        rw [scanQuotedBody_escape, optCase_some]
        rw [show pathFlag [k] = keyNeedsQuote k from rfl, hq]
      · rw [Bool.not_eq_true] at hq
        rw [if_neg (by simp [hq])]
        have hid : isIdentStr k = true := by
          simp only [keyNeedsQuote, Bool.or_eq_false_iff, Bool.not_eq_false'] at hq
          exact hq.1
        cases hk : k with
        | nil => exact absurd hk (isIdentStr_ne_nil hid)
        | cons a t =>
          rw [hk] at hid
          have hstart : isIdentStart a = true := by
            simp only [isIdentStr, Bool.and_eq_true] at hid
            exact hid.1
          rw [List.cons_append, parseEntryNode.eq_def]
          simp only []
          rw [if_neg (identStart_facts hstart).1]
          have hsplit : splitKeyRaw (a :: t ++ rest) = (a :: t, rest) := by
            apply splitKeyRaw_append
            · rw [List.all_eq_true]
              intro c hc
              have hfacts := identCh_facts (isIdentStr_all hid c hc)
              simp only [Bool.not_eq_true', Bool.or_eq_false_iff,
                beq_eq_false_iff_ne, ne_eq]
              exact ⟨hfacts.1, hfacts.2.1⟩
            · right
              obtain ⟨r2, hr2⟩ := hrest
              exact ⟨r2, hr2⟩
          rw [List.cons_append] at hsplit
          rw [hsplit]
          simp only [List.isEmpty_cons, Bool.false_eq_true, if_false]
          rw [show pathFlag [a :: t] = keyNeedsQuote (a :: t) from rfl, ← hk, hq, hk]
    | cons k2 ks =>
      rw [renderPath, pathName]
      have hsegs : ∀ x ∈ k :: k2 :: ks, isIdentStr x = true := by
        intro x hx
        rw [pathOkB, List.all_eq_true] at hp
        exact (segOk_ident (hp x hx)).1
      obtain ⟨a, t, hj, hstart⟩ := joinDots_multi_head k k2 ks (hsegs k (by simp))
      rw [hj, List.cons_append, parseEntryNode.eq_def]
      simp only []
      rw [if_neg (identStart_facts hstart).1]
      have hsplit : splitKeyRaw (a :: t ++ rest) = (a :: t, rest) := by
        apply splitKeyRaw_append
        · rw [List.all_eq_true]
          intro c hc
          rw [← hj] at hc
          rcases joinDots_chars (k :: k2 :: ks) hsegs c hc with hcid | rfl
          · have hfacts := identCh_facts hcid
            simp only [Bool.not_eq_true', Bool.or_eq_false_iff,
              beq_eq_false_iff_ne, ne_eq]
            exact ⟨hfacts.1, hfacts.2.1⟩
          · simp
        · right
          obtain ⟨r2, hr2⟩ := hrest
          exact ⟨r2, hr2⟩
      rw [List.cons_append] at hsplit
      rw [hsplit]
      simp only [List.isEmpty_cons, Bool.false_eq_true, if_false]
      rw [show pathFlag (k :: k2 :: ks) = false from rfl, ← hj]


/-! ## Array header forms on the wire -/

theorem parseArrHeader_split (n : Nat) (suffix : Str) :
    parseArrHeader (natChars n ++ ']' :: suffix) = parseAfterBracket n suffix := by
  rw [parseArrHeader.eq_def]
  rw [scanDigits_natChars n (']' :: suffix) (by rfl)]
  cases hd0 : digitsOf n with
  | nil => exact absurd hd0 (digitsOf_ne_nil n)
  | cons d0 ds =>
    simp only [if_true]
    rw [← hd0, natOfDigits_digitsOf]

theorem parseAfterBracket_cellsForm (len : Nat) (delim : Char)
    (hd : supportedDelim delim = true) (txt : Str) (htxt : ¬txt = []) :
    parseAfterBracket len (':' :: delimAnn delim ++ txt) = .ok ⟨len, none, delim, some txt⟩ := by
  by_cases hc : delim = ','
  · subst hc
    rw [delimAnn, if_pos rfl]
    simp only [List.cons_append, List.nil_append]
    rw [parseAfterBracket.eq_def]
    simp only [reduceIte]
  · rw [delimAnn, if_neg hc]
    simp only [List.cons_append, List.nil_append]
    rw [parseAfterBracket.eq_def]
    simp only [if_true]
    cases txt with
    | nil => exact absurd rfl htxt
    | cons a t =>
      rw [if_neg (supportedDelim_facts hd).2.2.2.1]
      simp only [List.isEmpty_cons, Bool.false_eq_true, if_false]

theorem parseCells_render (delim : Char) (hd : supportedDelim delim = true) :
    ∀ (ps : List Prim), (∀ p ∈ ps, primCanonical p = true) →
    parseCells ((ps.map (renderPrim delim)).map (fun c => c)) = .ok (ps.map scrubPrim) := by
  intro ps
  induction ps with
  | nil => intro _; rfl
  | cons p ps ih =>
    intro hc
    simp only [List.map_cons, List.map_id_fun, id]
    rw [parseCells, parseCellPrim_render delim p hd (hc p (by simp)), exBind_ok]
    have := ih (fun q hq => hc q (by simp [hq]))
    simp only [List.map_id_fun, id] at this
    rw [this, exBind_ok]

theorem splitCells_renderPrims (delim : Char) (hd : supportedDelim delim = true) :
    ∀ (ps : List Prim), ps ≠ [] →
    splitCells delim (intercalateD delim (ps.map (renderPrim delim)))
      = ps.map (renderPrim delim) := by
  intro ps hne
  apply splitCells_intercalateD delim (Ne.symm (supportedDelim_facts hd).2.2.2.2.1)
  · simp [hne]
  · intro c hc
    obtain ⟨p, _, hp2⟩ := List.mem_map.mp hc
    rw [← hp2]
    exact cellOk_render delim p hd

theorem parseCells_cells (delim : Char) (hd : supportedDelim delim = true)
    (ps : List Prim) (hne : ps ≠ []) (hc : ∀ p ∈ ps, primCanonical p = true) :
    parseCells (splitCells delim (intercalateD delim (ps.map (renderPrim delim))))
      = .ok (ps.map scrubPrim) := by
  rw [splitCells_renderPrims delim hd ps hne]
  have := parseCells_render delim hd ps hc
  simpa using this


theorem splitCells_intercalate_pass (dsep d2 : Char) (hq : ¬('"' : Char) = d2)
    (hsep1 : ¬dsep = d2) (hsep2 : ¬dsep = '"') :
    ∀ (cells : List Str), (∀ c ∈ cells, CellOk d2 c) → ∀ (rest : Str),
    splitCells d2 (intercalateD dsep cells ++ rest)
      = consHead (intercalateD dsep cells) (splitCells d2 rest)
  | [], _, rest => by
    rw [intercalateD, List.nil_append]
    cases hc : splitCells d2 rest with
    | nil => exact absurd hc (splitCells_ne_nil d2 rest)
    | cons l ls => rfl
  | [cell], hok, rest => by
    rw [intercalateD, splitCells_cellOk d2 cell (hok cell (by simp)) hq]
  | cell :: c2 :: cells, hok, rest => by
    rw [intercalateD, List.append_assoc, List.cons_append,
      splitCells_cellOk d2 cell (hok cell (by simp)) hq,
      splitCells_plain hsep1 hsep2,
      splitCells_intercalate_pass dsep d2 hq hsep1 hsep2 (c2 :: cells)
        (fun x hx => hok x (by simp [hx])) rest,
      consHead_consHead, consHead_consHead, List.append_assoc, List.singleton_append]

theorem findCloseBrace_render (dsep : Char) (hsep1 : ¬dsep = rbrace) (hsep2 : ¬dsep = '"')
    (cells : List Str) (hok : ∀ c ∈ cells, CellOk rbrace c) (rest : Str) :
    findCloseBrace (intercalateD dsep cells ++ rbrace :: rest)
      = .ok (intercalateD dsep cells, rest) := by
  rw [findCloseBrace,
    splitCells_intercalate_pass dsep rbrace (by decide) hsep1 hsep2 cells hok
      (rbrace :: rest),
    splitCells_delim]
  rw [show consHead (intercalateD dsep cells) ([] :: splitCells rbrace rest)
      = (intercalateD dsep cells ++ []) :: splitCells rbrace rest from rfl,
    List.append_nil]
  cases hc : splitCells rbrace rest with
  | nil => exact absurd hc (splitCells_ne_nil rbrace rest)
  | cons l ls =>
    simp only []
    rw [← hc, (intercalateD_splitCells rbrace rest).1]

theorem parseKeyTok_renderPath (path : List Str) (hp : pathOkB path = true) :
    parseKeyTok (renderPath path) = .ok (pathName path, pathFlag path) := by
  cases path with
  | nil => simp [pathOkB] at hp
  | cons k path2 =>
    cases path2 with
    | nil =>
      rw [renderPath, pathName, renderKey]
      by_cases hq : keyNeedsQuote k = true
      · rw [if_pos hq, renderQuoted, List.cons_append, parseKeyTok.eq_def]
        simp only [reduceIte]
        rw [show escapeStr k ++ ['"'] = escapeStr k ++ '"' :: [] from rfl,
          scanQuotedBody_escape, optCase_some]
        simp only [List.isEmpty_nil, if_true]
        rw [show pathFlag [k] = keyNeedsQuote k from rfl, hq]
      · rw [Bool.not_eq_true] at hq
        rw [if_neg (by simp [hq])]
        have hid : isIdentStr k = true := by
          simp only [keyNeedsQuote, Bool.or_eq_false_iff, Bool.not_eq_false'] at hq
          exact hq.1
        cases hk : k with
        | nil => exact absurd hk (isIdentStr_ne_nil hid)
        | cons a t =>
          rw [hk] at hid
          have hstart : isIdentStart a = true := by
            simp only [isIdentStr, Bool.and_eq_true] at hid
            exact hid.1
          rw [parseKeyTok.eq_def]
          simp only []
          rw [if_neg (identStart_facts hstart).1]
          rw [show pathFlag [a :: t] = keyNeedsQuote (a :: t) from rfl, ← hk, hq]
    | cons k2 ks =>
      rw [renderPath, pathName]
      have hsegs : ∀ x ∈ k :: k2 :: ks, isIdentStr x = true := by
        intro x hx
        rw [pathOkB, List.all_eq_true] at hp
        exact (segOk_ident (hp x hx)).1
      obtain ⟨a, t, hj, hstart⟩ := joinDots_multi_head k k2 ks (hsegs k (by simp))
      rw [hj, parseKeyTok.eq_def]
      simp only []
      rw [if_neg (identStart_facts hstart).1]
      rw [show pathFlag (k :: k2 :: ks) = false from rfl, ← hj]

theorem renderPath_cellOk (d2 : Char) (hne2 : ¬d2 = '.') (hq2 : ¬d2 = '"')
    (hnid : isAlphaCh d2 = false ∧ isDigitCh d2 = false ∧ ¬d2 = '_')
    (path : List Str) (hp : pathOkB path = true) : CellOk d2 (renderPath path) := by
  have hident : ∀ (c : Char), isIdentCh c = true → ¬c = d2 := by
    intro c hc
    rintro rfl
    simp only [isIdentCh, Bool.or_eq_true, beq_iff_eq] at hc
    rcases hc with (hc | hc) | hc
    · rw [hc] at hnid; simp at hnid
    · rw [hc] at hnid; simp at hnid
    · exact hnid.2.2 hc
  cases path with
  | nil => simp [pathOkB] at hp
  | cons k path2 =>
    cases path2 with
    | nil =>
      rw [renderPath, renderKey]
      by_cases hq : keyNeedsQuote k = true
      · rw [if_pos hq]
        exact Or.inr ⟨k, rfl⟩
      · rw [Bool.not_eq_true] at hq
        rw [if_neg (by simp [hq])]
        have hid : isIdentStr k = true := by
          simp only [keyNeedsQuote, Bool.or_eq_false_iff, Bool.not_eq_false'] at hq
          exact hq.1
        left
        rw [List.all_eq_true]
        intro c hc
        have hcid := isIdentStr_all hid c hc
        simp only [Bool.not_eq_true', Bool.or_eq_false_iff, beq_eq_false_iff_ne, ne_eq]
        exact ⟨hident c hcid, (identCh_facts hcid).2.2.1⟩
    | cons k2 ks =>
      rw [renderPath]
      have hsegs : ∀ x ∈ k :: k2 :: ks, isIdentStr x = true := by
        intro x hx
        rw [pathOkB, List.all_eq_true] at hp
        exact (segOk_ident (hp x hx)).1
      left
      rw [List.all_eq_true]
      intro c hc
      simp only [Bool.not_eq_true', Bool.or_eq_false_iff, beq_eq_false_iff_ne, ne_eq]
      rcases joinDots_chars (k :: k2 :: ks) hsegs c hc with hcid | rfl
      · exact ⟨hident c hcid, (identCh_facts hcid).2.2.1⟩
      · exact ⟨fun h => hne2 h.symm, by decide⟩

theorem parseKeyToks_render (cols : List (List Str)) (hp : ∀ p ∈ cols, pathOkB p = true) :
    parseKeyToks (cols.map renderPath)
      = .ok (cols.map (fun path => (pathName path, pathFlag path))) := by
  induction cols with
  | nil => rfl
  | cons p ps ih =>
    rw [List.map_cons, parseKeyToks, parseKeyTok_renderPath p (hp p (by simp)), exBind_ok,
      ih (fun x hx => hp x (by simp [hx])), exBind_ok, List.map_cons]

theorem parseAfterBracket_tabular (len : Nat) (delim : Char)
    (hd : supportedDelim delim = true) (cols : List (List Str)) (hcne : cols ≠ [])
    (hcols : ∀ p ∈ cols, pathOkB p = true) :
    parseAfterBracket len
        (lbrace :: intercalateD delim (cols.map renderPath) ++ rbrace :: ':' :: tabAnn delim)
      = .ok ⟨len, some (cols.map (fun path => (pathName path, pathFlag path))), delim, none⟩ := by
  obtain ⟨hctl, ha, hdig, hsp, hq, hbs, hcol, hdash, hdot, hhash, hlb2, hrb2, hlb, hrb, hus⟩ :=
    supportedDelim_facts hd
  rw [List.cons_append, parseAfterBracket.eq_def]
  simp only []
  rw [if_neg (show ¬lbrace = ':' from by decide)]
  simp only [eq_self_iff_true, if_true]
  have hcellsOk : ∀ c ∈ cols.map renderPath, CellOk rbrace c := by
    intro c hc
    obtain ⟨p, hp1, hp2⟩ := List.mem_map.mp hc
    rw [← hp2]
    apply renderPath_cellOk rbrace (by decide) (by decide) ⟨by decide, by decide, by decide⟩
    exact hcols p hp1
  rw [findCloseBrace_render delim hrb hq (cols.map renderPath) hcellsOk (':' :: tabAnn delim),
    exBind_ok]
  have hann : afterBraceDelim (':' :: tabAnn delim) = .ok delim := by
    by_cases hcom : delim = ','
    · subst hcom
      rw [tabAnn, if_pos rfl, afterBraceDelim]
      simp
    · rw [tabAnn, if_neg hcom, afterBraceDelim]
      simp
  rw [hann, exBind_ok]
  have hcellsOk2 : ∀ c ∈ cols.map renderPath, CellOk delim c := by
    intro c hc
    obtain ⟨p, hp1, hp2⟩ := List.mem_map.mp hc
    rw [← hp2]
    exact renderPath_cellOk delim hdot hq ⟨ha, hdig, hus⟩ p (hcols p hp1)
  rw [splitCells_intercalateD delim (Ne.symm hq) (cols.map renderPath)
      (by simpa using hcne) hcellsOk2,
    parseKeyToks_render cols hcols, exBind_ok]


/-! ## Rows, schemas, and entry bookkeeping -/

theorem pvalEntries_keyMap (es : List (List Str × FVal)) :
    (pvalEntries es).map (fun e => (e.1, e.2.1))
      = es.map (fun e => (pathName e.1, pathFlag e.1)) := by
  induction es with
  | nil => rfl
  | cons e es ih =>
    obtain ⟨path, v⟩ := e
    rw [pvalEntries, List.map_cons, List.map_cons, ih]

theorem checkEntries_pval (es : List (List Str × FVal))
    (h : decide ((es.map (fun e => (pathName e.1, pathFlag e.1))).Nodup) = true) :
    checkEntries (pvalEntries es) = .ok (.obj (pvalEntries es)) := by
  rw [checkEntries, pvalEntries_keyMap, if_pos (by simpa using h)]

theorem emitElems_length (delim : Char) (xs : List FVal) :
    (emitElems delim xs).length = xs.length := by
  induction xs with
  | nil => simp [emitElems]
  | cons x xs ih => rw [emitElems, List.length_cons, List.length_cons, ih]

theorem allScalar_some : ∀ {xs : List FVal} {ps : List Prim}, allScalar xs = some ps →
    xs = ps.map FVal.prim
  | [], ps, h => by
    rw [allScalar] at h
    injection h with h2
    rw [← h2]
    rfl
  | x :: xs, ps, h => by
    rw [allScalar] at h
    cases hx : fvalScalar x with
    | none => rw [hx] at h; exact absurd h (by simp)
    | some p =>
      rw [hx] at h
      cases hrest : allScalar xs with
      | none => rw [hrest] at h; exact absurd h (by simp)
      | some ps2 =>
        rw [hrest] at h
        injection h with h2
        rw [← h2, List.map_cons]
        have hxp : x = FVal.prim p := by
          cases x with
          | prim p2 => rw [fvalScalar] at hx; injection hx with h3; rw [h3]
          | arr a => simp [fvalScalar] at hx
          | obj o => simp [fvalScalar] at hx
        rw [hxp, allScalar_some hrest]

theorem pvalList_prims (ps : List Prim) :
    pvalList (ps.map FVal.prim) = ps.map (fun p => PValue.prim (scrubPrim p)) := by
  induction ps with
  | nil => rfl
  | cons p ps ih => rw [List.map_cons, pvalList, ih, pvalOf, List.map_cons]

theorem rowOk_spec {cols : List (List Str)} {x : FVal} (h : rowOk cols x = true) :
    ∃ es, x = .obj es ∧ es.map (fun e => e.1) = cols ∧
      ∀ e ∈ es, (fvalScalar e.2).isSome = true := by
  cases x with
  | obj es =>
    simp only [rowOk, Bool.and_eq_true, decide_eq_true_eq, List.all_eq_true] at h
    exact ⟨es, rfl, h.1, fun e he => h.2 e he⟩
  | prim p => simp [rowOk] at h
  | arr a => simp [rowOk] at h

theorem objEntriesF_some {x : FVal} {es : List (List Str × FVal)}
    (h : objEntriesF x = some es) : x = .obj es := by
  cases x with
  | obj o => rw [objEntriesF] at h; injection h with h2; rw [h2]
  | prim p => simp [objEntriesF] at h
  | arr a => simp [objEntriesF] at h

theorem isTabular_cons (e : List Str × FVal) (es : List (List Str × FVal))
    (rest : List FVal) :
    isTabular (.obj (e :: es) :: rest) =
      (if rest.all (rowOk ((e :: es).map (fun e2 => e2.1)))
          && (e :: es).all (fun e2 => (fvalScalar e2.2).isSome)
       then some ((e :: es).map (fun e2 => e2.1))
       else none) := rfl

theorem isTabular_spec {xs : List FVal} {cols : List (List Str)}
    (h : isTabular xs = some cols) :
    cols ≠ [] ∧ xs ≠ [] ∧ ∀ x ∈ xs, rowOk cols x = true := by
  cases xs with
  | nil => simp [isTabular] at h
  | cons x rest =>
    have hx0 : ∃ es0, objEntriesF x = some es0 := by
      rw [isTabular] at h
      cases hx : objEntriesF x with
      | none => rw [hx] at h; exact absurd h (by simp)
      | some es0 => exact ⟨es0, rfl⟩
    obtain ⟨es0, hx⟩ := hx0
    have hxobj := objEntriesF_some hx
    subst hxobj
    cases es0 with
    | nil => exact absurd h (by rw [show isTabular (FVal.obj [] :: rest) = none from rfl]; simp)
    | cons e es =>
      rw [isTabular_cons] at h
      by_cases hcond : (rest.all (rowOk ((e :: es).map (fun e2 => e2.1)))
          && (e :: es).all (fun e2 => (fvalScalar e2.2).isSome)) = true
      · rw [if_pos hcond] at h
        injection h with h2
        simp only [Bool.and_eq_true, List.all_eq_true] at hcond
        refine ⟨by rw [← h2]; simp, by simp, ?_⟩
        intro y hy
        rcases List.mem_cons.mp hy with rfl | hy2
        · rw [← h2]
          simp only [rowOk, Bool.and_eq_true, decide_eq_true_eq, List.all_eq_true]
          exact ⟨trivial, fun e2 he2 => hcond.2 e2 he2⟩
        · rw [← h2]
          exact hcond.1 y hy2
      · rw [if_neg hcond] at h
        exact absurd h (by simp)

theorem zipWith_pvalRow : ∀ (es : List (List Str × FVal)),
    (∀ e ∈ es, ∃ p, e.2 = FVal.prim p) →
    List.zipWith (fun kq p => (kq.1, kq.2, PValue.prim p))
      ((es.map (fun e => e.1)).map (fun path => (pathName path, pathFlag path)))
      ((es.map (fun e => (fvalScalar e.2).getD .null)).map scrubPrim)
      = pvalEntries es
  | [], _ => rfl
  | (path, v) :: es, h => by
    obtain ⟨p, hp⟩ := h (path, v) (by simp)
    simp only at hp
    subst hp
    rw [List.map_cons, List.map_cons, List.map_cons, List.map_cons,
      List.zipWith_cons_cons, zipWith_pvalRow es (fun e he => h e (by simp [he]))]
    rfl

theorem fwfEntries_prim_canonical : ∀ (es : List (List Str × FVal)),
    fwfEntries es = true → ∀ e ∈ es, ∀ p, e.2 = FVal.prim p → primCanonical p = true
  | [], _, e, he, _, _ => by simp at he
  | (path2, v2) :: es2, hfwf, e, he, p, hp => by
    rw [fwfEntries] at hfwf
    simp only [Bool.and_eq_true] at hfwf
    rcases List.mem_cons.mp he with rfl | hm
    · simp only at hp
      subst hp
      have hv := hfwf.1.2
      rw [fwf] at hv
      exact hv
    · exact fwfEntries_prim_canonical es2 hfwf.2 e hm p hp

theorem parseRow_render (delim : Char) (hd : supportedDelim delim = true)
    (es : List (List Str × FVal)) (hne : es ≠ [])
    (hscal : ∀ e ∈ es, ∃ p, e.2 = FVal.prim p)
    (hfwf : fwfEntries es = true) :
    parseRow delim ((es.map (fun e => e.1)).map (fun path => (pathName path, pathFlag path)))
        (emitRow delim (.obj es))
      = .ok (.obj (pvalEntries es)) := by
  rw [emitRow, parseRow]
  simp only [List.isEmpty_nil, if_true]
  have hmm : es.map (fun e => renderPrim delim ((fvalScalar e.2).getD .null))
      = (es.map (fun e => (fvalScalar e.2).getD .null)).map (renderPrim delim) := by
    rw [List.map_map]
    rfl
  have hcanon : ∀ p ∈ es.map (fun e => (fvalScalar e.2).getD .null),
      primCanonical p = true := by
    intro p hp
    obtain ⟨e, he1, he2⟩ := List.mem_map.mp hp
    obtain ⟨p0, hp0⟩ := hscal e he1
    rw [hp0] at he2
    rw [show fvalScalar (FVal.prim p0) = some p0 from rfl, Option.getD_some] at he2
    subst he2
    exact fwfEntries_prim_canonical es hfwf e he1 p0 hp0
  rw [hmm, parseCells_cells delim hd _ (by simpa using hne) hcanon, exBind_ok]
  rw [if_pos (by simp)]
  rw [zipWith_pvalRow es hscal]

theorem parseRows_render (delim : Char) (hd : supportedDelim delim = true)
    (cols : List (List Str)) :
    ∀ (xs : List FVal), (∀ x ∈ xs, rowOk cols x = true) → fwfList xs = true →
    cols ≠ [] →
    parseRows delim (cols.map (fun path => (pathName path, pathFlag path)))
        (xs.map (emitRow delim))
      = .ok (pvalList xs)
  | [], _, _, _ => rfl
  | x :: xs, hrow, hfwf, hcne => by
    obtain ⟨es, rfl, hkeys, hscal⟩ := rowOk_spec (hrow x (by simp))
    rw [fwfList] at hfwf
    simp only [Bool.and_eq_true] at hfwf
    have hscal2 : ∀ e ∈ es, ∃ p, e.2 = FVal.prim p := by
      intro e he
      obtain ⟨p, hp⟩ := Option.isSome_iff_exists.mp (hscal e he)
      cases hv : e.2 with
      | prim p2 => exact ⟨p2, rfl⟩
      | arr a => rw [hv, fvalScalar] at hp; exact absurd hp (by simp)
      | obj o => rw [hv, fvalScalar] at hp; exact absurd hp (by simp)
    have hfwfes : fwfEntries es = true := by
      rw [fwf] at hfwf
      simp only [Bool.and_eq_true] at hfwf
      exact hfwf.1.2
    have hesne : es ≠ [] := by
      intro hnil
      rw [hnil] at hkeys
      exact hcne (by simpa using hkeys.symm)
    rw [List.map_cons, parseRows, ← hkeys,
      parseRow_render delim hd es hesne hscal2 hfwfes, exBind_ok, hkeys,
      parseRows_render delim hd cols xs (fun y hy => hrow y (by simp [hy])) hfwf.2 hcne,
      exBind_ok, pvalList, pvalOf]


/-! ## Dispatch lemmas for the main inversion -/

theorem exBind_exBind {e a b c : Type} (x : Except e a) (f : a → Except e b)
    (g : b → Except e c) :
    exBind (exBind x f) g = exBind x (fun y => exBind (f y) g) := by
  cases x <;> rfl

theorem intercalateD_ne_nil (d : Char) :
    ∀ (cells : List Str), cells ≠ [] → (∀ c ∈ cells, c ≠ []) →
    intercalateD d cells ≠ []
  | [], h, _ => absurd rfl h
  | [c], _, hh => by rw [intercalateD]; exact hh c (by simp)
  | c :: c2 :: cells, _, hh => by
    rw [intercalateD]
    cases hc : c with
    | nil => exact absurd hc (hh c (by simp))
    | cons a t => simp

theorem emitEntries_cons (delim : Char) (e : List Str × FVal)
    (es : List (List Str × FVal)) :
    emitEntries delim (e :: es) = emitEntry delim e :: emitEntries delim es := by
  rw [emitEntries]

theorem fwf_obj {kvs : List (List Str × FVal)} (h : fwf (.obj kvs) = true) :
    decide ((kvs.map (fun e => (pathName e.1, pathFlag e.1))).Nodup) = true
      ∧ fwfEntries kvs = true := by
  rw [fwf] at h
  simpa using h

theorem fwf_arr {xs : List FVal} (h : fwf (.arr xs) = true) : fwfList xs = true := by
  rw [fwf] at h
  exact h

theorem fwfEntries_split {e : List Str × FVal} {es : List (List Str × FVal)}
    (h : fwfEntries (e :: es) = true) :
    pathOkB e.1 = true ∧ fwf e.2 = true ∧ fwfEntries es = true := by
  obtain ⟨path, v⟩ := e
  rw [fwfEntries] at h
  have h2 : (pathOkB path = true ∧ fwf v = true) ∧ fwfEntries es = true := by simpa using h
  exact ⟨h2.1.1, h2.1.2, h2.2⟩

theorem fwfEntries_pathOk : ∀ (es : List (List Str × FVal)), fwfEntries es = true →
    ∀ e ∈ es, pathOkB e.1 = true
  | [], _, e, he => by simp at he
  | e0 :: es, h, e, he => by
    obtain ⟨h1, _, h3⟩ := fwfEntries_split h
    rcases List.mem_cons.mp he with rfl | hm
    · exact h1
    · exact fwfEntries_pathOk es h3 e hm

theorem fwfList_split {x : FVal} {xs : List FVal} (h : fwfList (x :: xs) = true) :
    fwf x = true ∧ fwfList xs = true := by
  rw [fwfList] at h
  simpa using h

theorem parseAfterBracket_list (len : Nat) :
    parseAfterBracket len [':'] = .ok ⟨len, none, ',', none⟩ := by
  rw [parseAfterBracket.eq_def]
  simp

/-- The element-block dispatch sends a single rendered scalar line to the
inline-value parser. -/
theorem parseElemBody_scalar (delim : Char) (hd : supportedDelim delim = true)
    (p : Prim) (hc : primCanonical p = true) :
    parseElemBody [.node (renderPrim delim p) []] = .ok (.prim (scrubPrim p)) := by
  by_cases hq : primQuoted delim p = true
  · obtain ⟨s2, rfl, hs, hr⟩ := quoted_form hq
    rw [hr, renderQuoted, List.cons_append, parseElemBody.eq_def]
    simp only []
    rw [if_neg (show ¬(decide ('"' :: (escapeStr s2 ++ ['"']) = emptyArrTok) = true)
      from by simp [emptyArrTok])]
    rw [if_neg (show ¬('"' : Char) = '[' from by decide)]
    simp only [eq_self_iff_true, if_true]
    rw [show escapeStr s2 ++ ['"'] = escapeStr s2 ++ '"' :: [] from rfl,
      scanQuotedBody_escape, optCase_some]
    simp only []
    rw [if_pos (show ([] : Forest).isEmpty = true ∧ ([] : Forest).isEmpty = true
      from ⟨rfl, rfl⟩)]
    rfl
  · rw [Bool.not_eq_true] at hq
    have hplain := renderPrim_plainOk hd p hq
    obtain ⟨hm1, hm2⟩ := unquoted_ne_marker hd hq
    cases hr : renderPrim delim p with
    | nil => exact absurd hr (renderPrim_ne_nil delim p)
    | cons ch r =>
      rw [hr] at hm1 hm2
      have hfacts := hplain ch (by rw [hr]; exact List.mem_cons_self ch r)
      rw [parseElemBody.eq_def]
      simp only []
      rw [if_neg (by simpa using hm2), if_neg hfacts.2.2.2.1, if_neg hfacts.2.1]
      have hsplit : splitKeyRaw ((ch :: r) ++ []) = (ch :: r, []) := by
        apply splitKeyRaw_append
        · rw [List.all_eq_true]
          intro c hcm
          have hf2 := hplain c (by rw [hr]; simpa using hcm)
          simp only [Bool.not_eq_true', Bool.or_eq_false_iff, beq_eq_false_iff_ne, ne_eq]
          exact ⟨hf2.2.2.1, hf2.2.2.2.1⟩
        · left; rfl
      rw [List.append_nil] at hsplit
      rw [hsplit]
      simp only []
      rw [if_pos (show ([] : Forest).isEmpty = true ∧ ([] : Forest).isEmpty = true
        from ⟨rfl, rfl⟩)]
      rw [← hr, parseInlineVal_render delim p hd hc]

theorem parseElemBody_objMarker :
    parseElemBody [.node emptyObjTok []] = .ok (.obj []) := by
  rw [parseElemBody.eq_def]
  rfl

theorem parseElemBody_arrMarker :
    parseElemBody [.node emptyArrTok []] = .ok (.arr []) := by
  rw [parseElemBody.eq_def]
  rfl

/-- The element-block dispatch sends a keyless header line with its sibling
body to the array parser. -/
theorem parseElemBody_header (R : Str) (ts : Forest) (hne : ¬('[' :: R = emptyArrTok)) :
    parseElemBody (.node ('[' :: R) [] :: ts)
      = exBind (parseArrHeader R) (fun hdr => parseArrayBody hdr ts) := by
  rw [parseElemBody.eq_def]
  simp only []
  rw [if_neg (by simpa using hne)]
  simp only [reduceIte, List.isEmpty_nil, if_true]

/-- The element-block dispatch sends a key line (with the remaining lines)
to the entry parser. -/
theorem parseElemBody_keyline (path : List Str) (rest : Str) (kids ts : Forest)
    (hp : pathOkB path = true)
    (hrest : ∃ r2, rest = ':' :: r2 ∨ rest = '[' :: r2) :
    parseElemBody (.node (renderPath path ++ rest) kids :: ts)
      = exBind (parseEntries (.node (renderPath path ++ rest) kids :: ts)) checkEntries := by
  obtain ⟨r2, hr2⟩ := hrest
  have hrestne : rest ≠ [] := by rcases hr2 with rfl | rfl <;> simp
  cases path with
  | nil => simp [pathOkB] at hp
  | cons k path2 =>
    cases path2 with
    | nil =>
      rw [renderPath, renderKey]
      by_cases hq : keyNeedsQuote k = true
      · rw [if_pos hq, renderQuoted, List.append_assoc, List.singleton_append,
          List.cons_append]
        rw [parseElemBody.eq_def]
        simp only []
        rw [if_neg (show ¬(decide ('"' :: (escapeStr k ++ '"' :: rest) = emptyArrTok) = true)
          from by simp [emptyArrTok])]
        rw [if_neg (show ¬('"' : Char) = '[' from by decide)]
        simp only [eq_self_iff_true, if_true]
        rw [scanQuotedBody_escape, optCase_some]
        simp only []
        cases rest with
        | nil => exact absurd rfl hrestne
        | cons rc rr => rfl
      · rw [Bool.not_eq_true] at hq
        rw [if_neg (by simp [hq])]
        have hid : isIdentStr k = true := by
          simp only [keyNeedsQuote, Bool.or_eq_false_iff, Bool.not_eq_false'] at hq
          exact hq.1
        cases hk : k with
        | nil => exact absurd hk (isIdentStr_ne_nil hid)
        | cons a t =>
          rw [hk] at hid
          have hstart : isIdentStart a = true := by
            simp only [isIdentStr, Bool.and_eq_true] at hid
            exact hid.1
          obtain ⟨hq2, hd2, hs2, ht2, hb2⟩ := identStart_facts hstart
          rw [List.cons_append, parseElemBody.eq_def]
          simp only []
          rw [if_neg (show ¬(decide (a :: (t ++ rest) = emptyArrTok) = true)
            from by simp [emptyArrTok, hb2])]
          rw [if_neg hb2, if_neg hq2]
          have hsplit : splitKeyRaw ((a :: t) ++ rest) = (a :: t, rest) := by
            apply splitKeyRaw_append
            · rw [List.all_eq_true]
              intro c hc
              have hfacts := identCh_facts (isIdentStr_all hid c hc)
              simp only [Bool.not_eq_true', Bool.or_eq_false_iff,
                beq_eq_false_iff_ne, ne_eq]
              exact ⟨hfacts.1, hfacts.2.1⟩
            · right; exact ⟨r2, hr2⟩
          rw [List.cons_append] at hsplit
          rw [hsplit]
          cases rest with
          | nil => exact absurd rfl hrestne
          | cons rc rr => rfl
    | cons k2 ks =>
      rw [renderPath]
      have hsegs : ∀ x ∈ k :: k2 :: ks, isIdentStr x = true := by
        intro x hx
        rw [pathOkB, List.all_eq_true] at hp
        exact (segOk_ident (hp x hx)).1
      obtain ⟨a, t, hj, hstart⟩ := joinDots_multi_head k k2 ks (hsegs k (by simp))
      obtain ⟨hq2, hd2, hs2, ht2, hb2⟩ := identStart_facts hstart
      rw [hj, List.cons_append, parseElemBody.eq_def]
      simp only []
      rw [if_neg (show ¬(decide (a :: (t ++ rest) = emptyArrTok) = true)
        from by simp [emptyArrTok, hb2])]
      rw [if_neg hb2, if_neg hq2]
      have hsplit : splitKeyRaw ((a :: t) ++ rest) = (a :: t, rest) := by
        apply splitKeyRaw_append
        · rw [List.all_eq_true]
          intro c hc
          rw [← hj] at hc
          rcases joinDots_chars (k :: k2 :: ks) hsegs c hc with hcid | rfl
          · have hfacts := identCh_facts hcid
            simp only [Bool.not_eq_true', Bool.or_eq_false_iff,
              beq_eq_false_iff_ne, ne_eq]
            exact ⟨hfacts.1, hfacts.2.1⟩
          · simp
        · right; exact ⟨r2, hr2⟩
      rw [List.cons_append] at hsplit
      rw [hsplit]
      cases rest with
      | nil => exact absurd rfl hrestne
      | cons rc rr => rfl

/-- Every emitted entry line is a rendered path followed by a colon or an
array header. -/
theorem emitEntry_shape (delim : Char) (path : List Str) (v : FVal) :
    ∃ rest kids, emitEntry delim (path, v) = .node (renderPath path ++ rest) kids
      ∧ (∃ r2, rest = ':' :: r2 ∨ rest = '[' :: r2) := by
  cases v with
  | prim p =>
    exact ⟨':' :: ' ' :: renderPrim delim p, [], by rw [emitEntry],
      ⟨' ' :: renderPrim delim p, Or.inl rfl⟩⟩
  | arr xs =>
    cases xs with
    | nil =>
      exact ⟨':' :: ' ' :: emptyArrTok, [], by rw [emitEntry],
        ⟨' ' :: emptyArrTok, Or.inl rfl⟩⟩
    | cons x xs2 =>
      refine ⟨'[' :: (natChars (x :: xs2).length ++ ']' :: arrSuffix delim (x :: xs2)),
        arrKids delim (x :: xs2), by rw [emitEntry, List.append_assoc, List.cons_append], ?_⟩
      exact ⟨natChars (x :: xs2).length ++ ']' :: arrSuffix delim (x :: xs2), Or.inr rfl⟩
  | obj es =>
    cases es with
    | nil =>
      exact ⟨':' :: ' ' :: emptyObjTok, [], by rw [emitEntry],
        ⟨' ' :: emptyObjTok, Or.inl rfl⟩⟩
    | cons e es2 =>
      exact ⟨[':'], emitEntries delim (e :: es2), by rw [emitEntry], ⟨[], Or.inl rfl⟩⟩


theorem parseInlineVal_objMarker : parseInlineVal emptyObjTok = .ok (.obj []) := rfl

theorem parseInlineVal_arrMarker : parseInlineVal emptyArrTok = .ok (.arr []) := rfl

theorem parseEntryRest_inline (k : Str) (flag : Bool) (tok : Str) :
    parseEntryRest k flag (':' :: ' ' :: tok) []
      = exBind (parseInlineVal tok) (fun v => .ok (k, flag, v)) := by
  rw [parseEntryRest.eq_def]
  simp only [eq_self_iff_true, if_true, List.isEmpty_nil]

theorem parseEntryRest_opener (k : Str) (flag : Bool) (kids : Forest) (hk : kids ≠ []) :
    parseEntryRest k flag [':'] kids
      = exBind (parseEntries kids) (fun es =>
          exBind (checkEntries es) (fun v => .ok (k, flag, v))) := by
  rw [parseEntryRest.eq_def]
  simp only [eq_self_iff_true, if_true]
  rw [if_neg (by simpa using hk)]

theorem parseEntryRest_header (k : Str) (flag : Bool) (R : Str) (kids : Forest) :
    parseEntryRest k flag ('[' :: R) kids
      = exBind (parseArrHeader R) (fun hdr =>
          exBind (parseArrayBody hdr kids) (fun v => .ok (k, flag, v))) := by
  rw [parseEntryRest.eq_def]
  simp only []
  rw [if_neg (show ¬('[' : Char) = ':' from by decide)]
  simp only [eq_self_iff_true, if_true]

theorem fwfList_prims_canonical : ∀ (ps : List Prim),
    fwfList (ps.map FVal.prim) = true → ∀ p ∈ ps, primCanonical p = true
  | [], _, p, hp => by simp at hp
  | q :: ps, h, p, hp => by
    rw [List.map_cons] at h
    obtain ⟨h1, h2⟩ := fwfList_split h
    rcases List.mem_cons.mp hp with rfl | hp2
    · rw [fwf] at h1; exact h1
    · exact fwfList_prims_canonical ps h2 p hp2

mutual
/-- Parsing an emitted entry line recovers the key name, the quoting flag,
and the parsed value. -/
theorem parse_emitEntry (delim : Char) (hd : supportedDelim delim = true) :
    ∀ (path : List Str) (v : FVal), pathOkB path = true → fwf v = true →
      parseEntryNode (emitEntry delim (path, v))
        = .ok (pathName path, pathFlag path, pvalOf v)
  | path, .prim p, hp, hv => by
    rw [fwf] at hv
    rw [emitEntry,
      parseEntryNode_render path _ [] hp ⟨' ' :: renderPrim delim p, Or.inl rfl⟩,
      parseEntryRest_inline, parseInlineVal_render delim p hd hv, exBind_ok]
    rfl
  | path, .obj [], hp, _ => by
    rw [emitEntry,
      parseEntryNode_render path _ [] hp ⟨' ' :: emptyObjTok, Or.inl rfl⟩,
      parseEntryRest_inline, parseInlineVal_objMarker, exBind_ok]
    rfl
  | path, .arr [], hp, _ => by
    rw [emitEntry,
      parseEntryNode_render path _ [] hp ⟨' ' :: emptyArrTok, Or.inl rfl⟩,
      parseEntryRest_inline, parseInlineVal_arrMarker, exBind_ok]
    rfl
  | path, .obj (e :: es), hp, hv => by
    obtain ⟨hnodup, hfwfes⟩ := fwf_obj hv
    rw [emitEntry,
      parseEntryNode_render path _ (emitEntries delim (e :: es)) hp ⟨[], Or.inl rfl⟩,
      parseEntryRest_opener _ _ _ (by rw [emitEntries_cons]; simp),
      parse_emitEntries delim hd (e :: es) hfwfes, exBind_ok,
      checkEntries_pval (e :: es) hnodup, exBind_ok]
    rfl
  | path, .arr (x :: xs), hp, hv => by
    rw [emitEntry, List.append_assoc, List.cons_append,
      parseEntryNode_render path _ (arrKids delim (x :: xs)) hp
        ⟨natChars (x :: xs).length ++ ']' :: arrSuffix delim (x :: xs), Or.inr rfl⟩,
      parseEntryRest_header, ← exBind_exBind,
      parse_emitArr delim hd (x :: xs) (by simp) (fwf_arr hv), exBind_ok]
    rfl
termination_by path v => (sizeOf v, 0)
/-- Parsing an emitted entry block recovers the entries in order. -/
theorem parse_emitEntries (delim : Char) (hd : supportedDelim delim = true) :
    ∀ (es : List (List Str × FVal)), fwfEntries es = true →
      parseEntries (emitEntries delim es) = .ok (pvalEntries es)
  | [], _ => by
    rw [show emitEntries delim [] = [] from by rw [emitEntries], parseEntries]
    rfl
  | (path, v) :: es, h => by
    obtain ⟨h1, h2, h3⟩ := fwfEntries_split h
    rw [emitEntries_cons, parseEntries, parse_emitEntry delim hd path v h1 h2, exBind_ok,
      parse_emitEntries delim hd es h3, exBind_ok]
    rfl
termination_by es => (sizeOf es, 0)
/-- Parsing an emitted list element recovers the element. -/
theorem parse_emitElem (delim : Char) (hd : supportedDelim delim = true) :
    ∀ (v : FVal), fwf v = true →
      parseElemNode (emitElem delim v) = .ok (pvalOf v)
  | .prim p, hv => by
    rw [fwf] at hv
    rw [emitElem, parseElemNode]
    simp only [eq_self_iff_true, if_true]
    rw [parseElemBody_scalar delim hd p hv]
    rfl
  | .obj [], _ => by
    rw [emitElem, parseElemNode]
    simp only [eq_self_iff_true, if_true]
    rw [parseElemBody_objMarker]
    rfl
  | .arr [], _ => by
    rw [emitElem, parseElemNode]
    simp only [eq_self_iff_true, if_true]
    rw [parseElemBody_arrMarker]
    rfl
  | .obj ((path, v2) :: es), hv => by
    obtain ⟨hnodup, hfwfes⟩ := fwf_obj hv
    obtain ⟨h1, h2, h3⟩ := fwfEntries_split hfwfes
    obtain ⟨rest, kids, hshape, hrest⟩ := emitEntry_shape delim path v2
    rw [emitElem, parseElemNode]
    simp only [eq_self_iff_true, if_true]
    rw [emitEntries_cons, hshape, parseElemBody_keyline path rest kids _ h1 hrest,
      ← hshape, ← emitEntries_cons, parse_emitEntries delim hd ((path, v2) :: es) hfwfes,
      exBind_ok, checkEntries_pval ((path, v2) :: es) hnodup]
    rfl
  | .arr (x :: xs), hv => by
    rw [emitElem, parseElemNode]
    simp only [eq_self_iff_true, if_true]
    rw [List.cons_append]
    have hne : ¬('[' :: (natChars (x :: xs).length ++ ']' :: arrSuffix delim (x :: xs))
        = emptyArrTok) := by
      intro h
      rw [emptyArrTok] at h
      injection h with _ h2
      have hnn := natChars_ne_nil (x :: xs).length
      have hlen := congrArg List.length h2
      have hpos : 0 < (natChars (x :: xs).length).length := List.length_pos.mpr hnn
      simp only [List.length_append, List.length_cons, List.length_nil] at hlen hpos
      omega
    rw [parseElemBody_header _ _ hne,
      parse_emitArr delim hd (x :: xs) (by simp) (fwf_arr hv)]
    rfl
termination_by v => (sizeOf v, 0)
/-- Parsing emitted list elements recovers them in order. -/
theorem parse_emitElems (delim : Char) (hd : supportedDelim delim = true) :
    ∀ (xs : List FVal), fwfList xs = true →
      parseElems (emitElems delim xs) = .ok (pvalList xs)
  | [], _ => by
    rw [show emitElems delim [] = [] from by rw [emitElems], parseElems]
    rfl
  | x :: xs, h => by
    obtain ⟨h1, h2⟩ := fwfList_split h
    rw [show emitElems delim (x :: xs) = emitElem delim x :: emitElems delim xs
        from by rw [emitElems],
      parseElems, parse_emitElem delim hd x h1, exBind_ok,
      parse_emitElems delim hd xs h2, exBind_ok]
    rfl
termination_by xs => (sizeOf xs, 0)
/-- Parsing an emitted array header and body recovers the array. -/
theorem parse_emitArr (delim : Char) (hd : supportedDelim delim = true) :
    ∀ (xs : List FVal), xs ≠ [] → fwfList xs = true →
      exBind (parseArrHeader (natChars xs.length ++ ']' :: arrSuffix delim xs))
        (fun hdr => parseArrayBody hdr (arrKids delim xs)) = .ok (.arr (pvalList xs))
  | xs, hne, hfwf => by
    rw [parseArrHeader_split]
    cases hsc : allScalar xs with
    | some ps =>
      have hxs := allScalar_some hsc
      have hpsne : ps ≠ [] := by
        intro h
        rw [h] at hxs
        exact hne (by simpa using hxs)
      have hcanon : ∀ p ∈ ps, primCanonical p = true :=
        fwfList_prims_canonical ps (by rw [← hxs]; exact hfwf)
      have htxtne : intercalateD delim (ps.map (renderPrim delim)) ≠ [] := by
        apply intercalateD_ne_nil
        · simpa using hpsne
        · intro c hc
          obtain ⟨p, _, hp2⟩ := List.mem_map.mp hc
          rw [← hp2]
          exact renderPrim_ne_nil delim p
      have hkids : arrKids delim xs = [] := by
        rw [arrKids, hsc]
      rw [arrSuffix, hsc, parseAfterBracket_cellsForm xs.length delim hd _ htxtne,
        exBind_ok, hkids, parseArrayBody]
      simp only [List.isEmpty_nil, if_true]
      rw [parseCells_cells delim hd ps (by simpa using hpsne) hcanon, exBind_ok,
        if_pos (by rw [hxs, List.length_map, List.length_map])]
      rw [hxs, pvalList_prims, List.map_map]
      rfl
    | none =>
      cases htab : isTabular xs with
      | some cols =>
        obtain ⟨hcne, hxsne2, hrow⟩ := isTabular_spec htab
        have hcolsOk : ∀ p ∈ cols, pathOkB p = true := by
          intro p hp
          cases xs with
          | nil => exact absurd rfl hne
          | cons x0 rest =>
            obtain ⟨es, hx0, hkeys, _⟩ := rowOk_spec (hrow x0 (by simp))
            obtain ⟨hf1, _⟩ := fwfList_split hfwf
            rw [hx0] at hf1
            obtain ⟨_, hfes⟩ := fwf_obj hf1
            rw [← hkeys] at hp
            obtain ⟨e, he1, he2⟩ := List.mem_map.mp hp
            rw [← he2]
            exact fwfEntries_pathOk es hfes e he1
        have hkids : arrKids delim xs = xs.map (emitRow delim) := by
          rw [arrKids, hsc, htab]
        rw [arrSuffix, hsc, htab,
          parseAfterBracket_tabular xs.length delim hd cols hcne hcolsOk, exBind_ok,
          hkids, parseArrayBody]
        simp only []
        rw [if_pos (by rw [List.length_map])]
        rw [parseRows_render delim hd cols xs hrow hfwf hcne, exBind_ok]
      | none =>
        have hkids : arrKids delim xs = emitElems delim xs := by
          rw [arrKids, hsc, htab]
        rw [arrSuffix, hsc, htab, parseAfterBracket_list, exBind_ok, hkids,
          parseArrayBody]
        simp only []
        rw [if_pos (emitElems_length delim xs)]
        rw [parse_emitElems delim hd xs hfwf, exBind_ok]
termination_by xs => (sizeOf xs, 1)
end


/-! ## Root-level dispatch of the parser -/

theorem headerTok_ne_empty (l : Nat) (suffix : Str) :
    ¬('[' :: (natChars l ++ ']' :: suffix) = emptyArrTok) := by
  intro h
  rw [emptyArrTok] at h
  injection h with _ h2
  have hnn := natChars_ne_nil l
  have hlen := congrArg List.length h2
  have hpos : 0 < (natChars l).length := List.length_pos.mpr hnn
  simp only [List.length_append, List.length_cons, List.length_nil] at hlen
  omega

/-- The root dispatch sends a single rendered scalar line to the
inline-value parser. -/
theorem parseRoot_scalar (delim : Char) (hd : supportedDelim delim = true)
    (p : Prim) (hc : primCanonical p = true) :
    parseRoot [.node (renderPrim delim p) []] = .ok (.prim (scrubPrim p)) := by
  by_cases hq : primQuoted delim p = true
  · obtain ⟨s2, rfl, hs, hr⟩ := quoted_form hq
    rw [hr, renderQuoted, List.cons_append, parseRoot.eq_def]
    simp only []
    rw [if_neg (show ¬(decide ('"' :: (escapeStr s2 ++ ['"']) = emptyArrTok) = true)
      from by simp [emptyArrTok])]
    rw [if_neg (show ¬('"' : Char) = '[' from by decide)]
    simp only [eq_self_iff_true, if_true]
    rw [show escapeStr s2 ++ ['"'] = escapeStr s2 ++ '"' :: [] from rfl,
      scanQuotedBody_escape, optCase_some]
    simp only []
    rw [if_pos (show ([] : Forest).isEmpty = true from rfl)]
    rfl
  · rw [Bool.not_eq_true] at hq
    have hplain := renderPrim_plainOk hd p hq
    obtain ⟨hm1, hm2⟩ := unquoted_ne_marker hd hq
    cases hr : renderPrim delim p with
    | nil => exact absurd hr (renderPrim_ne_nil delim p)
    | cons ch r =>
      rw [hr] at hm1 hm2
      have hfacts := hplain ch (by rw [hr]; exact List.mem_cons_self ch r)
      rw [parseRoot.eq_def]
      simp only []
      rw [if_neg (by simpa using hm2), if_neg hfacts.2.2.2.1, if_neg hfacts.2.1]
      have hsplit : splitKeyRaw ((ch :: r) ++ []) = (ch :: r, []) := by
        apply splitKeyRaw_append
        · rw [List.all_eq_true]
          intro c hcm
          have hf2 := hplain c (by rw [hr]; simpa using hcm)
          simp only [Bool.not_eq_true', Bool.or_eq_false_iff, beq_eq_false_iff_ne, ne_eq]
          exact ⟨hf2.2.2.1, hf2.2.2.2.1⟩
        · left; rfl
      rw [List.append_nil] at hsplit
      rw [hsplit]
      simp only []
      rw [if_pos (show ([] : Forest).isEmpty = true from rfl)]
      rw [← hr, parseInlineVal_render delim p hd hc]

theorem parseRoot_objMarker : parseRoot [.node emptyObjTok []] = .ok (.obj []) := by
  rw [parseRoot.eq_def]
  rfl

theorem parseRoot_arrMarker : parseRoot [.node emptyArrTok []] = .ok (.arr []) := by
  rw [parseRoot.eq_def]
  rfl

/-- The root dispatch sends a keyless header line with its nested block to
the array parser. -/
theorem parseRoot_header (R : Str) (kids : Forest) (hne : ¬('[' :: R = emptyArrTok)) :
    parseRoot [.node ('[' :: R) kids]
      = exBind (parseArrHeader R) (fun hdr => parseArrayBody hdr kids) := by
  rw [parseRoot.eq_def]
  simp only []
  rw [if_neg (by simpa using hne)]
  simp only [reduceIte]

/-- The root dispatch sends a single key line to the entry parser. -/
theorem parseRoot_keyline (path : List Str) (rest : Str) (kids : Forest)
    (hp : pathOkB path = true)
    (hrest : ∃ r2, rest = ':' :: r2 ∨ rest = '[' :: r2) :
    parseRoot [.node (renderPath path ++ rest) kids]
      = exBind (parseEntries [.node (renderPath path ++ rest) kids]) checkEntries := by
  obtain ⟨r2, hr2⟩ := hrest
  have hrestne : rest ≠ [] := by rcases hr2 with rfl | rfl <;> simp
  cases path with
  | nil => simp [pathOkB] at hp
  | cons k path2 =>
    cases path2 with
    | nil =>
      rw [renderPath, renderKey]
      by_cases hq : keyNeedsQuote k = true
      · rw [if_pos hq, renderQuoted, List.append_assoc, List.singleton_append,
          List.cons_append]
        rw [parseRoot.eq_def]
        simp only []
        rw [if_neg (show ¬(decide ('"' :: (escapeStr k ++ '"' :: rest) = emptyArrTok) = true)
          from by simp [emptyArrTok])]
        rw [if_neg (show ¬('"' : Char) = '[' from by decide)]
        simp only [eq_self_iff_true, if_true]
        rw [scanQuotedBody_escape, optCase_some]
        simp only []
        cases rest with
        | nil => exact absurd rfl hrestne
        | cons rc rr => rfl
      · rw [Bool.not_eq_true] at hq
        rw [if_neg (by simp [hq])]
        have hid : isIdentStr k = true := by
          simp only [keyNeedsQuote, Bool.or_eq_false_iff, Bool.not_eq_false'] at hq
          exact hq.1
        cases hk : k with
        | nil => exact absurd hk (isIdentStr_ne_nil hid)
        | cons a t =>
          rw [hk] at hid
          have hstart : isIdentStart a = true := by
            simp only [isIdentStr, Bool.and_eq_true] at hid
            exact hid.1
          obtain ⟨hq2, hd2, hs2, ht2, hb2⟩ := identStart_facts hstart
          rw [List.cons_append, parseRoot.eq_def]
          simp only []
          rw [if_neg (show ¬(decide (a :: (t ++ rest) = emptyArrTok) = true)
            from by simp [emptyArrTok, hb2])]
          rw [if_neg hb2, if_neg hq2]
          have hsplit : splitKeyRaw ((a :: t) ++ rest) = (a :: t, rest) := by
            apply splitKeyRaw_append
            · rw [List.all_eq_true]
              intro c hc
              have hfacts := identCh_facts (isIdentStr_all hid c hc)
              simp only [Bool.not_eq_true', Bool.or_eq_false_iff,
                beq_eq_false_iff_ne, ne_eq]
              exact ⟨hfacts.1, hfacts.2.1⟩
            · right; exact ⟨r2, hr2⟩
          rw [List.cons_append] at hsplit
          rw [hsplit]
          cases rest with
          | nil => exact absurd rfl hrestne
          | cons rc rr => rfl
    | cons k2 ks =>
      rw [renderPath]
      have hsegs : ∀ x ∈ k :: k2 :: ks, isIdentStr x = true := by
        intro x hx
        rw [pathOkB, List.all_eq_true] at hp
        exact (segOk_ident (hp x hx)).1
      obtain ⟨a, t, hj, hstart⟩ := joinDots_multi_head k k2 ks (hsegs k (by simp))
      obtain ⟨hq2, hd2, hs2, ht2, hb2⟩ := identStart_facts hstart
      rw [hj, List.cons_append, parseRoot.eq_def]
      simp only []
      rw [if_neg (show ¬(decide (a :: (t ++ rest) = emptyArrTok) = true)
        from by simp [emptyArrTok, hb2])]
      rw [if_neg hb2, if_neg hq2]
      have hsplit : splitKeyRaw ((a :: t) ++ rest) = (a :: t, rest) := by
        apply splitKeyRaw_append
        · rw [List.all_eq_true]
          intro c hc
          rw [← hj] at hc
          rcases joinDots_chars (k :: k2 :: ks) hsegs c hc with hcid | rfl
          · have hfacts := identCh_facts hcid
            simp only [Bool.not_eq_true', Bool.or_eq_false_iff,
              beq_eq_false_iff_ne, ne_eq]
            exact ⟨hfacts.1, hfacts.2.1⟩
          · simp
        · right; exact ⟨r2, hr2⟩
      rw [List.cons_append] at hsplit
      rw [hsplit]
      cases rest with
      | nil => exact absurd rfl hrestne
      | cons rc rr => rfl

/-- Parsing the emitted root forest recovers the value. -/
theorem parse_emitRoot (delim : Char) (hd : supportedDelim delim = true)
    (v : FVal) (hv : fwf v = true) :
    parseRoot (emitRoot delim v) = .ok (pvalOf v) := by
  cases v with
  | prim p =>
    rw [fwf] at hv
    rw [emitRoot, parseRoot_scalar delim hd p hv]
    rfl
  | obj kvs =>
    cases kvs with
    | nil =>
      rw [emitRoot, parseRoot_objMarker]
      rfl
    | cons e es =>
      obtain ⟨hnodup, hfwfes⟩ := fwf_obj hv
      have htail : parseEntries (emitEntries delim (e :: es)) = .ok (pvalEntries (e :: es)) :=
        parse_emitEntries delim hd (e :: es) hfwfes
      rw [emitRoot]
      cases hee : emitEntries delim es with
      | nil =>
        have hes : es = [] := by
          cases es with
          | nil => rfl
          | cons e2 es2 => rw [emitEntries] at hee; exact absurd hee (by simp)
        subst hes
        obtain ⟨path, v2⟩ := e
        obtain ⟨h1, h2, h3⟩ := fwfEntries_split hfwfes
        obtain ⟨rest, kids, hshape, hrest⟩ := emitEntry_shape delim path v2
        rw [emitEntries_cons, hee, hshape,
          parseRoot_keyline path rest kids h1 hrest, ← hshape, ← hee, ← emitEntries_cons,
          htail, exBind_ok, checkEntries_pval [(path, v2)] hnodup]
        rfl
      | cons t2 ts =>
        rw [emitEntries_cons, hee, parseRoot, ← hee, ← emitEntries_cons,
          htail, exBind_ok, checkEntries_pval (e :: es) hnodup]
        rfl
  | arr xs =>
    cases xs with
    | nil =>
      rw [emitRoot, parseRoot_arrMarker]
      rfl
    | cons x xs2 =>
      rw [emitRoot, List.cons_append,
        parseRoot_header _ _ (headerTok_ne_empty (x :: xs2).length (arrSuffix delim (x :: xs2))),
        parse_emitArr delim hd (x :: xs2) (by simp) (fwf_arr hv)]
      rfl


/-! ## Line invariants of the emitted forest -/

/-- A content line the pipeline round-trips: a valid line that does not
begin with the element marker `- `. -/
def contentOk (c : Str) : Bool := lineOk c && noDashStart c

mutual
/-- Every content line of a tree satisfies `contentOk`, except that marker
lines `-` are allowed. -/
def treeOk : LTree → Bool
  | .node c kids => (decide (c = ['-']) || contentOk c) && forestOk kids
/-- Every content line of a forest is a marker or `contentOk`. -/
def forestOk : Forest → Bool
  | [] => true
  | t :: ts => treeOk t && forestOk ts
end

theorem forestOk_flatten : (F : Forest) → forestOk F = true →
    ∀ (d : Nat) (p : Nat × Str), p ∈ flattenForest d F →
      p.2 = ['-'] ∨ contentOk p.2 = true
  | [], _, d, p, hp => by simp [flattenForest] at hp
  | .node c kids :: ts, h, d, p, hp => by
    rw [forestOk, Bool.and_eq_true] at h
    obtain ⟨h1, h2⟩ := h
    rw [treeOk, Bool.and_eq_true] at h1
    rw [flattenForest, flattenTree] at hp
    rcases List.mem_append.mp hp with hp1 | hp2
    · rcases List.mem_cons.mp hp1 with rfl | hp3
      · rcases Bool.or_eq_true_iff.mp h1.1 with hm | hc
        · exact Or.inl (by simpa using hm)
        · exact Or.inr hc
      · exact forestOk_flatten kids h1.2 (d + 1) p hp3
    · exact forestOk_flatten ts h2 d p hp2
termination_by F => sizeOf F

theorem contentOk_lineOk {c : Str} (h : contentOk c = true) : lineOk c = true := by
  rw [contentOk, Bool.and_eq_true] at h
  exact h.1

theorem contentOk_noDash {c : Str} (h : contentOk c = true) : noDashStart c = true := by
  rw [contentOk, Bool.and_eq_true] at h
  exact h.2

theorem lineOk_noNL {c : Str} (h : lineOk c = true) : noNL c = true := by
  cases c with
  | nil => simp [lineOk] at h
  | cons ch r =>
    simp only [lineOk, Bool.and_eq_true] at h
    exact h.2

theorem lineOk_merge {r : Str} (h : noNL r = true) : lineOk ('-' :: ' ' :: r) = true := by
  apply lineOk_intro (by decide) (by decide)
  rw [noNL, List.all_cons, List.all_cons]
  rw [noNL] at h
  rw [h]
  decide

/-- Merging markers with their content lines preserves line validity. -/
theorem dashJoin_lineOk : ∀ (ls : List (Nat × Str)),
    (∀ p ∈ ls, lineOk p.2 = true) → ∀ q ∈ dashJoin ls, lineOk q.2 = true
  | [], _, q, hq => by rw [dashJoin_nil] at hq; simp at hq
  | (d, c) :: rest, h, q, hq => by
    by_cases hc : c = ['-']
    · subst hc
      cases rest with
      | nil =>
        rw [dashJoin_marker_last] at hq
        rw [show q = (d, ['-']) from by simpa using hq]
        exact (by decide : lineOk ['-'] = true)
      | cons p rest2 =>
        obtain ⟨d2, r⟩ := p
        by_cases hd : d2 = d + 1
        · rw [dashJoin_marker d d2 r rest2 hd] at hq
          rcases List.mem_cons.mp hq with rfl | hq2
          · exact lineOk_merge (lineOk_noNL (h (d2, r) (by simp)))
          · exact dashJoin_lineOk rest2 (fun p hp => h p (by simp [hp])) q hq2
        · rw [dashJoin_marker_skip d d2 r rest2 hd] at hq
          rcases List.mem_cons.mp hq with rfl | hq2
          · exact (by decide : lineOk ['-'] = true)
          · exact dashJoin_lineOk ((d2, r) :: rest2)
              (fun p hp => h p (by simp at hp ⊢; tauto)) q hq2
    · rw [dashJoin_plain d c rest hc] at hq
      rcases List.mem_cons.mp hq with rfl | hq2
      · exact h (d, c) (by simp)
      · exact dashJoin_lineOk rest (fun p hp => h p (by simp [hp])) q hq2
termination_by ls => ls.length

/-! ## Newline-freedom of emitted text fragments -/

theorem noNL_append {a b : Str} (h1 : noNL a = true) (h2 : noNL b = true) :
    noNL (a ++ b) = true := by
  rw [noNL, List.all_append]
  rw [noNL] at h1 h2
  rw [h1, h2]
  rfl

theorem noNL_cons {ch : Char} {c : Str} (h1 : ¬ch = '\n') (h2 : noNL c = true) :
    noNL (ch :: c) = true := by
  rw [noNL, List.all_cons]
  rw [noNL] at h2
  rw [h2]
  simp [h1]

theorem noNL_renderPrim {delim : Char} (hd : supportedDelim delim = true) (p : Prim) :
    noNL (renderPrim delim p) = true :=
  lineOk_noNL (renderPrim_shape delim hd p).1

theorem noNL_natChars (n : Nat) : noNL (natChars n) = true := by
  rw [noNL, List.all_eq_true]
  intro c hc
  have hdig := natChars_digit n c hc
  simp only [Bool.not_eq_true', beq_eq_false_iff_ne, ne_eq]
  rintro rfl
  exact absurd hdig (by decide)

theorem noNL_ident {k : Str} (h : isIdentStr k = true) : noNL k = true := by
  rw [noNL, List.all_eq_true]
  intro c hc
  simpa using (identCh_facts (isIdentStr_all h c hc)).2.2.2.1

theorem noNL_renderKey (k : Str) : noNL (renderKey k) = true := by
  rw [renderKey]
  by_cases hq : keyNeedsQuote k = true
  · rw [if_pos hq]
    exact renderQuoted_noNL k
  · rw [if_neg hq]
    rw [Bool.not_eq_true] at hq
    simp only [keyNeedsQuote, Bool.or_eq_false_iff, Bool.not_eq_false'] at hq
    exact noNL_ident hq.1

theorem noNL_joinDots : ∀ (ks : List Str), (∀ k ∈ ks, isIdentStr k = true) →
    noNL (joinDots ks) = true := by
  intro ks h
  rw [noNL, List.all_eq_true]
  intro c hc
  rcases joinDots_chars ks h c hc with hcid | rfl
  · simpa using (identCh_facts hcid).2.2.2.1
  · decide

theorem noNL_renderPath (path : List Str) (hp : pathOkB path = true) :
    noNL (renderPath path) = true := by
  cases path with
  | nil => rfl
  | cons k path2 =>
    cases path2 with
    | nil => exact noNL_renderKey k
    | cons k2 ks =>
      rw [renderPath]
      apply noNL_joinDots
      intro x hx
      rw [pathOkB, List.all_eq_true] at hp
      exact (segOk_ident (hp x hx)).1

theorem noNL_intercalateD {delim : Char} (hdn : ¬delim = '\n') :
    ∀ (ls : List Str), (∀ s ∈ ls, noNL s = true) → noNL (intercalateD delim ls) = true
  | [], _ => rfl
  | [c], h => by rw [intercalateD]; exact h c (by simp)
  | c :: c2 :: cs, h => by
    rw [intercalateD]
    exact noNL_append (h c (by simp))
      (noNL_cons hdn (noNL_intercalateD hdn (c2 :: cs) (fun x hx => h x (by simp [hx]))))

theorem supportedDelim_ne_nl {delim : Char} (hd : supportedDelim delim = true) :
    ¬delim = '\n' := by
  obtain ⟨hctl, _⟩ := supportedDelim_facts hd
  rintro rfl
  exact absurd hctl (by decide)

theorem noNL_delimAnn {delim : Char} (hd : supportedDelim delim = true) :
    noNL (delimAnn delim) = true := by
  rw [delimAnn]
  by_cases h : delim = ','
  · rw [if_pos h]; decide
  · rw [if_neg h]
    exact noNL_cons (supportedDelim_ne_nl hd) rfl

theorem noNL_tabAnn {delim : Char} (hd : supportedDelim delim = true) :
    noNL (tabAnn delim) = true := by
  rw [tabAnn]
  by_cases h : delim = ','
  · rw [if_pos h]; rfl
  · rw [if_neg h]
    exact noNL_cons (supportedDelim_ne_nl hd) rfl

/-- The columns of a tabular array are well-formed paths when the rows
are well-formed. -/
theorem isTabular_colsOk {xs : List FVal} {cols : List (List Str)}
    (htab : isTabular xs = some cols) (hfwf : fwfList xs = true) :
    ∀ p ∈ cols, pathOkB p = true := by
  intro p hp
  obtain ⟨hcne, hxsne, hrow⟩ := isTabular_spec htab
  cases xs with
  | nil => exact absurd rfl hxsne
  | cons x0 rest =>
    obtain ⟨es, hx0, hkeys, _⟩ := rowOk_spec (hrow x0 (by simp))
    obtain ⟨hf1, _⟩ := fwfList_split hfwf
    rw [hx0] at hf1
    obtain ⟨_, hfes⟩ := fwf_obj hf1
    rw [← hkeys] at hp
    obtain ⟨e, he1, he2⟩ := List.mem_map.mp hp
    rw [← he2]
    exact fwfEntries_pathOk es hfes e he1

theorem noNL_arrSuffix {delim : Char} (hd : supportedDelim delim = true)
    (xs : List FVal) (hfwf : fwfList xs = true) : noNL (arrSuffix delim xs) = true := by
  rw [arrSuffix]
  cases hsc : allScalar xs with
  | some ps =>
    apply noNL_cons (by decide)
    apply noNL_append (noNL_delimAnn hd)
    apply noNL_intercalateD (supportedDelim_ne_nl hd)
    intro s hs
    obtain ⟨p, _, hp2⟩ := List.mem_map.mp hs
    rw [← hp2]
    exact noNL_renderPrim hd p
  | none =>
    cases htab : isTabular xs with
    | some cols =>
      apply noNL_cons (by decide)
      apply noNL_append
      · apply noNL_intercalateD (supportedDelim_ne_nl hd)
        intro s hs
        obtain ⟨p, hp1, hp2⟩ := List.mem_map.mp hs
        rw [← hp2]
        exact noNL_renderPath p (isTabular_colsOk htab hfwf p hp1)
      · exact noNL_cons (by decide) (noNL_cons (by decide) (noNL_tabAnn hd))
    | none => exact (by decide : noNL [':'] = true)


/-! ## Emitted contents are valid lines -/

theorem renderPath_head (path : List Str) (hp : pathOkB path = true) :
    ∃ ch t, renderPath path = ch :: t ∧ ¬ch = ' ' ∧ ¬ch = '\t' ∧ ¬ch = '-' ∧ ¬ch = '\n' := by
  cases path with
  | nil => simp [pathOkB] at hp
  | cons k path2 =>
    cases path2 with
    | nil =>
      rw [renderPath, renderKey]
      by_cases hq : keyNeedsQuote k = true
      · rw [if_pos hq, renderQuoted]
        exact ⟨'"', escapeStr k ++ ['"'], rfl, by decide, by decide, by decide, by decide⟩
      · rw [if_neg hq]
        rw [Bool.not_eq_true] at hq
        simp only [keyNeedsQuote, Bool.or_eq_false_iff, Bool.not_eq_false'] at hq
        have hid := hq.1
        cases hk : k with
        | nil => exact absurd hk (isIdentStr_ne_nil hid)
        | cons a t =>
          rw [hk] at hid
          have hstart : isIdentStart a = true := by
            simp only [isIdentStr, Bool.and_eq_true] at hid
            exact hid.1
          obtain ⟨_, hd2, hs2, ht2, _⟩ := identStart_facts hstart
          have hnl : ¬a = '\n' := by
            rintro rfl
            exact absurd hstart (by decide)
          exact ⟨a, t, rfl, hs2, ht2, hd2, hnl⟩
    | cons k2 ks =>
      rw [renderPath]
      have hsegs : ∀ x ∈ k :: k2 :: ks, isIdentStr x = true := by
        intro x hx
        rw [pathOkB, List.all_eq_true] at hp
        exact (segOk_ident (hp x hx)).1
      obtain ⟨a, t, hj, hstart⟩ := joinDots_multi_head k k2 ks (hsegs k (by simp))
      obtain ⟨_, hd2, hs2, ht2, _⟩ := identStart_facts hstart
      have hnl : ¬a = '\n' := by
        rintro rfl
        exact absurd hstart (by decide)
      exact ⟨a, t, hj, hs2, ht2, hd2, hnl⟩

/-- An entry line — a rendered path followed by a newline-free tail — is a
valid, dash-safe content line. -/
theorem contentOk_pathRest (path : List Str) (rest : Str) (hp : pathOkB path = true)
    (hnl : noNL rest = true) : contentOk (renderPath path ++ rest) = true := by
  obtain ⟨ch, t, heq, h1, h2, h3, h4⟩ := renderPath_head path hp
  have hnlp := noNL_renderPath path hp
  rw [heq] at hnlp ⊢
  rw [List.cons_append]
  have hnlt : noNL t = true := by
    rw [noNL, List.all_cons, Bool.and_eq_true] at hnlp
    exact hnlp.2
  rw [contentOk, lineOk_intro h1 h2 (noNL_cons h4 (noNL_append hnlt hnl)),
    noDashStart_head _ h3]
  rfl

theorem contentOk_header {delim : Char} (hd : supportedDelim delim = true)
    (xs : List FVal) (hfwf : fwfList xs = true) :
    contentOk ('[' :: (natChars xs.length ++ ']' :: arrSuffix delim xs)) = true := by
  have hnl : noNL ('[' :: (natChars xs.length ++ ']' :: arrSuffix delim xs)) = true :=
    noNL_cons (by decide) (noNL_append (noNL_natChars xs.length)
      (noNL_cons (by decide) (noNL_arrSuffix hd xs hfwf)))
  rw [contentOk, lineOk_intro (by decide) (by decide) hnl,
    noDashStart_head _ (by decide)]
  rfl

/-- A delimiter-joined list of rendered cells is a valid, dash-safe content
line. -/
theorem contentOk_intercalateD {delim : Char} (hd : supportedDelim delim = true) :
    ∀ (ls : List Str), ls ≠ [] →
      (∀ s ∈ ls, lineOk s = true ∧ noDashStart s = true) →
      contentOk (intercalateD delim ls) = true
  | [], hne, _ => absurd rfl hne
  | [c], _, h => by
    rw [intercalateD, contentOk, (h c (by simp)).1, (h c (by simp)).2]
    rfl
  | c :: c2 :: cs, _, h => by
    rw [intercalateD]
    obtain ⟨hlk, hnd⟩ := h c (by simp)
    have hrec : noNL (intercalateD delim (c2 :: cs)) = true := by
      apply noNL_intercalateD (supportedDelim_ne_nl hd)
      intro s hs
      exact lineOk_noNL (h s (by simp [hs])).1
    cases c with
    | nil => simp [lineOk] at hlk
    | cons ch t =>
      simp only [lineOk, Bool.and_eq_true, Bool.not_eq_true', beq_eq_false_iff_ne,
        ne_eq] at hlk
      rw [List.cons_append]
      have hnl : noNL (ch :: (t ++ delim :: intercalateD delim (c2 :: cs))) = true := by
        have hnlct : noNL (ch :: t) = true := hlk.2
        rw [noNL, List.all_cons, Bool.and_eq_true] at hnlct
        exact noNL_cons (by simpa using hnlct.1)
          (noNL_append hnlct.2 (noNL_cons (supportedDelim_ne_nl hd) hrec))
      rw [contentOk, lineOk_intro hlk.1.1 hlk.1.2 hnl]
      cases t with
      | nil =>
        by_cases hdash : ch = '-'
        · subst hdash
          rw [List.nil_append,
            noDashStart_dash_nonspace _ ((supportedDelim_facts hd).2.2.2.1)]
          rfl
        · rw [noDashStart_head _ hdash]
          rfl
      | cons t1 t2 =>
        have : noDashStart (ch :: t1 :: (t2 ++ delim :: intercalateD delim (c2 :: cs))) = true := by
          simp only [noDashStart, startsDashSpace, Bool.not_eq_true',
            Bool.and_eq_false_iff, beq_eq_false_iff_ne, ne_eq] at hnd ⊢
          exact hnd
        rw [List.cons_append, this]
        rfl

/-- One emitted tabular row is a valid tree. -/
theorem emitRow_ok {delim : Char} (hd : supportedDelim delim = true)
    {cols : List (List Str)} (x : FVal) (hrow : rowOk cols x = true)
    (hcne : cols ≠ []) : treeOk (emitRow delim x) = true := by
  obtain ⟨es, hx, hkeys, _⟩ := rowOk_spec hrow
  subst hx
  rw [emitRow, treeOk]
  have hesne : es ≠ [] := by
    rintro rfl
    rw [← hkeys] at hcne
    simp at hcne
  have hcok : contentOk (intercalateD delim
      (es.map (fun e => renderPrim delim ((fvalScalar e.2).getD .null)))) = true := by
    apply contentOk_intercalateD hd
    · simpa using hesne
    · intro s hs
      obtain ⟨e, _, he2⟩ := List.mem_map.mp hs
      rw [← he2]
      exact ⟨(renderPrim_shape delim hd _).1, (renderPrim_shape delim hd _).2⟩
  rw [hcok, forestOk]
  simp

mutual
/-- Every line of an emitted entry tree is valid. -/
theorem emitEntry_ok (delim : Char) (hd : supportedDelim delim = true) :
    ∀ (path : List Str) (v : FVal), pathOkB path = true → fwf v = true →
      treeOk (emitEntry delim (path, v)) = true
  | path, .prim p, hp, _ => by
    rw [emitEntry, treeOk,
      contentOk_pathRest path _ hp
        (noNL_cons (by decide) (noNL_cons (by decide) (noNL_renderPrim hd p))),
      forestOk]
    simp
  | path, .obj [], hp, _ => by
    rw [emitEntry, treeOk,
      contentOk_pathRest path _ hp
        (noNL_cons (by decide) (noNL_cons (by decide) (by decide))),
      forestOk]
    simp
  | path, .obj ((k2, v2) :: es), hp, hv => by
    rw [emitEntry, treeOk,
      contentOk_pathRest path _ hp (by decide),
      emitEntries_ok delim hd ((k2, v2) :: es) (fwf_obj hv).2]
    simp
  | path, .arr [], hp, _ => by
    rw [emitEntry, treeOk,
      contentOk_pathRest path _ hp
        (noNL_cons (by decide) (noNL_cons (by decide) (by decide))),
      forestOk]
    simp
  | path, .arr (x :: xs), hp, hv => by
    rw [emitEntry, treeOk, List.append_assoc, List.cons_append,
      contentOk_pathRest path _ hp
        (noNL_cons (by decide) (noNL_append (noNL_natChars (x :: xs).length)
          (noNL_cons (by decide) (noNL_arrSuffix hd (x :: xs) (fwf_arr hv))))),
      arrKids_ok delim hd (x :: xs) (fwf_arr hv)]
    simp
termination_by path v => (sizeOf v, 0)
/-- Every line of an emitted entry block is valid. -/
theorem emitEntries_ok (delim : Char) (hd : supportedDelim delim = true) :
    ∀ (es : List (List Str × FVal)), fwfEntries es = true →
      forestOk (emitEntries delim es) = true
  | [], _ => by rw [emitEntries, forestOk]
  | (path, v) :: es, h => by
    obtain ⟨h1, h2, h3⟩ := fwfEntries_split h
    rw [emitEntries, forestOk, emitEntry_ok delim hd path v h1 h2,
      emitEntries_ok delim hd es h3]
    rfl
termination_by es => (sizeOf es, 0)
/-- Every line of an emitted list element is valid. -/
theorem emitElem_ok (delim : Char) (hd : supportedDelim delim = true) :
    ∀ (v : FVal), fwf v = true → treeOk (emitElem delim v) = true
  | .prim p, _ => by
    rw [emitElem, treeOk, forestOk, treeOk, forestOk]
    have hc : contentOk (renderPrim delim p) = true := by
      rw [contentOk, (renderPrim_shape delim hd p).1, (renderPrim_shape delim hd p).2]
      rfl
    rw [hc]
    simp
  | .obj [], _ => by
    rw [emitElem, treeOk, forestOk, treeOk, forestOk]
    simp [contentOk]
    decide
  | .obj ((k2, v2) :: es), hv => by
    rw [emitElem, treeOk, emitEntries_ok delim hd ((k2, v2) :: es) (fwf_obj hv).2]
    simp
  | .arr [], _ => by
    rw [emitElem, treeOk, forestOk, treeOk, forestOk]
    simp [contentOk]
    decide
  | .arr (x :: xs), hv => by
    rw [emitElem, treeOk, forestOk, treeOk, List.cons_append,
      contentOk_header hd (x :: xs) (fwf_arr hv), forestOk,
      arrKids_ok delim hd (x :: xs) (fwf_arr hv)]
    simp
termination_by v => (sizeOf v, 0)
/-- Every line of an emitted element block is valid. -/
theorem emitElems_ok (delim : Char) (hd : supportedDelim delim = true) :
    ∀ (xs : List FVal), fwfList xs = true → forestOk (emitElems delim xs) = true
  | [], _ => by rw [emitElems, forestOk]
  | x :: xs, h => by
    obtain ⟨h1, h2⟩ := fwfList_split h
    rw [emitElems, forestOk, emitElem_ok delim hd x h1, emitElems_ok delim hd xs h2]
    rfl
termination_by xs => (sizeOf xs, 0)
/-- Every line of an emitted array body is valid. -/
theorem arrKids_ok (delim : Char) (hd : supportedDelim delim = true) :
    ∀ (xs : List FVal), fwfList xs = true → forestOk (arrKids delim xs) = true
  | xs, h => by
    rw [arrKids]
    cases hsc : allScalar xs with
    | some ps => rw [forestOk]
    | none =>
      cases htab : isTabular xs with
      | some cols =>
        obtain ⟨hcne, hxsne, hrow⟩ := isTabular_spec htab
        have : ∀ (ys : List FVal), (∀ y ∈ ys, rowOk cols y = true) →
            forestOk (ys.map (emitRow delim)) = true := by
          intro ys
          induction ys with
          | nil => intro _; rw [List.map_nil, forestOk]
          | cons y ys ih =>
            intro hys
            rw [List.map_cons, forestOk, emitRow_ok hd y (hys y (by simp)) hcne,
              ih (fun z hz => hys z (by simp [hz]))]
            rfl
        exact this xs hrow
      | none => exact emitElems_ok delim hd xs h
termination_by xs => (sizeOf xs, 1)
end

/-- Every line of the emitted root forest is valid. -/
theorem emitRoot_ok {delim : Char} (hd : supportedDelim delim = true)
    (v : FVal) (hv : fwf v = true) : forestOk (emitRoot delim v) = true := by
  cases v with
  | prim p =>
    rw [emitRoot, forestOk, treeOk, forestOk]
    have hc : contentOk (renderPrim delim p) = true := by
      rw [contentOk, (renderPrim_shape delim hd p).1, (renderPrim_shape delim hd p).2]
      rfl
    rw [hc]
    simp
  | obj kvs =>
    cases kvs with
    | nil =>
      rw [emitRoot, forestOk, treeOk, forestOk]
      simp [contentOk]
      decide
    | cons e es => rw [emitRoot]; exact emitEntries_ok delim hd (e :: es) (fwf_obj hv).2
  | arr xs =>
    cases xs with
    | nil =>
      rw [emitRoot, forestOk, treeOk, forestOk]
      simp [contentOk]
      decide
    | cons x xs2 =>
      rw [emitRoot, forestOk, treeOk, List.cons_append,
        contentOk_header hd (x :: xs2) (fwf_arr hv),
        forestOk, arrKids_ok delim hd (x :: xs2) (fwf_arr hv)]
      simp


/-! ## The decode pipeline on emitted text -/

theorem emitRoot_ne_nil (delim : Char) (v : FVal) : emitRoot delim v ≠ [] := by
  cases v with
  | prim p => rw [emitRoot]; simp
  | obj kvs =>
    cases kvs with
    | nil => rw [emitRoot]; simp
    | cons e es => rw [emitRoot, emitEntries]; simp
  | arr xs =>
    cases xs with
    | nil => rw [emitRoot]; simp
    | cons x xs2 => rw [emitRoot]; simp

theorem flattenForest_ne_nil (d : Nat) (F : Forest) (h : F ≠ []) :
    flattenForest d F ≠ [] := by
  cases F with
  | nil => exact absurd rfl h
  | cons t ts =>
    obtain ⟨c, kids⟩ := t
    rw [flattenForest, flattenTree]
    simp

theorem noNL_replicate_space (m : Nat) : noNL (List.replicate m ' ') = true := by
  rw [noNL, List.all_eq_true]
  intro c hc
  rw [List.eq_of_mem_replicate hc]
  decide

/-- Analysing the rendered text of an emitted forest recovers its
depth-annotated joined lines. -/
theorem analyze_emitted (n : Nat) (hn : 0 < n) (delim : Char)
    (hd : supportedDelim delim = true) (F : FVal) (hfwf : fwf F = true) :
    analyzeLines true n (splitLines (joinLines
        ((dashJoin (flattenForest 0 (emitRoot delim F))).map (renderLine n))))
      = .ok (dashJoin (flattenForest 0 (emitRoot delim F))) := by
  have hok := emitRoot_ok hd F hfwf
  have hlineOk : ∀ p ∈ dashJoin (flattenForest 0 (emitRoot delim F)), lineOk p.2 = true := by
    apply dashJoin_lineOk
    intro p hp
    rcases forestOk_flatten (emitRoot delim F) hok 0 p hp with hm | hc
    · rw [hm]; exact (by decide : lineOk ['-'] = true)
    · exact contentOk_lineOk hc
  have hsplit : splitLines (joinLines
      ((dashJoin (flattenForest 0 (emitRoot delim F))).map (renderLine n)))
      = (dashJoin (flattenForest 0 (emitRoot delim F))).map (renderLine n) := by
    apply splitLines_joinLines
    · have := dashJoin_ne_nil (flattenForest 0 (emitRoot delim F))
        (flattenForest_ne_nil 0 _ (emitRoot_ne_nil delim F))
      simpa using this
    · intro l hl
      obtain ⟨p, hp1, hp2⟩ := List.mem_map.mp hl
      rw [← hp2, renderLine]
      exact noNL_append (noNL_replicate_space _) (lineOk_noNL (hlineOk p hp1))
  rw [hsplit]
  exact analyzeLines_renderLines n hn _ hlineOk

/-- Splitting markers back out of the joined lines recovers the emitted
forest lines. -/
theorem dashSplit_emitted (delim : Char) (hd : supportedDelim delim = true)
    (F : FVal) (hfwf : fwf F = true) :
    dashSplit (dashJoin (flattenForest 0 (emitRoot delim F)))
      = flattenForest 0 (emitRoot delim F) := by
  apply dashSplit_dashJoin
  intro p hp
  rcases forestOk_flatten (emitRoot delim F) (emitRoot_ok hd F hfwf) 0 p hp with hm | hc
  · exact Or.inl hm
  · exact Or.inr (contentOk_noDash hc)

/-- Decoding the encoded text with the inverse options reaches the parsed
form of the emitted folded value; the result is then expanded according to
the folding mode. -/
theorem tryDecode_encode_core (v : JsonValue) (o : EncodeOptions) (hS : SupportedOpts o)
    (F : FVal) (hfwf : fwf F = true)
    (hF : (match effFold o with
           | KeyFoldingMode.safe => foldV o.flatten_depth (applyReplacer o v)
           | KeyFoldingMode.off => foldOffV (applyReplacer o v)) = F) :
    tryDecode (encode v o) (inverseOpts o)
      = (match effFold o with
         | KeyFoldingMode.off => .ok (deflag (pvalOf F))
         | KeyFoldingMode.safe => expandP (pvalOf F)) := by
  obtain ⟨hn, hd, hrep⟩ := hS
  rw [encode, hF, tryDecode]
  have hstrict : (inverseOpts o).strict.getD true = true := rfl
  have hindent : (inverseOpts o).indent.getD 2 = effIndent o := rfl
  have hexp : (inverseOpts o).expand_paths.getD .off
      = (match effFold o with
         | KeyFoldingMode.safe => ExpandPathsMode.safe
         | KeyFoldingMode.off => ExpandPathsMode.off) := rfl
  rw [hstrict, hindent, hexp,
    analyze_emitted (effIndent o) hn (effDelim o) hd F hfwf, exBind_ok,
    dashSplit_emitted (effDelim o) hd F hfwf]
  have hlen : (flattenForest 0 (emitRoot (effDelim o) F)
      ++ ([] : List (Nat × Str))).length
      < (flattenForest 0 (emitRoot (effDelim o) F)).length + 1 := by
    rw [List.append_nil]
    omega
  have hbuild := buildF_flattenForest (emitRoot (effDelim o) F)
    ((flattenForest 0 (emitRoot (effDelim o) F)).length + 1) 0 [] hlen rfl
  rw [List.append_nil] at hbuild
  rw [hbuild, exBind_ok]
  rw [parse_emitRoot (effDelim o) hd F hfwf, exBind_ok]
  cases hm : effFold o with
  | off => rfl
  | safe => rfl

/-! ## Value-level inversion of the trivial fold -/

mutual
theorem deflag_foldOffV : ∀ (v : JsonValue), deflag (pvalOf (foldOffV v)) = scrubV v
  | .prim p => by rw [foldOffV, pvalOf, deflag, scrubV, mapPrims]
  | .arr xs => by rw [foldOffV, pvalOf, deflag, scrubV, mapPrims, deflag_foldOffList xs]
  | .obj kvs => by rw [foldOffV, pvalOf, deflag, scrubV, mapPrims, deflag_foldOffEntries kvs]
theorem deflag_foldOffList : ∀ (xs : List JsonValue),
    deflagList (pvalList (foldOffList xs)) = mapPrimsList scrubPrim xs
  | [] => by rw [foldOffList, pvalList, deflagList, mapPrimsList]
  | x :: xs => by
    rw [foldOffList, pvalList, deflagList, mapPrimsList, deflag_foldOffList xs]
    have := deflag_foldOffV x
    rw [scrubV] at this
    rw [this]
theorem deflag_foldOffEntries : ∀ (kvs : List (Str × JsonValue)),
    deflagEntries (pvalEntries (foldOffEntries kvs)) = mapPrimsEntries scrubPrim kvs
  | [] => by rw [foldOffEntries, pvalEntries, deflagEntries, mapPrimsEntries]
  | (k, v) :: kvs => by
    rw [foldOffEntries, pvalEntries, deflagEntries, mapPrimsEntries,
      deflag_foldOffEntries kvs]
    have := deflag_foldOffV v
    rw [scrubV] at this
    rw [this, pathName]
end

mutual
theorem fwf_foldOffV : ∀ (v : JsonValue), wfV v = true → fwf (foldOffV v) = true
  | .prim p, h => by rw [foldOffV, fwf]; rw [wfV] at h; exact h
  | .arr xs, h => by
    rw [foldOffV, fwf]
    rw [wfV] at h
    exact fwf_foldOffList xs h
  | .obj kvs, h => by
    rw [wfV, Bool.and_eq_true] at h
    rw [foldOffV, fwf, Bool.and_eq_true]
    refine ⟨?_, fwf_foldOffEntries kvs h.2⟩
    have hkeys : (foldOffEntries kvs).map
        (fun e => (pathName e.1, pathFlag e.1))
        = kvs.map (fun e => (e.1, keyNeedsQuote e.1)) := by
      clear h
      induction kvs with
      | nil => rfl
      | cons e kvs ih =>
        obtain ⟨k, v⟩ := e
        rw [foldOffEntries, List.map_cons, List.map_cons, ih, pathName, pathFlag]
    rw [hkeys]
    simp only [decide_eq_true_eq] at h ⊢
    have := h.1
    have hinj : ∀ x ∈ kvs, ∀ y ∈ kvs,
        (fun (e : Str × JsonValue) => (e.1, keyNeedsQuote e.1)) x
          = (fun (e : Str × JsonValue) => (e.1, keyNeedsQuote e.1)) y → x.1 = y.1 := by
      intro x _ y _ hxy
      simpa using congrArg Prod.fst hxy
    have hmapped : (kvs.map (fun e => e.1)).Nodup := this
    exact List.Nodup.of_map Prod.fst
      (by rw [List.map_map]; exact hmapped)
theorem fwf_foldOffList : ∀ (xs : List JsonValue), wfList xs = true →
    fwfList (foldOffList xs) = true
  | [], _ => rfl
  | x :: xs, h => by
    rw [wfList, Bool.and_eq_true] at h
    rw [foldOffList, fwfList, Bool.and_eq_true]
    exact ⟨fwf_foldOffV x h.1, fwf_foldOffList xs h.2⟩
theorem fwf_foldOffEntries : ∀ (kvs : List (Str × JsonValue)), wfEntries kvs = true →
    fwfEntries (foldOffEntries kvs) = true
  | [], _ => rfl
  | (k, v) :: kvs, h => by
    rw [wfEntries, Bool.and_eq_true] at h
    rw [foldOffEntries, fwfEntries, Bool.and_eq_true, Bool.and_eq_true]
    exact ⟨⟨rfl, fwf_foldOffV v h.1⟩, fwf_foldOffEntries kvs h.2⟩
end


/-! ## Paths produced by the key folder -/

theorem ident_noDot {k : Str} (h : isIdentStr k = true) : noDot k = true := by
  rw [noDot, List.all_eq_true]
  intro c hc
  simpa using (identCh_facts (isIdentStr_all h c hc)).2.2.2.2.1

theorem dot_mem_joinDots (k s2 : Str) (ss : List Str) :
    '.' ∈ joinDots (k :: s2 :: ss) := by
  rw [joinDots]
  exact List.mem_append.mpr (Or.inr (by simp))

theorem noDot_joinDots_multi (k s2 : Str) (ss : List Str) :
    noDot (joinDots (k :: s2 :: ss)) = false := by
  rw [noDot]
  exact List.all_eq_false.mpr ⟨'.', dot_mem_joinDots k s2 ss, by decide⟩

/-- The folder only extends the given path, and any extension keeps every
segment fold-safe. -/
theorem foldChain_ext (cap : Option Nat) : ∀ (v : JsonValue) (path : List Str),
    ∃ suffix, (foldChain cap path v).1 = path ++ suffix ∧
      (suffix ≠ [] → (path ++ suffix).all segOk = true)
  | .obj [(k2, v2)], path => by
    rw [foldChain]
    by_cases hg : (path.all segOk && segOk k2 && capOk cap (path.length + 1)) = true
    · rw [if_pos hg]
      obtain ⟨s2, hs1, hs2⟩ := foldChain_ext cap v2 (path ++ [k2])
      refine ⟨k2 :: s2, by rw [hs1, List.append_assoc]; rfl, fun _ => ?_⟩
      cases s2 with
      | nil =>
        simp only [Bool.and_eq_true] at hg
        rw [List.all_append]
        rw [hg.1.1]
        simp [hg.1.2]
      | cons t ts =>
        have := hs2 (by simp)
        rw [List.append_assoc] at this
        exact this
    · rw [if_neg hg]
      exact ⟨[], by rw [List.append_nil], fun h => absurd rfl h⟩
  | .prim p, path => by
    rw [foldChain]
    exact ⟨[], by rw [List.append_nil], fun h => absurd rfl h⟩
  | .arr xs, path => by
    rw [foldChain]
    exact ⟨[], by rw [List.append_nil], fun h => absurd rfl h⟩
  | .obj [], path => by
    rw [foldChain]
    exact ⟨[], by rw [List.append_nil], fun h => absurd rfl h⟩
  | .obj (e :: e2 :: es), path => by
    rw [foldChain]
    exact ⟨[], by rw [List.append_nil], fun h => absurd rfl h⟩
termination_by v => sizeOf v

theorem pathOkB_cases (k : Str) (suffix : List Str)
    (hseg : suffix ≠ [] → (k :: suffix).all segOk = true) :
    pathOkB (k :: suffix) = true := by
  cases suffix with
  | nil => rw [pathOkB]
  | cons s2 ss => rw [pathOkB]; exact hseg (by simp)

/-- The expander splits a folded path's rendered key name back into exactly
its segments. -/
theorem splitSegs_path (k : Str) (suffix : List Str)
    (hseg : suffix ≠ [] → (k :: suffix).all segOk = true) :
    splitSegs (pathName (k :: suffix)) (pathFlag (k :: suffix)) = k :: suffix := by
  cases suffix with
  | nil =>
    rw [pathName, pathFlag, splitSegs]
    by_cases hq : keyNeedsQuote k = true
    · rw [if_pos hq]
    · rw [Bool.not_eq_true] at hq
      rw [hq]
      simp only [Bool.false_eq_true, if_false]
      simp only [keyNeedsQuote, Bool.or_eq_false_iff, Bool.not_eq_false'] at hq
      rw [if_pos (ident_noDot hq.1)]
  | cons s2 ss =>
    have hall := hseg (by simp)
    rw [List.all_eq_true] at hall
    have hid : ∀ x ∈ k :: s2 :: ss, isIdentStr x = true :=
      fun x hx => (segOk_ident (hall x hx)).1
    rw [pathName, pathFlag, splitSegs]
    simp only [Bool.false_eq_true, if_false]
    rw [if_neg (by rw [noDot_joinDots_multi]; simp)]
    have hsplit : splitDots (joinDots (k :: s2 :: ss)) = k :: s2 :: ss :=
      splitDots_joinDots (k :: s2 :: ss) (by simp)
        (fun x hx => ident_noDot (hid x hx))
    rw [hsplit, if_pos ?_]
    rw [List.all_eq_true]
    intro x hx
    have := isIdentStr_ne_nil (hid x hx)
    simpa using this

/-- The key name and flag of a folded path recover its head segment. -/
def headSeg (p : Str × Bool) : Str :=
  match splitSegs p.1 p.2 with
  | [] => []
  | k :: _ => k

theorem headSeg_path (k : Str) (suffix : List Str)
    (hseg : suffix ≠ [] → (k :: suffix).all segOk = true) :
    headSeg (pathName (k :: suffix), pathFlag (k :: suffix)) = k := by
  rw [headSeg]
  simp only []
  rw [splitSegs_path k suffix hseg]

/-! ## Well-formedness of folded values -/

mutual
theorem fwf_foldV (cap : Option Nat) : ∀ (v : JsonValue), wfV v = true →
    fwf (foldV cap v) = true
  | .prim p, h => by
    rw [foldV, fwf]
    rw [wfV] at h
    exact h
  | .arr xs, h => by
    rw [foldV, fwf]
    rw [wfV] at h
    exact fwfList_foldList cap xs h
  | .obj kvs, h => by
    rw [wfV, Bool.and_eq_true] at h
    rw [foldV, fwf, Bool.and_eq_true]
    refine ⟨?_, fwfEntries_foldEntries cap kvs h.2⟩
    simp only [decide_eq_true_eq] at h ⊢
    have hmap : ((foldEntries cap kvs).map
          (fun e => (pathName e.1, pathFlag e.1))).map headSeg
        = kvs.map (fun e => e.1) := by
      clear h
      induction kvs with
      | nil => rw [foldEntries]; rfl
      | cons e kvs ih =>
        obtain ⟨k, v⟩ := e
        rw [foldEntries, List.map_cons, List.map_cons, List.map_cons, ih]
        obtain ⟨suffix, hs1, hs2⟩ := foldChain_ext cap v [k]
        rw [List.cons_append, List.nil_append] at hs1 hs2
        rw [hs1, headSeg_path k suffix hs2]
    exact List.Nodup.of_map headSeg (by rw [hmap]; exact h.1)
termination_by v => (sizeOf v, 0)
theorem fwfList_foldList (cap : Option Nat) : ∀ (xs : List JsonValue),
    wfList xs = true → fwfList (foldList cap xs) = true
  | [], _ => by rw [foldList, fwfList]
  | x :: xs, h => by
    rw [wfList, Bool.and_eq_true] at h
    rw [foldList, fwfList, Bool.and_eq_true]
    exact ⟨fwf_foldV cap x h.1, fwfList_foldList cap xs h.2⟩
termination_by xs => (sizeOf xs, 0)
theorem fwfEntries_foldEntries (cap : Option Nat) : ∀ (kvs : List (Str × JsonValue)),
    wfEntries kvs = true → fwfEntries (foldEntries cap kvs) = true
  | [], _ => by rw [foldEntries, fwfEntries]
  | (k, v) :: kvs, h => by
    rw [wfEntries, Bool.and_eq_true] at h
    rw [foldEntries]
    obtain ⟨suffix, hs1, hs2⟩ := foldChain_ext cap v [k]
    rw [List.cons_append, List.nil_append] at hs1 hs2
    have hpair : foldChain cap [k] v = (k :: suffix, (foldChain cap [k] v).2) := by
      rw [← hs1]
    rw [hpair, fwfEntries, Bool.and_eq_true, Bool.and_eq_true]
    refine ⟨⟨pathOkB_cases k suffix hs2, ?_⟩, fwfEntries_foldEntries cap kvs h.2⟩
    exact foldChain_fwf cap v [k] h.1
termination_by kvs => (sizeOf kvs, 0)
theorem foldChain_fwf (cap : Option Nat) : ∀ (v : JsonValue) (path : List Str),
    wfV v = true → fwf (foldChain cap path v).2 = true
  | .obj [(k2, v2)], path, h => by
    rw [foldChain]
    by_cases hg : (path.all segOk && segOk k2 && capOk cap (path.length + 1)) = true
    · rw [if_pos hg]
      have hv2 : wfV v2 = true := by
        rw [wfV, Bool.and_eq_true, wfEntries, Bool.and_eq_true] at h
        exact h.2.1
      exact foldChain_fwf cap v2 (path ++ [k2]) hv2
    · rw [if_neg hg]
      exact fwf_foldV cap (.obj [(k2, v2)]) h
  | .prim p, path, h => by
    rw [foldChain]
    rw [wfV] at h
    rw [fwf]
    exact h
  | .arr xs, path, h => by
    rw [foldChain]
    rw [wfV] at h
    rw [fwf]
    exact fwfList_foldList cap xs h
  | .obj [], path, h => by
    rw [foldChain]
    rw [fwf, fwfEntries]
    simp
  | .obj (e :: e2 :: es), path, h => by
    rw [foldChain]
    rw [show FVal.obj (foldEntries cap (e :: e2 :: es))
        = foldV cap (.obj (e :: e2 :: es)) from by rw [foldV]]
    exact fwf_foldV cap (.obj (e :: e2 :: es)) h
termination_by v => (sizeOf v, 1)
end


/-! ## Path expansion inverts key folding -/

theorem lookupEntry_append_ne (acc : List (Str × JsonValue)) (x k : Str) (w : JsonValue)
    (h : lookupEntry acc x = none) (hne : ¬x = k) :
    lookupEntry (acc ++ [(k, w)]) x = none := by
  induction acc with
  | nil =>
    rw [List.nil_append, lookupEntry, if_neg (fun hkx => hne (by rw [hkx])), lookupEntry]
  | cons e es ih =>
    obtain ⟨k2, v2⟩ := e
    rw [lookupEntry] at h
    by_cases hk2 : k2 = x
    · rw [if_pos hk2] at h
      exact absurd h (by simp)
    · rw [if_neg hk2] at h
      rw [List.cons_append, lookupEntry, if_neg hk2]
      exact ih h

theorem insertPath_fresh (acc : List (Str × JsonValue)) (k : Str) (ks : List Str)
    (u : JsonValue) (h : lookupEntry acc k = none) :
    insertPath acc (k :: ks) u = .ok (acc ++ [(k, nestPath ks u)]) := by
  cases ks with
  | nil =>
    rw [nestPath, insertPath, h]
  | cons k2 ks2 =>
    rw [insertPath, h]

mutual
theorem expand_foldV (cap : Option Nat) : ∀ (v : JsonValue), wfV v = true →
    expandP (pvalOf (foldV cap v)) = .ok (scrubV v)
  | .prim p, _ => by
    rw [foldV, pvalOf, expandP, scrubV, mapPrims]
  | .arr xs, h => by
    rw [wfV] at h
    rw [foldV, pvalOf, expandP, expand_foldList cap xs h, exBind_ok, scrubV, mapPrims]
  | .obj kvs, h => by
    rw [wfV, Bool.and_eq_true] at h
    rw [foldV, pvalOf, expandP]
    have hass := assemble_fold cap kvs [] h.2 (fun p _ => by rw [lookupEntry])
      (by simpa using h.1)
    cases hE : expandEntries (pvalEntries (foldEntries cap kvs)) with
    | error e =>
      rw [hE, exBind_error] at hass
      exact absurd hass (by simp)
    | ok ws =>
      rw [hE, exBind_ok] at hass
      rw [exBind_ok, hass, exBind_ok, List.nil_append]
      rfl
termination_by v => (sizeOf v, 0)
theorem expand_foldList (cap : Option Nat) : ∀ (xs : List JsonValue), wfList xs = true →
    expandList (pvalList (foldList cap xs)) = .ok (mapPrimsList scrubPrim xs)
  | [], _ => by rw [foldList, pvalList, expandList, mapPrimsList]
  | x :: xs, h => by
    rw [wfList, Bool.and_eq_true] at h
    rw [foldList, pvalList, expandList, expand_foldV cap x h.1, exBind_ok,
      expand_foldList cap xs h.2, exBind_ok, mapPrimsList]
    rfl
termination_by xs => (sizeOf xs, 0)
theorem expand_foldChain (cap : Option Nat) : ∀ (v : JsonValue) (path : List Str),
    wfV v = true →
    ∃ suffix w u, foldChain cap path v = (path ++ suffix, w)
      ∧ expandP (pvalOf w) = .ok u ∧ nestPath suffix u = scrubV v
  | .prim p, path, _ => by
    rw [foldChain]
    exact ⟨[], .prim p, .prim (scrubPrim p), by rw [List.append_nil],
      by rw [pvalOf, expandP], by rw [nestPath, scrubV, mapPrims]⟩
  | .arr xs, path, h => by
    rw [foldChain]
    refine ⟨[], .arr (foldList cap xs), scrubV (.arr xs), by rw [List.append_nil], ?_,
      by rw [nestPath]⟩
    have hv := expand_foldV cap (.arr xs) h
    rw [foldV] at hv
    exact hv
  | .obj [], path, _ => by
    rw [foldChain]
    refine ⟨[], .obj [], .obj [], by rw [List.append_nil], ?_,
      by rw [nestPath, scrubV, mapPrims, mapPrimsEntries]⟩
    rw [pvalOf, pvalEntries, expandP, expandEntries, exBind_ok, assembleObjAux, exBind_ok]
  | .obj [(k2, v2)], path, h => by
    by_cases hg : (path.all segOk && segOk k2 && capOk cap (path.length + 1)) = true
    · have hv2 : wfV v2 = true := by
        rw [wfV, Bool.and_eq_true, wfEntries, Bool.and_eq_true] at h
        exact h.2.1
      obtain ⟨s2, w, u, hf, he, hn⟩ := expand_foldChain cap v2 (path ++ [k2]) hv2
      rw [foldChain, if_pos hg]
      refine ⟨k2 :: s2, w, u, ?_, he, ?_⟩
      · rw [hf, List.append_assoc]
        rfl
      · rw [nestPath, hn]
        rfl
    · rw [foldChain, if_neg hg]
      exact ⟨[], foldV cap (.obj [(k2, v2)]), scrubV (.obj [(k2, v2)]),
        by rw [List.append_nil], expand_foldV cap (.obj [(k2, v2)]) h, by rw [nestPath]⟩
  | .obj (e :: e2 :: es), path, h => by
    rw [foldChain]
    refine ⟨[], .obj (foldEntries cap (e :: e2 :: es)), scrubV (.obj (e :: e2 :: es)),
      by rw [List.append_nil], ?_, by rw [nestPath]⟩
    have hv := expand_foldV cap (.obj (e :: e2 :: es)) h
    rw [foldV] at hv
    exact hv
termination_by v => (sizeOf v, 1)
theorem assemble_fold (cap : Option Nat) : ∀ (kvs acc : List (Str × JsonValue)),
    wfEntries kvs = true →
    (∀ p ∈ kvs, lookupEntry acc p.1 = none) →
    ((kvs.map (fun e => e.1)).Nodup) →
    exBind (expandEntries (pvalEntries (foldEntries cap kvs)))
        (fun ws => assembleObjAux acc ws)
      = .ok (acc ++ mapPrimsEntries scrubPrim kvs)
  | [], acc, _, _, _ => by
    rw [foldEntries, pvalEntries, expandEntries, exBind_ok, assembleObjAux,
      mapPrimsEntries, List.append_nil]
  | (k, v) :: kvs, acc, h, hlook, hnodup => by
    rw [wfEntries, Bool.and_eq_true] at h
    obtain ⟨suffix, w, u, hf, he, hn⟩ := expand_foldChain cap v [k] h.1
    rw [List.cons_append, List.nil_append] at hf
    obtain ⟨suffix2, hs1, hs2⟩ := foldChain_ext cap v [k]
    rw [List.cons_append, List.nil_append] at hs1 hs2
    have hsuff : suffix2 = suffix := by
      rw [hf] at hs1
      simpa using hs1.symm
    rw [hsuff] at hs2
    have hmemk : k ∉ kvs.map (fun e => e.1) := by
      rw [List.map_cons] at hnodup
      exact (List.nodup_cons.mp hnodup).1
    have hnodup2 : (kvs.map (fun e => e.1)).Nodup := by
      rw [List.map_cons] at hnodup
      exact (List.nodup_cons.mp hnodup).2
    have hinsert : insertPath acc (splitSegs (pathName (k :: suffix))
          (pathFlag (k :: suffix))) u
        = .ok (acc ++ [(k, nestPath suffix u)]) := by
      rw [splitSegs_path k suffix hs2]
      exact insertPath_fresh acc k suffix u (hlook (k, v) (by simp))
    have hlook2 : ∀ p ∈ kvs, lookupEntry (acc ++ [(k, scrubV v)]) p.1 = none := by
      intro p hp
      apply lookupEntry_append_ne acc p.1 k (scrubV v) (hlook p (by simp [hp]))
      intro heq
      exact hmemk (heq ▸ List.mem_map.mpr ⟨p, hp, rfl⟩)
    rw [foldEntries, hf, pvalEntries, expandEntries, he, exBind_ok, exBind_exBind]
    simp only [exBind_ok, assembleObjAux, hinsert, hn]
    rw [assemble_fold cap kvs (acc ++ [(k, scrubV v)]) h.2 hlook2 hnodup2,
      mapPrimsEntries, List.append_assoc, List.singleton_append]
    rfl
termination_by kvs => (sizeOf kvs, 2)
end


/-! ## The round-trip theorem and first API claims -/

/-- Decoding the encoded text with the inverse options recovers the value
up to NaN-to-null substitution. -/
theorem tryDecode_encode (v : JsonValue) (o : EncodeOptions) (hS : SupportedOpts o)
    (hwf : wfV v = true) :
    tryDecode (encode v o) (inverseOpts o) = .ok (scrubV v) := by
  have hrep : applyReplacer o v = v := by rw [applyReplacer, hS.2.2]
  cases hm : effFold o with
  | off =>
    have hcore := tryDecode_encode_core v o hS (foldOffV v)
      (fwf_foldOffV v hwf) (by rw [hm, hrep])
    rw [hm] at hcore
    rw [hcore, deflag_foldOffV v]
  | safe =>
    have hcore := tryDecode_encode_core v o hS (foldV o.flatten_depth v)
      (fwf_foldV o.flatten_depth v hwf) (by rw [hm, hrep])
    rw [hm] at hcore
    rw [hcore, expand_foldV o.flatten_depth v hwf]

/-- C1: round-trip — for every well-formed JSON value `V` and every
supported option record `O`, `decode (encode V O) (inverse O)` equals `V`
under JSON-value equality modulo NaN-to-null substitution (`scrubV`),
where `inverse O` pairs `key_folding Safe` with `expand_paths Safe` and
`Off` with `Off`; in particular with `key_folding Safe` and `expand_paths
Safe` every well-formed value (dotted keys or not) is recovered. -/
theorem claim_C1_roundtrip (v : JsonValue) (o : EncodeOptions)
    (hS : SupportedOpts o) (hwf : wfV v = true) :
    decode (encode v o) (inverseOpts o) = scrubV v := by
  rw [decode, tryDecode_encode v o hS hwf]

theorem claim_C1_roundtrip_witness :
    SupportedOpts ⟨some 2, none, some .safe, none, none⟩
    ∧ wfV (.obj [("user".data, .obj [("name".data, .prim (.str "ada".data)),
        ("tags".data, .arr [.prim (.num (.fin false 1 [])), .prim (.bool true)])])]) = true
    ∧ decode (encode (.obj [("user".data, .obj [("name".data, .prim (.str "ada".data)),
          ("tags".data, .arr [.prim (.num (.fin false 1 [])), .prim (.bool true)])])])
          ⟨some 2, none, some .safe, none, none⟩)
        (inverseOpts ⟨some 2, none, some .safe, none, none⟩)
      = scrubV (.obj [("user".data, .obj [("name".data, .prim (.str "ada".data)),
          ("tags".data, .arr [.prim (.num (.fin false 1 [])), .prim (.bool true)])])]) :=
  ⟨⟨by decide, by decide, rfl⟩, by decide,
    claim_C1_roundtrip _ _ ⟨by decide, by decide, rfl⟩ (by decide)⟩

/-- C7: `decode` is infallible — for every input text and option record it
returns a value: the `tryDecode` result when parsing succeeds, and a
diagnostic error object otherwise; `tryDecode` is the fallible variant. -/
theorem claim_C7_decode_total (text : Str) (o : DecodeOptions) :
    (∃ v, tryDecode text o = .ok v ∧ decode text o = v) ∨
    (∃ e, tryDecode text o = .error e
      ∧ decode text o = .obj [("error".data, .prim (.str (describeErr e)))]) := by
  cases h : tryDecode text o with
  | ok v => exact Or.inl ⟨v, rfl, by rw [decode, h]⟩
  | error e => exact Or.inr ⟨e, rfl, by rw [decode, h]⟩

/-- C2: strict mode rejects tabs — any text with a tab in some line's
leading whitespace fails to decode under `strict = true` with an
`IndentError`. -/
theorem claim_C2_strict_tabs (text : Str) (o : DecodeOptions)
    (hstrict : o.strict = some true)
    (htab : ∃ l ∈ splitLines text, hasTabIndent l = true) :
    ∃ e, tryDecode text o = .error e ∧ e.isIndent = true := by
  obtain ⟨e, he, hind⟩ := analyzeLines_tab_error (o.indent.getD 2) (splitLines text) htab
  refine ⟨e, ?_, hind⟩
  rw [tryDecode, hstrict, Option.getD_some, he, exBind_error]

theorem claim_C2_strict_tabs_witness :
    (⟨none, some true, none⟩ : DecodeOptions).strict = some true
    ∧ (∃ l ∈ splitLines ('\t' :: 'a' :: ':' :: ' ' :: '1' :: []), hasTabIndent l = true)
    ∧ ∃ e, tryDecode ('\t' :: 'a' :: ':' :: ' ' :: '1' :: [])
        ⟨none, some true, none⟩ = .error e ∧ e.isIndent = true :=
  ⟨rfl, by decide, claim_C2_strict_tabs _ _ rfl (by decide)⟩


/-! ## Literal dotted keys (expansion of unfolded text) -/

theorem dotted_key_quoted {k : Str} (hdot : '.' ∈ k) : keyNeedsQuote k = true := by
  rw [keyNeedsQuote, Bool.or_eq_true]
  left
  suffices h : isIdentStr k = false by rw [h]; rfl
  cases k with
  | nil => rfl
  | cons c cs =>
    rw [isIdentStr]
    rcases List.mem_cons.mp hdot with rfl | hm
    · rw [show isIdentStart '.' = false from by decide]
      rfl
    · apply Bool.and_eq_false_iff.mpr
      right
      exact List.all_eq_false.mpr ⟨'.', hm, by decide⟩

mutual
theorem expandOff_V : ∀ (v : JsonValue), wfV v = true →
    expandP (pvalOf (foldOffV v)) = .ok (scrubV v)
  | .prim p, _ => by
    rw [foldOffV, pvalOf, expandP]
    rfl
  | .arr xs, h => by
    rw [wfV] at h
    rw [foldOffV, pvalOf, expandP, expandOff_List xs h, exBind_ok]
    rfl
  | .obj kvs, h => by
    rw [wfV, Bool.and_eq_true] at h
    rw [foldOffV, pvalOf, expandP]
    have hass := assembleOff kvs [] h.2 (fun p _ => by rw [lookupEntry])
      (by simpa using h.1)
    cases hE : expandEntries (pvalEntries (foldOffEntries kvs)) with
    | error e =>
      rw [hE, exBind_error] at hass
      exact absurd hass (by simp)
    | ok ws =>
      rw [hE, exBind_ok] at hass
      rw [exBind_ok, hass, exBind_ok, List.nil_append]
      rfl
termination_by v => (sizeOf v, 0)
theorem expandOff_List : ∀ (xs : List JsonValue), wfList xs = true →
    expandList (pvalList (foldOffList xs)) = .ok (mapPrimsList scrubPrim xs)
  | [], _ => by rw [foldOffList, pvalList, expandList, mapPrimsList]
  | x :: xs, h => by
    rw [wfList, Bool.and_eq_true] at h
    rw [foldOffList, pvalList, expandList, expandOff_V x h.1, exBind_ok,
      expandOff_List xs h.2, exBind_ok, mapPrimsList]
    rfl
termination_by xs => (sizeOf xs, 0)
theorem assembleOff : ∀ (kvs acc : List (Str × JsonValue)), wfEntries kvs = true →
    (∀ p ∈ kvs, lookupEntry acc p.1 = none) →
    ((kvs.map (fun e => e.1)).Nodup) →
    exBind (expandEntries (pvalEntries (foldOffEntries kvs)))
        (fun ws => assembleObjAux acc ws)
      = .ok (acc ++ mapPrimsEntries scrubPrim kvs)
  | [], acc, _, _, _ => by
    rw [foldOffEntries, pvalEntries, expandEntries, exBind_ok, assembleObjAux,
      mapPrimsEntries, List.append_nil]
  | (k, v) :: kvs, acc, h, hlook, hnodup => by
    rw [wfEntries, Bool.and_eq_true] at h
    have hmemk : k ∉ kvs.map (fun e => e.1) := by
      rw [List.map_cons] at hnodup
      exact (List.nodup_cons.mp hnodup).1
    have hnodup2 : (kvs.map (fun e => e.1)).Nodup := by
      rw [List.map_cons] at hnodup
      exact (List.nodup_cons.mp hnodup).2
    have hinsert : insertPath acc (splitSegs (pathName [k]) (pathFlag [k])) (scrubV v)
        = .ok (acc ++ [(k, scrubV v)]) := by
      rw [splitSegs_path k [] (fun hc => absurd rfl hc)]
      have hi := insertPath_fresh acc k [] (scrubV v) (hlook (k, v) (by simp))
      rw [nestPath] at hi
      exact hi
    have hlook2 : ∀ p ∈ kvs, lookupEntry (acc ++ [(k, scrubV v)]) p.1 = none := by
      intro p hp
      apply lookupEntry_append_ne acc p.1 k (scrubV v) (hlook p (by simp [hp]))
      intro heq
      exact hmemk (heq ▸ List.mem_map.mpr ⟨p, hp, rfl⟩)
    rw [foldOffEntries, pvalEntries, expandEntries, expandOff_V v h.1, exBind_ok,
      exBind_exBind]
    simp only [exBind_ok, assembleObjAux, hinsert]
    rw [assembleOff kvs (acc ++ [(k, scrubV v)]) h.2 hlook2 hnodup2,
      mapPrimsEntries, List.append_assoc, List.singleton_append]
    rfl
termination_by kvs => (sizeOf kvs, 1)
end

/-- The pipeline theorem for any expansion mode on the decode side. -/
theorem tryDecode_encode_gen (v : JsonValue) (o : EncodeOptions) (hS : SupportedOpts o)
    (F : FVal) (hfwf : fwf F = true)
    (hF : (match effFold o with
           | KeyFoldingMode.safe => foldV o.flatten_depth (applyReplacer o v)
           | KeyFoldingMode.off => foldOffV (applyReplacer o v)) = F)
    (m : ExpandPathsMode) :
    tryDecode (encode v o) ⟨some (effIndent o), some true, some m⟩
      = (match m with
         | ExpandPathsMode.off => .ok (deflag (pvalOf F))
         | ExpandPathsMode.safe => expandP (pvalOf F)) := by
  obtain ⟨hn, hd, hrep⟩ := hS
  rw [encode, hF, tryDecode]
  have hstrict : (⟨some (effIndent o), some true, some m⟩ : DecodeOptions).strict.getD true
      = true := rfl
  have hindent : (⟨some (effIndent o), some true, some m⟩ : DecodeOptions).indent.getD 2
      = effIndent o := rfl
  have hexp : (⟨some (effIndent o), some true, some m⟩ : DecodeOptions).expand_paths.getD .off
      = m := rfl
  rw [hstrict, hindent, hexp,
    analyze_emitted (effIndent o) hn (effDelim o) hd F hfwf, exBind_ok,
    dashSplit_emitted (effDelim o) hd F hfwf]
  have hlen : (flattenForest 0 (emitRoot (effDelim o) F)
      ++ ([] : List (Nat × Str))).length
      < (flattenForest 0 (emitRoot (effDelim o) F)).length + 1 := by
    rw [List.append_nil]
    omega
  have hbuild := buildF_flattenForest (emitRoot (effDelim o) F)
    ((flattenForest 0 (emitRoot (effDelim o) F)).length + 1) 0 [] hlen rfl
  rw [List.append_nil] at hbuild
  rw [hbuild, exBind_ok]
  rw [parse_emitRoot (effDelim o) hd F hfwf, exBind_ok]

/-- C8: literal dotted keys — a key containing a literal `.` is emitted
quoted, the expander never splits a quoted key, and decoding text encoded
without folding recovers the object (its dotted keys intact) whether
`expand_paths` is `Off` or `Safe`. -/
theorem claim_C8_literal_dotted_keys (k : Str) (w : JsonValue)
    (kvs : List (Str × JsonValue)) (hdot : '.' ∈ k) (hmem : (k, w) ∈ kvs)
    (o : EncodeOptions) (hS : SupportedOpts o)
    (hfold : effFold o = .off) (hwf : wfV (.obj kvs) = true) :
    renderKey k = renderQuoted k
    ∧ splitSegs k (keyNeedsQuote k) = [k]
    ∧ tryDecode (encode (.obj kvs) o) ⟨some (effIndent o), some true, some .off⟩
        = .ok (scrubV (.obj kvs))
    ∧ tryDecode (encode (.obj kvs) o) ⟨some (effIndent o), some true, some .safe⟩
        = .ok (scrubV (.obj kvs)) := by
  have hq := dotted_key_quoted hdot
  refine ⟨by rw [renderKey, if_pos hq], by rw [splitSegs, if_pos hq], ?_, ?_⟩
  · have hgen := tryDecode_encode_gen (.obj kvs) o hS (foldOffV (.obj kvs))
      (fwf_foldOffV _ hwf)
      (by rw [hfold, applyReplacer, hS.2.2]) ExpandPathsMode.off
    rw [hgen, deflag_foldOffV]
  · have hgen := tryDecode_encode_gen (.obj kvs) o hS (foldOffV (.obj kvs))
      (fwf_foldOffV _ hwf)
      (by rw [hfold, applyReplacer, hS.2.2]) ExpandPathsMode.safe
    rw [hgen, expandOff_V _ hwf]

theorem claim_C8_literal_dotted_keys_witness :
    ('.' ∈ "a.b".data
      ∧ (("a.b".data, JsonValue.prim (.str "x".data))
          ∈ [("a.b".data, JsonValue.prim (.str "x".data))]
            : Prop)
      ∧ SupportedOpts ⟨some 2, none, none, none, none⟩
      ∧ effFold ⟨some 2, none, none, none, none⟩ = .off
      ∧ wfV (.obj [("a.b".data, JsonValue.prim (.str "x".data))]) = true)
    ∧ (renderKey "a.b".data = renderQuoted "a.b".data
      ∧ splitSegs "a.b".data (keyNeedsQuote "a.b".data) = ["a.b".data]
      ∧ tryDecode (encode (.obj [("a.b".data, JsonValue.prim (.str "x".data))])
            ⟨some 2, none, none, none, none⟩)
          ⟨some 2, some true, some .off⟩
          = .ok (scrubV (.obj [("a.b".data, JsonValue.prim (.str "x".data))]))
      ∧ tryDecode (encode (.obj [("a.b".data, JsonValue.prim (.str "x".data))])
            ⟨some 2, none, none, none, none⟩)
          ⟨some 2, some true, some .safe⟩
          = .ok (scrubV (.obj [("a.b".data, JsonValue.prim (.str "x".data))]))) :=
  ⟨⟨by decide, List.mem_singleton.mpr rfl, ⟨by decide, by decide, rfl⟩, rfl, by decide⟩,
    claim_C8_literal_dotted_keys _ _ _ (by decide) (List.mem_singleton.mpr rfl) _
      ⟨by decide, by decide, rfl⟩ rfl (by decide)⟩


/-! ## No non-finite number survives decoding (§3, §9) -/

/-- Finiteness of a scalar's number payload. -/
def primFinite : Prim → Bool
  | .num x => x.finite
  | _ => true

mutual
/-- Finiteness of every scalar of a parsed value. -/
def pvFinite : PValue → Bool
  | .prim p => primFinite p
  | .arr xs => pvListFinite xs
  | .obj kvs => pvEntriesFinite kvs
def pvListFinite : List PValue → Bool
  | [] => true
  | x :: xs => pvFinite x && pvListFinite xs
def pvEntriesFinite : List (Str × Bool × PValue) → Bool
  | [] => true
  | (_, _, v) :: es => pvFinite v && pvEntriesFinite es
end

/-- A fallible result whose success value satisfies the predicate. -/
def okAll {a : Type} (P : a → Bool) : Except DErr a → Bool
  | .error _ => true
  | .ok v => P v

theorem okAll_ok {a : Type} {P : a → Bool} {v : a}
    (h : okAll P (.ok v : Except DErr a) = true) : P v = true := h

theorem okAll_of_ok {a : Type} {P : a → Bool} {v : a} (h : P v = true) :
    okAll P (.ok v : Except DErr a) = true := h

theorem okAll_exBind {a b : Type} (P : b → Bool) (Q : a → Bool)
    (x : Except DErr a) (f : a → Except DErr b)
    (hx : okAll Q x = true) (hf : ∀ v, Q v = true → okAll P (f v) = true) :
    okAll P (exBind x f) = true := by
  cases x with
  | error e => rfl
  | ok v => exact hf v hx

theorem normF64_finite (neg : Bool) (ip : Nat) (fr : List Nat) :
    (normF64 neg ip fr).finite = true := by
  rw [normF64]
  split <;> rfl

theorem mkF64_finite (neg : Bool) (ints fracs : List Nat) (ex : Int) :
    (mkF64 neg ints fracs ex).finite = true := by
  rw [mkF64]
  split
  · exact normF64_finite _ _ _
  · simp only []
    split
    · exact normF64_finite _ _ _
    · split
      · exact normF64_finite _ _ _
      · exact normF64_finite _ _ _

theorem scanUnsigned_finite (neg : Bool) (s : Str) :
    ∀ x, scanUnsigned neg s = some x → x.finite = true := by
  intro x h
  rw [scanUnsigned] at h
  split at h
  · exact absurd h (by simp)
  · split at h
    · exact absurd h (by simp)
    · split at h
      · exact absurd h (by simp)
      · split at h
        · exact absurd h (by simp)
        · split at h
          · injection h with h2
            rw [← h2]
            exact mkF64_finite _ _ _ _
          · exact absurd h (by simp)

theorem scanNumber_finite (s : Str) :
    ∀ x, scanNumber s = some x → x.finite = true := by
  intro x h
  rw [scanNumber.eq_def] at h
  split at h
  · split at h
    · exact scanUnsigned_finite _ _ x h
    · exact scanUnsigned_finite _ _ x h
  · exact scanUnsigned_finite _ _ x h

theorem scanPrimTok_finite (tok : Str) : primFinite (scanPrimTok tok) = true := by
  rw [scanPrimTok]
  split
  · rfl
  · split
    · rfl
    · split
      · rfl
      · split
        · rw [primFinite]
          exact scanNumber_finite tok _ (by assumption)
        · rfl

theorem finite_parseCellPrim (tok : Str) : okAll primFinite (parseCellPrim tok) = true := by
  rw [parseCellPrim.eq_def]
  split
  · rfl
  · split
    · cases hq : scanQuotedBody _ with
      | none => rw [optCase_none]; rfl
      | some p =>
        rw [optCase_some]
        split
        · rfl
        · rfl
    · exact okAll_of_ok (scanPrimTok_finite _)

theorem finite_parseCells : ∀ (ts : List Str),
    okAll (fun ps => ps.all primFinite) (parseCells ts) = true
  | [] => rfl
  | t :: ts => by
    rw [parseCells]
    apply okAll_exBind _ primFinite _ _ (finite_parseCellPrim t)
    intro p hp
    apply okAll_exBind _ (fun ps => ps.all primFinite) _ _ (finite_parseCells ts)
    intro ps hps
    apply okAll_of_ok
    rw [List.all_cons, hp, hps]
    rfl

theorem finite_parseInlineVal (tok : Str) : okAll pvFinite (parseInlineVal tok) = true := by
  rw [parseInlineVal.eq_def]
  split
  · rfl
  · split
    · cases hq : scanQuotedBody _ with
      | none => rw [optCase_none]; rfl
      | some p =>
        rw [optCase_some]
        split
        · rfl
        · rfl
    · split
      · rfl
      · split
        · rfl
        · exact okAll_of_ok (scanPrimTok_finite _)

theorem finite_checkEntries (es : List (Str × Bool × PValue))
    (h : pvEntriesFinite es = true) : okAll pvFinite (checkEntries es) = true := by
  rw [checkEntries]
  split
  · exact okAll_of_ok h
  · rfl

theorem finite_parseRow (delim : Char) (cols : List (Str × Bool)) (t : LTree) :
    okAll pvFinite (parseRow delim cols t) = true := by
  obtain ⟨c, kids⟩ := t
  rw [parseRow]
  split
  · apply okAll_exBind _ (fun ps => ps.all primFinite) _ _ (finite_parseCells _)
    intro ps hps
    split
    · apply okAll_of_ok
      rw [pvFinite]
      clear * - hps
      induction ps generalizing cols with
      | nil => rw [List.zipWith_nil_right]; rfl
      | cons p ps ih =>
        cases cols with
        | nil => rw [List.zipWith_nil_left]; rfl
        | cons kq cols =>
          rw [List.all_cons, Bool.and_eq_true] at hps
          rw [List.zipWith_cons_cons, pvEntriesFinite, pvFinite, hps.1,
            ih cols hps.2]
          rfl
    · rfl
  · rfl

theorem finite_parseRows (delim : Char) (cols : List (Str × Bool)) :
    ∀ (ts : Forest), okAll pvListFinite (parseRows delim cols ts) = true
  | [] => rfl
  | t :: ts => by
    rw [parseRows]
    apply okAll_exBind _ pvFinite _ _ (finite_parseRow delim cols t)
    intro v hv
    apply okAll_exBind _ pvListFinite _ _ (finite_parseRows delim cols ts)
    intro vs hvs
    apply okAll_of_ok
    rw [pvListFinite, hv, hvs]
    rfl


theorem okAll_true {a : Type} (x : Except DErr a) : okAll (fun _ => true) x = true := by
  cases x <;> rfl

theorem pvListFinite_prims (ps : List Prim) (h : ps.all primFinite = true) :
    pvListFinite (ps.map PValue.prim) = true := by
  induction ps with
  | nil => rfl
  | cons p ps ih =>
    rw [List.all_cons, Bool.and_eq_true] at h
    rw [List.map_cons, pvListFinite, pvFinite, h.1, ih h.2]
    rfl

mutual
theorem finite_parseEntryNode : ∀ (t : LTree),
    okAll (fun e => pvFinite e.2.2) (parseEntryNode t) = true
  | .node c kids => by
    rw [parseEntryNode.eq_def]
    simp only []
    split
    · rfl
    · split
      · cases hq : scanQuotedBody _ with
        | none => rw [optCase_none]; rfl
        | some p =>
          rw [optCase_some]
          exact finite_parseEntryRest p.1 true p.2 kids
      · split
        · rfl
        · exact finite_parseEntryRest _ false _ kids
termination_by t => (sizeOf t, 0)
theorem finite_parseEntryRest (k : Str) (flag : Bool) : ∀ (rest : Str) (kids : Forest),
    okAll (fun e => pvFinite e.2.2) (parseEntryRest k flag rest kids) = true
  | rest, kids => by
    rw [parseEntryRest.eq_def]
    split
    · rfl
    · split
      · split
        · split
          · rfl
          · apply okAll_exBind _ pvEntriesFinite _ _ (finite_parseEntries kids)
            intro es hes
            apply okAll_exBind _ pvFinite _ _ (finite_checkEntries es hes)
            intro v hv
            exact okAll_of_ok hv
        · split
          · split
            · apply okAll_exBind _ pvFinite _ _ (finite_parseInlineVal _)
              intro v hv
              exact okAll_of_ok hv
            · rfl
          · rfl
      · split
        · apply okAll_exBind _ (fun _ => true) _ _ (okAll_true _)
          intro hdr _
          apply okAll_exBind _ pvFinite _ _ (finite_parseArrayBody hdr kids)
          intro v hv
          exact okAll_of_ok hv
        · rfl
termination_by rest kids => (sizeOf kids, 3)
theorem finite_parseEntries : ∀ (ts : Forest),
    okAll pvEntriesFinite (parseEntries ts) = true
  | [] => by rw [parseEntries]; rfl
  | t :: ts => by
    rw [parseEntries]
    apply okAll_exBind _ (fun e => pvFinite e.2.2) _ _ (finite_parseEntryNode t)
    intro e he
    apply okAll_exBind _ pvEntriesFinite _ _ (finite_parseEntries ts)
    intro es hes
    apply okAll_of_ok
    obtain ⟨k, q, v⟩ := e
    rw [pvEntriesFinite]
    rw [show pvFinite (k, q, v).2.2 = true from he, hes]
    rfl
termination_by ts => (sizeOf ts, 2)
theorem finite_parseElemNode : ∀ (t : LTree), okAll pvFinite (parseElemNode t) = true
  | .node c kids => by
    rw [parseElemNode]
    split
    · exact finite_parseElemBody kids
    · rfl
termination_by t => (sizeOf t, 0)
theorem finite_parseElemBody : ∀ (ts : Forest), okAll pvFinite (parseElemBody ts) = true
  | [] => by rw [parseElemBody]; rfl
  | .node [] kids :: ts => by
    rw [parseElemBody.eq_def]
    rfl
  | .node (ch :: r) kids :: ts => by
    rw [parseElemBody.eq_def]
    simp only []
    split
    · split
      · rfl
      · rfl
    · split
      · split
        · apply okAll_exBind _ (fun _ => true) _ _ (okAll_true _)
          intro hdr _
          exact finite_parseArrayBody hdr ts
        · rfl
      · split
        · cases hq : scanQuotedBody _ with
          | none => rw [optCase_none]; rfl
          | some p =>
            rw [optCase_some]
            split
            · split
              · rfl
              · rfl
            · apply okAll_exBind _ pvEntriesFinite _ _
                (finite_parseEntries (LTree.node (ch :: r) kids :: ts))
              intro es hes
              exact finite_checkEntries es hes
        · split
          · split
            · exact finite_parseInlineVal _
            · rfl
          · apply okAll_exBind _ pvEntriesFinite _ _
              (finite_parseEntries (LTree.node (ch :: r) kids :: ts))
            intro es hes
            exact finite_checkEntries es hes
termination_by ts => (sizeOf ts, 3)
theorem finite_parseElems : ∀ (ts : Forest), okAll pvListFinite (parseElems ts) = true
  | [] => by rw [parseElems]; rfl
  | t :: ts => by
    rw [parseElems]
    apply okAll_exBind _ pvFinite _ _ (finite_parseElemNode t)
    intro v hv
    apply okAll_exBind _ pvListFinite _ _ (finite_parseElems ts)
    intro vs hvs
    apply okAll_of_ok
    rw [pvListFinite, hv, hvs]
    rfl
termination_by ts => (sizeOf ts, 1)
theorem finite_parseArrayBody : ∀ (hdr : ArrHeader) (body : Forest),
    okAll pvFinite (parseArrayBody hdr body) = true
  | hdr, body => by
    rw [parseArrayBody]
    split
    · split
      · apply okAll_exBind _ (fun ps => ps.all primFinite) _ _ (finite_parseCells _)
        intro ps hps
        split
        · apply okAll_of_ok
          rw [pvFinite]
          exact pvListFinite_prims ps hps
        · rfl
      · rfl
    · split
      · split
        · apply okAll_exBind _ pvListFinite _ _ (finite_parseRows _ _ body)
          intro rows hrows
          apply okAll_of_ok
          rw [pvFinite]
          exact hrows
        · rfl
      · split
        · apply okAll_exBind _ pvListFinite _ _ (finite_parseElems body)
          intro es hes
          apply okAll_of_ok
          rw [pvFinite]
          exact hes
        · rfl
termination_by hdr body => (sizeOf body, 2)
end

theorem finite_parseRoot : ∀ (F : Forest), okAll pvFinite (parseRoot F) = true
  | [] => rfl
  | [.node c kids] => by
    rw [parseRoot.eq_def]
    simp only []
    split
    · rfl
    · split
      · split
        · rfl
        · rfl
      · split
        · apply okAll_exBind _ (fun _ => true) _ _ (okAll_true _)
          intro hdr _
          exact finite_parseArrayBody hdr kids
        · split
          · cases hq : scanQuotedBody _ with
            | none => rw [optCase_none]; rfl
            | some p =>
              rw [optCase_some]
              split
              · split
                · rfl
                · rfl
              · apply okAll_exBind _ pvEntriesFinite _ _ (finite_parseEntries _)
                intro es hes
                exact finite_checkEntries es hes
          · split
            · split
              · exact finite_parseInlineVal _
              · rfl
            · apply okAll_exBind _ pvEntriesFinite _ _ (finite_parseEntries _)
              intro es hes
              exact finite_checkEntries es hes
  | t :: t2 :: ts => by
    rw [parseRoot.eq_def]
    simp only []
    apply okAll_exBind _ pvEntriesFinite _ _ (finite_parseEntries _)
    intro es hes
    exact finite_checkEntries es hes


theorem all_congr_mem {α : Type} (l : List α) (f g : α → Bool)
    (h : ∀ x ∈ l, f x = g x) : l.all f = l.all g := by
  induction l with
  | nil => rfl
  | cons a l ih =>
    rw [List.all_cons, List.all_cons, h a (by simp), ih (fun x hx => h x (by simp [hx]))]

theorem noNonFinite_eq : ∀ (v : JsonValue), noNonFinite v = allPrims primFinite v := by
  apply JsonValue.inductionOn
  · intro p
    rw [noNonFinite, allPrims, allPrims]
    cases p <;> rfl
  · intro xs ih
    rw [noNonFinite, allPrims, allPrims, allPrimsList_eq_all, allPrimsList_eq_all]
    apply all_congr_mem
    intro x hx
    have hx2 := ih x hx
    rw [noNonFinite] at hx2
    rw [hx2]
  · intro kvs ih
    rw [noNonFinite, allPrims, allPrims, allPrimsEntries_eq_all, allPrimsEntries_eq_all]
    apply all_congr_mem
    intro kv hkv
    have hkv2 := ih kv hkv
    rw [noNonFinite] at hkv2
    rw [hkv2]

mutual
theorem finite_deflag : ∀ (pv : PValue), pvFinite pv = true →
    allPrims primFinite (deflag pv) = true
  | .prim p, h => by
    rw [deflag, allPrims]
    rw [pvFinite] at h
    exact h
  | .arr xs, h => by
    rw [deflag, allPrims]
    rw [pvFinite] at h
    exact finite_deflagList xs h
  | .obj kvs, h => by
    rw [deflag, allPrims]
    rw [pvFinite] at h
    exact finite_deflagEntries kvs h
theorem finite_deflagList : ∀ (xs : List PValue), pvListFinite xs = true →
    allPrimsList primFinite (deflagList xs) = true
  | [], _ => by rw [deflagList, allPrimsList]
  | x :: xs, h => by
    rw [pvListFinite, Bool.and_eq_true] at h
    rw [deflagList, allPrimsList, finite_deflag x h.1, finite_deflagList xs h.2]
    rfl
theorem finite_deflagEntries : ∀ (es : List (Str × Bool × PValue)),
    pvEntriesFinite es = true → allPrimsEntries primFinite (deflagEntries es) = true
  | [], _ => by rw [deflagEntries, allPrimsEntries]
  | (k, q, v) :: es, h => by
    rw [pvEntriesFinite, Bool.and_eq_true] at h
    rw [deflagEntries, allPrimsEntries, finite_deflag v h.1, finite_deflagEntries es h.2]
    rfl
end

theorem finite_nestPath : ∀ (ks : List Str) (u : JsonValue),
    allPrims primFinite u = true → allPrims primFinite (nestPath ks u) = true
  | [], u, h => by rw [nestPath]; exact h
  | k :: ks, u, h => by
    rw [nestPath, allPrims, allPrimsEntries, finite_nestPath ks u h, allPrimsEntries]
    rfl

theorem finite_lookup : ∀ (acc : List (Str × JsonValue)) (k : Str) (w : JsonValue),
    allPrimsEntries primFinite acc = true → lookupEntry acc k = some w →
    allPrims primFinite w = true
  | [], k, w, _, hl => by rw [lookupEntry] at hl; exact absurd hl (by simp)
  | (k2, v2) :: acc, k, w, h, hl => by
    rw [allPrimsEntries, Bool.and_eq_true] at h
    rw [lookupEntry] at hl
    split at hl
    · injection hl with h2
      rw [← h2]
      exact h.1
    · exact finite_lookup acc k w h.2 hl

theorem finite_replace : ∀ (acc : List (Str × JsonValue)) (k : Str) (w : JsonValue),
    allPrimsEntries primFinite acc = true → allPrims primFinite w = true →
    allPrimsEntries primFinite (replaceEntry acc k w) = true
  | [], _, _, _, _ => rfl
  | (k2, v2) :: acc, k, w, h, hw => by
    rw [allPrimsEntries, Bool.and_eq_true] at h
    rw [replaceEntry]
    split
    · rw [allPrimsEntries, hw, h.2]
      rfl
    · rw [allPrimsEntries, h.1, finite_replace acc k w h.2 hw]
      rfl

theorem finite_append_entry (acc : List (Str × JsonValue)) (k : Str) (w : JsonValue)
    (h : allPrimsEntries primFinite acc = true) (hw : allPrims primFinite w = true) :
    allPrimsEntries primFinite (acc ++ [(k, w)]) = true := by
  induction acc with
  | nil =>
    rw [List.nil_append, allPrimsEntries, hw, allPrimsEntries]
    rfl
  | cons e acc ih =>
    obtain ⟨k2, v2⟩ := e
    rw [allPrimsEntries, Bool.and_eq_true] at h
    rw [List.cons_append, allPrimsEntries, h.1, ih h.2]
    rfl

mutual
theorem finite_insertPath : ∀ (acc : List (Str × JsonValue)) (path : List Str)
    (v : JsonValue), allPrimsEntries primFinite acc = true →
    allPrims primFinite v = true →
    okAll (allPrimsEntries primFinite) (insertPath acc path v) = true
  | acc, [], v, _, _ => by rw [insertPath]; rfl
  | acc, [k], v, h, hv => by
    rw [insertPath]
    split
    · exact okAll_of_ok (finite_append_entry acc k v h hv)
    · split
      · split
        · apply okAll_exBind _ (allPrimsEntries primFinite) _ _
            (finite_mergeEntries _ _ (by
              rw [show allPrims primFinite (.obj _) = allPrimsEntries primFinite _ from
                by rw [allPrims]] at *
              exact finite_lookup acc k _ h (by assumption))
              (by rw [allPrims] at hv; exact hv))
          intro m hm
          apply okAll_of_ok
          exact finite_replace acc k (.obj m) h (by rw [allPrims]; exact hm)
        · rfl
        · rfl
      · rfl
      · rfl
  | acc, k :: k2 :: ks, v, h, hv => by
    rw [insertPath]
    split
    · exact okAll_of_ok (finite_append_entry acc k _ h (finite_nestPath _ v hv))
    · split
      · apply okAll_exBind _ (allPrimsEntries primFinite) _ _
          (finite_insertPath _ (k2 :: ks) v (by
            have := finite_lookup acc k _ h (by assumption)
            rw [allPrims] at this
            exact this) hv)
        intro m hm
        apply okAll_of_ok
        exact finite_replace acc k (.obj m) h (by rw [allPrims]; exact hm)
      · rfl
      · rfl
termination_by acc path v => (sizeOf v, path.length)
theorem finite_mergeEntries : ∀ (we ve : List (Str × JsonValue)),
    allPrimsEntries primFinite we = true → allPrimsEntries primFinite ve = true →
    okAll (allPrimsEntries primFinite) (mergeEntries we ve) = true
  | we, [], h, _ => by rw [mergeEntries]; exact okAll_of_ok h
  | we, (k, v) :: ve, h, hv => by
    rw [allPrimsEntries, Bool.and_eq_true] at hv
    rw [mergeEntries]
    apply okAll_exBind _ (allPrimsEntries primFinite) _ _
      (finite_insertPath we [k] v h hv.1)
    intro m hm
    exact finite_mergeEntries m ve hm hv.2
termination_by we ve => (sizeOf ve, 0)
end

theorem finite_assembleObjAux : ∀ (ws : List (Str × Bool × JsonValue))
    (acc : List (Str × JsonValue)), allPrimsEntries primFinite acc = true →
    ws.all (fun e => allPrims primFinite e.2.2) = true →
    okAll (allPrimsEntries primFinite) (assembleObjAux acc ws) = true
  | [], acc, h, _ => by rw [assembleObjAux]; exact okAll_of_ok h
  | (k, q, w) :: ws, acc, h, hws => by
    rw [List.all_cons, Bool.and_eq_true] at hws
    rw [assembleObjAux]
    apply okAll_exBind _ (allPrimsEntries primFinite) _ _
      (finite_insertPath acc _ w h hws.1)
    intro acc2 hacc2
    exact finite_assembleObjAux ws acc2 hacc2 hws.2

mutual
theorem finite_expandP : ∀ (pv : PValue), pvFinite pv = true →
    okAll (allPrims primFinite) (expandP pv) = true
  | .prim p, h => by
    rw [expandP]
    apply okAll_of_ok
    rw [allPrims]
    rw [pvFinite] at h
    exact h
  | .arr xs, h => by
    rw [pvFinite] at h
    rw [expandP]
    apply okAll_exBind _ (fun ys => ys.all (allPrims primFinite)) _ _
      (finite_expandList xs h)
    intro ys hys
    apply okAll_of_ok
    rw [allPrims, allPrimsList_eq_all]
    exact hys
  | .obj kvs, h => by
    rw [pvFinite] at h
    rw [expandP]
    apply okAll_exBind _ (fun ws => ws.all (fun e => allPrims primFinite e.2.2)) _ _
      (finite_expandEntries kvs h)
    intro ws hws
    apply okAll_exBind _ (allPrimsEntries primFinite) _ _
      (finite_assembleObjAux ws [] rfl hws)
    intro es hes
    apply okAll_of_ok
    rw [allPrims]
    exact hes
theorem finite_expandList : ∀ (xs : List PValue), pvListFinite xs = true →
    okAll (fun ys => ys.all (allPrims primFinite)) (expandList xs) = true
  | [], _ => by rw [expandList]; rfl
  | x :: xs, h => by
    rw [pvListFinite, Bool.and_eq_true] at h
    rw [expandList]
    apply okAll_exBind _ (allPrims primFinite) _ _ (finite_expandP x h.1)
    intro y hy
    apply okAll_exBind _ (fun ys => ys.all (allPrims primFinite)) _ _
      (finite_expandList xs h.2)
    intro ys hys
    apply okAll_of_ok
    rw [List.all_cons, hy, hys]
    rfl
theorem finite_expandEntries : ∀ (es : List (Str × Bool × PValue)),
    pvEntriesFinite es = true →
    okAll (fun ws => ws.all (fun e => allPrims primFinite e.2.2)) (expandEntries es) = true
  | [], _ => by rw [expandEntries]; rfl
  | (k, q, v) :: es, h => by
    rw [pvEntriesFinite, Bool.and_eq_true] at h
    rw [expandEntries]
    apply okAll_exBind _ (allPrims primFinite) _ _ (finite_expandP v h.1)
    intro w hw
    apply okAll_exBind _ (fun ws => ws.all (fun e => allPrims primFinite e.2.2)) _ _
      (finite_expandEntries es h.2)
    intro ws hws
    apply okAll_of_ok
    rw [List.all_cons, hws]
    simpa using hw
end


/-- Any successfully decoded value contains no non-finite number. -/
theorem tryDecode_finite (text : Str) (o : DecodeOptions) (v : JsonValue)
    (h : tryDecode text o = .ok v) : noNonFinite v = true := by
  rw [tryDecode] at h
  cases h1 : analyzeLines (o.strict.getD true) (o.indent.getD 2) (splitLines text) with
  | error e =>
    rw [h1, exBind_error] at h
    exact absurd h (by simp)
  | ok ls0 =>
    rw [h1, exBind_ok] at h
    cases h2 : buildF ((dashSplit ls0).length + 1) 0 (dashSplit ls0) with
    | error e =>
      rw [h2, exBind_error] at h
      exact absurd h (by simp)
    | ok p =>
      rw [h2, exBind_ok] at h
      cases h3 : parseRoot p.1 with
      | error e =>
        rw [h3, exBind_error] at h
        exact absurd h (by simp)
      | ok pv =>
        rw [h3, exBind_ok] at h
        have hfin : pvFinite pv = true := by
          have hfr := finite_parseRoot p.1
          rw [h3] at hfr
          exact hfr
        rw [noNonFinite_eq]
        cases hm : o.expand_paths.getD .off with
        | off =>
          rw [hm] at h
          simp only [] at h
          injection h with h4
          rw [← h4]
          exact finite_deflag pv hfin
        | safe =>
          rw [hm] at h
          simp only [] at h
          have hfx := finite_expandP pv hfin
          rw [h] at hfx
          exact hfx

/-- C3: non-finite collapse — the scalar lexicon renders every non-finite
number (`NaN`, `+inf`, `-inf`) as the literal `null` (encoding cannot fail
on them), and no value returned by `tryDecode` or `decode` contains a
non-finite number. -/
theorem claim_C3_nonfinite_null :
    (∀ (delim : Char) (x : F64), x.finite = false →
        renderPrim delim (.num x) = nullTok)
    ∧ (∀ (text : Str) (o : DecodeOptions) (v : JsonValue),
        tryDecode text o = .ok v → noNonFinite v = true)
    ∧ (∀ (text : Str) (o : DecodeOptions), noNonFinite (decode text o) = true) := by
  refine ⟨?_, fun text o v h => tryDecode_finite text o v h, ?_⟩
  · intro delim x hx
    cases x with
    | fin neg ip frac =>
      rw [F64.finite] at hx
      exact absurd hx (by simp)
    | nan => rfl
    | posInf => rfl
    | negInf => rfl
  · intro text o
    cases h : tryDecode text o with
    | ok v =>
      rw [decode, h]
      exact tryDecode_finite text o v h
    | error e =>
      rw [decode, h]
      rfl

theorem claim_C3_nonfinite_null_witness :
    (F64.nan.finite = false ∧ renderPrim ',' (.num F64.nan) = nullTok)
    ∧ (tryDecode (encode (.prim (.num F64.nan)) ⟨none, none, none, none, none⟩)
        (inverseOpts ⟨none, none, none, none, none⟩)
        = .ok (scrubV (.prim (.num F64.nan)))
      ∧ noNonFinite (scrubV (.prim (.num F64.nan))) = true) :=
  ⟨⟨rfl, claim_C3_nonfinite_null.1 ',' F64.nan rfl⟩,
    ⟨tryDecode_encode (.prim (.num F64.nan)) ⟨none, none, none, none, none⟩
        ⟨by decide, by decide, rfl⟩ (by decide),
      claim_C3_nonfinite_null.2.1 _ _ _
        (tryDecode_encode (.prim (.num F64.nan)) ⟨none, none, none, none, none⟩
          ⟨by decide, by decide, rfl⟩ (by decide))⟩⟩


/-! ## Tabular form of uniform scalar object arrays -/

/-- A JSON value that is a scalar. -/
def isPrimJ : JsonValue → Bool
  | .prim _ => true
  | .arr _ => false
  | .obj _ => false

/-- The amended tabular hypothesis at the JSON level: an object with
exactly the key sequence `cols` and only scalar values.  `jsonRowSet`
below states §4.4 condition 3's literal key-set wording, which the
counterexample shows cannot support the claim. -/
def jsonRow (cols : List Str) : JsonValue → Bool
  | .obj es => decide (es.map (fun e => e.1) = cols) && es.all (fun e => isPrimJ e.2)
  | .prim _ => false
  | .arr _ => false

theorem jsonRow_spec {cols : List Str} {x : JsonValue} (h : jsonRow cols x = true) :
    ∃ es, x = .obj es ∧ es.map (fun e => e.1) = cols
      ∧ es.all (fun e => isPrimJ e.2) = true := by
  cases x with
  | obj es =>
    rw [jsonRow, Bool.and_eq_true, decide_eq_true_eq] at h
    exact ⟨es, rfl, h.1, h.2⟩
  | prim p => simp [jsonRow] at h
  | arr a => simp [jsonRow] at h

theorem foldOffList_length : ∀ (xs : List JsonValue),
    (foldOffList xs).length = xs.length
  | [] => rfl
  | x :: xs => by rw [foldOffList, List.length_cons, List.length_cons, foldOffList_length xs]

theorem foldOffEntries_keys : ∀ (es : List (Str × JsonValue)),
    (foldOffEntries es).map (fun e => e.1)
      = (es.map (fun e => e.1)).map (fun k => [k])
  | [] => rfl
  | (k, v) :: es => by
    rw [foldOffEntries, List.map_cons, List.map_cons, List.map_cons,
      foldOffEntries_keys es]

theorem foldOffEntries_scalar : ∀ (es : List (Str × JsonValue)),
    es.all (fun e => isPrimJ e.2) = true →
    (foldOffEntries es).all (fun e => (fvalScalar e.2).isSome) = true
  | [], _ => rfl
  | (k, v) :: es, h => by
    rw [List.all_cons, Bool.and_eq_true] at h
    rw [foldOffEntries, List.all_cons, foldOffEntries_scalar es h.2]
    cases v with
    | prim p => rfl
    | arr a => exact Bool.noConfusion h.1
    | obj o => exact Bool.noConfusion h.1

theorem jsonRow_foldOff {cols : List Str} {x : JsonValue} (h : jsonRow cols x = true) :
    rowOk (cols.map (fun k => [k])) (foldOffV x) = true := by
  obtain ⟨es, rfl, hkeys, hscalar⟩ := jsonRow_spec h
  rw [foldOffV, rowOk, Bool.and_eq_true]
  constructor
  · rw [decide_eq_true_eq, foldOffEntries_keys, hkeys]
  · exact foldOffEntries_scalar es hscalar

theorem foldOffList_rowOk {cols : List Str} : ∀ (xs : List JsonValue),
    (∀ x ∈ xs, jsonRow cols x = true) →
    (foldOffList xs).all (rowOk (cols.map (fun k => [k]))) = true
  | [], _ => rfl
  | x :: xs, h => by
    rw [foldOffList, List.all_cons, jsonRow_foldOff (h x (by simp)),
      foldOffList_rowOk xs (fun y hy => h y (by simp [hy]))]
    rfl

/-- The analyzer chooses the tabular schema for a uniform scalar object
array encoded without folding. -/
theorem isTabular_foldOff (cols : List Str) (hcols : cols ≠ []) :
    ∀ (xs : List JsonValue), xs ≠ [] → (∀ x ∈ xs, jsonRow cols x = true) →
    isTabular (foldOffList xs) = some (cols.map (fun k => [k])) := by
  intro xs hne hall
  cases xs with
  | nil => exact absurd rfl hne
  | cons x0 rest =>
    obtain ⟨es0, rfl, hkeys, hscalar⟩ := jsonRow_spec (hall x0 (by simp))
    rw [foldOffList, foldOffV]
    cases hfe : foldOffEntries es0 with
    | nil =>
      have : es0 = [] := by
        cases es0 with
        | nil => rfl
        | cons e es => rw [foldOffEntries] at hfe; exact absurd hfe (by simp)
      rw [this] at hkeys
      exact absurd hkeys.symm hcols
    | cons e es2 =>
      rw [isTabular_cons]
      have hsch : (e :: es2).map (fun e2 => e2.1) = cols.map (fun k => [k]) := by
        rw [← hfe, foldOffEntries_keys, hkeys]
      rw [hsch]
      rw [if_pos ?_]
      rw [Bool.and_eq_true]
      constructor
      · exact foldOffList_rowOk rest (fun y hy => hall y (by simp [hy]))
      · rw [← hfe]
        exact foldOffEntries_scalar es0 hscalar

/-- C4 (amended): for a non-empty array of objects with the same non-empty
key sequence (first-element insertion order) and only scalar values,
encoding without folding chooses the tabular form — one header line naming
the columns with one child row line per element — and decoding that output
recovers the identical sequence; with an empty or merely set-equal (not
sequence-equal) schema the encoder falls back to the list form, so the
frozen claim's key-set reading fails (see the counterexample). -/
theorem claim_C4_tabular (xs : List JsonValue) (cols : List Str)
    (hne : xs ≠ []) (hcols : cols ≠ [])
    (hrows : ∀ x ∈ xs, jsonRow cols x = true)
    (o : EncodeOptions) (hS : SupportedOpts o) (hfold : effFold o = .off)
    (hwf : wfV (.arr xs) = true) :
    isTabular (foldOffList xs) = some (cols.map (fun k => [k]))
    ∧ emitRoot (effDelim o) (foldOffV (.arr xs))
        = [.node ('[' :: natChars xs.length ++ ']'
              :: lbrace :: intercalateD (effDelim o)
                ((cols.map (fun k => [k])).map renderPath)
              ++ rbrace :: ':' :: tabAnn (effDelim o))
            ((foldOffList xs).map (emitRow (effDelim o)))]
    ∧ ((foldOffList xs).map (emitRow (effDelim o))).length = xs.length
    ∧ tryDecode (encode (.arr xs) o) (inverseOpts o) = .ok (scrubV (.arr xs)) := by
  have htab := isTabular_foldOff cols hcols xs hne hrows
  have hsc : allScalar (foldOffList xs) = none := by
    cases xs with
    | nil => exact absurd rfl hne
    | cons x0 rest =>
      obtain ⟨es0, rfl, _, _⟩ := jsonRow_spec (hrows x0 (by simp))
      rw [foldOffList, foldOffV, allScalar, fvalScalar]
  refine ⟨htab, ?_, by rw [List.length_map, foldOffList_length], tryDecode_encode _ o hS hwf⟩
  cases hfl : foldOffList xs with
  | nil =>
    cases xs with
    | nil => exact absurd rfl hne
    | cons x0 rest => rw [foldOffList] at hfl; exact absurd hfl (by simp)
  | cons f0 frest =>
    have hkids : arrKids (effDelim o) (foldOffList xs)
        = (foldOffList xs).map (emitRow (effDelim o)) := by
      rw [arrKids, hsc, htab]
    rw [show foldOffV (.arr xs) = .arr (foldOffList xs) from by rw [foldOffV], hfl,
      emitRoot, ← hfl, foldOffList_length, arrSuffix, hsc, htab]
    simp only []
    rw [hkids]
    simp

/-- Two key lists naming the same set of keys (§4.4 condition 3's literal
wording: "the set of keys is identical across all elements"). -/
def keySetEq (ks cols : List Str) : Bool :=
  ks.all (fun k => cols.contains k) && cols.all (fun k => ks.contains k)

/-- Modelled from the spec (§4.4, literal wording): a JSON array element
whose keys form the same *set* as `cols` (order free) with only scalar
values. -/
def jsonRowSet (cols : List Str) : JsonValue → Bool
  | .obj es => keySetEq (es.map (fun e => e.1)) cols && es.all (fun e => isPrimJ e.2)
  | .prim _ => false
  | .arr _ => false

/-- A successfully parsed tabular row is an object built from the schema:
its entries pair the schema's keys, in schema order, with the row's cells. -/
theorem parseRow_shape (delim : Char) (cols : List (Str × Bool)) (t : LTree)
    (v : PValue) (h : parseRow delim cols t = .ok v) :
    ∃ ps : List Prim, ps.length = cols.length
      ∧ v = .obj (List.zipWith (fun kq p => (kq.1, kq.2, PValue.prim p)) cols ps) := by
  obtain ⟨c, kids⟩ := t
  rw [parseRow] at h
  split at h
  · cases hc : parseCells (splitCells delim c) with
    | error e =>
      rw [hc, exBind_error] at h
      exact absurd h (by simp)
    | ok ps =>
      rw [hc, exBind_ok] at h
      split at h
      · injection h with h2
        exact ⟨ps, by assumption, h2.symm⟩
      · exact absurd h (by simp)
  · exact absurd h (by simp)

/-- C4 (counterexample to the frozen claim): two failure modes.  First,
`[⟨⟩]` is a non-empty array of objects with identical key sets and only
scalar values, yet the analyzer rejects it (empty schema) and the encoder
emits the list form.  Second, an array whose two elements carry the same
key *set* `{a, b}` in different insertion orders also satisfies the frozen
claim's hypotheses under §4.4's literal set wording, yet the encoder falls
back to the list form — and necessarily so: every decoded tabular row
carries the schema's key order (§4.6), so no row line whatsoever can decode
to the order-reversed second element, hence "the encoder chooses tabular
form and decoding recovers the identical sequence" is unsatisfiable for it
under §3's insertion-ordered value equality.  The claim therefore fails as
frozen, and the amendment's restriction to identical key sequences is
forced. -/
theorem claim_C4_tabular_counterexample :
    (([JsonValue.obj []] ≠ [] ∧ (∀ x ∈ [JsonValue.obj []], jsonRowSet [] x = true))
      ∧ isTabular (foldOffList [JsonValue.obj []]) = none
      ∧ encode (.arr [.obj []]) ⟨none, none, none, none, none⟩
          = ("[1]:\n  - \x7b\x7d").data)
    ∧ ((∀ x ∈ [JsonValue.obj [("a".data, .prim (.num (.fin false 1 []))),
            ("b".data, .prim (.num (.fin false 2 [])))],
          JsonValue.obj [("b".data, .prim (.num (.fin false 3 []))),
            ("a".data, .prim (.num (.fin false 4 [])))]],
          jsonRowSet ["a".data, "b".data] x = true)
      ∧ isTabular (foldOffList [JsonValue.obj [("a".data, .prim (.num (.fin false 1 []))),
            ("b".data, .prim (.num (.fin false 2 [])))],
          JsonValue.obj [("b".data, .prim (.num (.fin false 3 []))),
            ("a".data, .prim (.num (.fin false 4 [])))]]) = none
      ∧ (∀ (t : LTree) (v : PValue),
          parseRow ',' [("a".data, false), ("b".data, false)] t = .ok v →
          deflag v ≠ .obj [("b".data, .prim (.num (.fin false 3 []))),
            ("a".data, .prim (.num (.fin false 4 [])))])) := by
  refine ⟨⟨⟨by simp, by decide⟩, by decide, ?_⟩, by decide, by decide, ?_⟩
  case refine_2 =>
    intro t v h
    obtain ⟨ps, hlen, hv⟩ := parseRow_shape ',' _ t v h
    cases ps with
    | nil => simp at hlen
    | cons p1 ps2 =>
      cases ps2 with
      | nil => simp at hlen
      | cons p2 ps3 =>
        cases ps3 with
        | cons p3 ps4 => simp at hlen
        | nil =>
          rw [hv]
          intro heq
          have hkey := congrArg (fun w => match w with
            | JsonValue.obj ((k, _) :: _) => k
            | _ => ([] : Str)) heq
          have hkey2 : ("a".data : Str) = "b".data := hkey
          exact absurd hkey2 (by decide)
  have harm : arrKids ',' [FVal.obj []] = [.node ['-'] [.node emptyObjTok []]] := by
    rw [arrKids, show allScalar [FVal.obj []] = none from rfl]
    rw [show isTabular [FVal.obj []] = none from rfl]
    rw [emitElems, emitElem, emitElems]
  have hroot : emitRoot ',' (FVal.arr [FVal.obj []])
      = [.node ("[1]:").data [.node ['-'] [.node emptyObjTok []]]] := by
    rw [emitRoot, harm,
      show natChars [FVal.obj []].length = ['1'] from by
        rw [natChars, show digitsOf [FVal.obj []].length = [1] from by rw [digitsOf]; rfl]
        rfl]
    rfl
  have htext : encode (.arr [.obj []]) ⟨none, none, none, none, none⟩
      = joinLines ((dashJoin (flattenForest 0
          (emitRoot ',' (FVal.arr [FVal.obj []])))).map (renderLine 2)) := by
    rw [encode]
    rfl
  rw [htext, hroot,
    show flattenForest 0 [LTree.node ("[1]:").data [.node ['-'] [.node emptyObjTok []]]]
      = [(0, ("[1]:").data), (1, ['-']), (2, emptyObjTok)] from rfl,
    dashJoin_plain 0 ("[1]:").data _ (by decide),
    dashJoin_marker 1 2 emptyObjTok [] rfl,
    dashJoin_nil]
  rfl

theorem claim_C4_tabular_witness :
    (([JsonValue.obj [("a".data, .prim (.num (.fin false 1 []))),
          ("b".data, .prim (.str "x".data))],
        JsonValue.obj [("a".data, .prim (.num (.fin false 2 []))),
          ("b".data, .prim (.str "y".data))]] : List JsonValue) ≠ []
      ∧ ["a".data, "b".data] ≠ ([] : List Str)
      ∧ (∀ x ∈ ([JsonValue.obj [("a".data, .prim (.num (.fin false 1 []))),
            ("b".data, .prim (.str "x".data))],
          JsonValue.obj [("a".data, .prim (.num (.fin false 2 []))),
            ("b".data, .prim (.str "y".data))]] : List JsonValue),
          jsonRow ["a".data, "b".data] x = true)
      ∧ SupportedOpts ⟨none, none, none, none, none⟩
      ∧ effFold ⟨none, none, none, none, none⟩ = .off
      ∧ wfV (.arr [JsonValue.obj [("a".data, .prim (.num (.fin false 1 []))),
            ("b".data, .prim (.str "x".data))],
          JsonValue.obj [("a".data, .prim (.num (.fin false 2 []))),
            ("b".data, .prim (.str "y".data))]] ) = true)
    ∧ isTabular (foldOffList [JsonValue.obj [("a".data, .prim (.num (.fin false 1 []))),
          ("b".data, .prim (.str "x".data))],
        JsonValue.obj [("a".data, .prim (.num (.fin false 2 []))),
          ("b".data, .prim (.str "y".data))]])
        = some ((["a".data, "b".data]).map (fun k => [k])) :=
  ⟨⟨by simp, by simp, by decide, ⟨by decide, by decide, rfl⟩, rfl, by decide⟩,
    (claim_C4_tabular _ ["a".data, "b".data] (by simp) (by simp) (by decide)
      ⟨none, none, none, none, none⟩ ⟨by decide, by decide, rfl⟩ rfl (by decide)).1⟩

end Toon
